import Mathlib

/-!
Verification development for the rust-bitcoin address codec
(`src/util/address.rs`) and the PSBT global map
(`src/util/psbt/map/global.rs`).

Rust `BTreeMap`s are embedded as association lists sorted strictly by a
comparator; machine integers are `Nat` with explicit bounds; fallible code
returns `Except`.
-/

set_option linter.unusedVariables false
set_option linter.unreachableTactic false
set_option linter.unusedTactic false
set_option autoImplicit false
set_option maxRecDepth 100000

deriving instance DecidableEq for Except

/-- Comparator on `Nat`, mirroring the total order used by Rust's `Ord` on
unsigned integers. -/
def natCmp (a b : Nat) : Ordering :=
  if a < b then .lt else if a = b then .eq else .gt

theorem natCmp_lt {a b : Nat} (h : a < b) : natCmp a b = .lt := by
  unfold natCmp; simp [h]

theorem natCmp_eq {a b : Nat} (h : a = b) : natCmp a b = .eq := by
  unfold natCmp; simp [h]

theorem natCmp_gt {a b : Nat} (h : b < a) : natCmp a b = .gt := by
  unfold natCmp
  have h1 : ¬ a < b := by omega
  have h2 : ¬ a = b := by omega
  simp [h1, h2]

/-- The laws a comparator must satisfy for the sorted-map development:
reflexivity of equality, antisymmetry via `swap`, and transitivity of the
strict part. -/
structure CmpLaws {κ : Type} (c : κ → κ → Ordering) : Prop where
  eq_iff : ∀ a b, c a b = .eq ↔ a = b
  swap : ∀ a b, c b a = (c a b).swap
  lt_trans : ∀ a b d, c a b = .lt → c b d = .lt → c a d = .lt

theorem natCmp_laws : CmpLaws natCmp := by
  refine ⟨?_, ?_, ?_⟩
  · intro a b
    rcases Nat.lt_trichotomy a b with h | h | h
    · rw [natCmp_lt h]; simp; omega
    · rw [natCmp_eq h]; simp [h]
    · rw [natCmp_gt h]; simp; omega
  · intro a b
    rcases Nat.lt_trichotomy a b with h | h | h
    · rw [natCmp_lt h, natCmp_gt h]; rfl
    · rw [natCmp_eq h, natCmp_eq h.symm]; rfl
    · rw [natCmp_gt h, natCmp_lt h]; rfl
  · intro a b d hab hbd
    have h1 : a < b := by
      by_contra hc
      rcases Nat.lt_or_ge a b with h | h
      · exact hc h
      · rcases Nat.eq_or_lt_of_le h with h' | h'
        · rw [natCmp_eq h'.symm] at hab; cases hab
        · rw [natCmp_gt h'] at hab; cases hab
    have h2 : b < d := by
      by_contra hc
      rcases Nat.lt_or_ge b d with h | h
      · exact hc h
      · rcases Nat.eq_or_lt_of_le h with h' | h'
        · rw [natCmp_eq h'.symm] at hbd; cases hbd
        · rw [natCmp_gt h'] at hbd; cases hbd
    exact natCmp_lt (Nat.lt_trans h1 h2)

theorem CmpLaws.refl {κ : Type} {c : κ → κ → Ordering} (L : CmpLaws c) (a : κ) :
    c a a = .eq := (L.eq_iff a a).mpr rfl

theorem CmpLaws.lt_ne {κ : Type} {c : κ → κ → Ordering} (L : CmpLaws c) {a b : κ}
    (h : c a b = .lt) : a ≠ b := by
  intro he
  subst he
  rw [L.refl a] at h
  cases h

theorem CmpLaws.gt_iff {κ : Type} {c : κ → κ → Ordering} (L : CmpLaws c) (a b : κ) :
    c a b = .gt ↔ c b a = .lt := by
  rw [L.swap b a]
  cases h : c b a <;> simp [Ordering.swap]

/-- Lookup in an association list keyed by a comparator (`BTreeMap::get`). -/
def mLookup {κ ν : Type} (c : κ → κ → Ordering) (l : List (κ × ν)) (k : κ) :
    Option ν :=
  match l with
  | [] => none
  | (k', v) :: t => match c k k' with
    | .eq => some v
    | _ => mLookup c t k

/-- Ordered insert, replacing any existing binding (`BTreeMap::insert`). -/
def mInsert {κ ν : Type} (c : κ → κ → Ordering) (k : κ) (v : ν) :
    List (κ × ν) → List (κ × ν)
  | [] => [(k, v)]
  | (k', v') :: t => match c k k' with
    | .lt => (k, v) :: (k', v') :: t
    | .eq => (k, v) :: t
    | .gt => (k', v') :: mInsert c k v t

/-- Strict sortedness by key: the invariant of a `BTreeMap` snapshot. -/
def mSorted {κ ν : Type} (c : κ → κ → Ordering) (l : List (κ × ν)) : Prop :=
  List.Pairwise (fun a b => c a.1 b.1 = .lt) l

theorem mSorted_nil {κ ν : Type} (c : κ → κ → Ordering) :
    mSorted c ([] : List (κ × ν)) := List.Pairwise.nil

theorem mSorted_cons_iff {κ ν : Type} {c : κ → κ → Ordering} {p : κ × ν}
    {t : List (κ × ν)} :
    mSorted c (p :: t) ↔ (∀ q ∈ t, c p.1 q.1 = .lt) ∧ mSorted c t := by
  simp [mSorted, List.pairwise_cons]

theorem mLookup_nil {κ ν : Type} (c : κ → κ → Ordering) (k : κ) :
    mLookup c ([] : List (κ × ν)) k = none := rfl

theorem mLookup_cons_self {κ ν : Type} {c : κ → κ → Ordering} (L : CmpLaws c)
    (k : κ) (v : ν) (t : List (κ × ν)) :
    mLookup c ((k, v) :: t) k = some v := by
  simp only [mLookup, L.refl k]

theorem mLookup_cons_of_ne {κ ν : Type} {c : κ → κ → Ordering}
    {k k' : κ} (h : c k k' ≠ .eq) (v : ν) (t : List (κ × ν)) :
    mLookup c ((k', v) :: t) k = mLookup c t k := by
  cases hc : c k k' with
  | lt => simp [mLookup, hc]
  | eq => exact absurd hc h
  | gt => simp [mLookup, hc]

theorem mLookup_cons_of_lt {κ ν : Type} {c : κ → κ → Ordering}
    {k k' : κ} (h : c k k' = .lt) (v : ν) (t : List (κ × ν)) :
    mLookup c ((k', v) :: t) k = mLookup c t k :=
  mLookup_cons_of_ne (by rw [h]; intro hx; cases hx) v t

theorem mLookup_eq_none_of_all_lt {κ ν : Type} {c : κ → κ → Ordering}
    (L : CmpLaws c) {l : List (κ × ν)} {k : κ}
    (h : ∀ q ∈ l, c k q.1 = .lt) : mLookup c l k = none := by
  induction l with
  | nil => rfl
  | cons p t ih =>
    have hp := h p (List.mem_cons_self _ _)
    rw [show p = (p.1, p.2) from rfl, mLookup_cons_of_lt hp]
    exact ih (fun q hq => h q (List.mem_cons_of_mem _ hq))

theorem mem_mInsert {κ ν : Type} {c : κ → κ → Ordering} {k : κ} {v : ν} :
    ∀ {q : κ × ν} {t : List (κ × ν)},
      q ∈ mInsert c k v t → q = (k, v) ∨ q ∈ t := by
  intro q t hq
  induction t with
  | nil => simpa [mInsert] using hq
  | cons p' t' ih' =>
    obtain ⟨pk, pv⟩ := p'
    simp only [mInsert] at hq
    cases hc : c k pk <;> rw [hc] at hq
    · rcases List.mem_cons.mp hq with h | h
      · exact Or.inl h
      · exact Or.inr h
    · rcases List.mem_cons.mp hq with h | h
      · exact Or.inl h
      · exact Or.inr (List.mem_cons_of_mem _ h)
    · rcases List.mem_cons.mp hq with h | h
      · exact Or.inr (h ▸ List.mem_cons_self _ _)
      · rcases ih' h with h' | h'
        · exact Or.inl h'
        · exact Or.inr (List.mem_cons_of_mem _ h')

theorem mInsert_sorted {κ ν : Type} {c : κ → κ → Ordering} (L : CmpLaws c)
    {l : List (κ × ν)} (hs : mSorted c l) (k : κ) (v : ν) :
    mSorted c (mInsert c k v l) := by
  induction l with
  | nil => simp [mInsert, mSorted]
  | cons p t ih =>
    obtain ⟨hp, ht⟩ := mSorted_cons_iff.mp hs
    obtain ⟨pk, pv⟩ := p
    simp only [mInsert]
    cases hc : c k pk with
    | lt =>
      rw [mSorted_cons_iff]
      refine ⟨?_, hs⟩
      intro q hq
      rcases List.mem_cons.mp hq with h | h
      · subst h; exact hc
      · exact L.lt_trans _ _ _ hc (hp q h)
    | eq =>
      rw [mSorted_cons_iff]
      exact ⟨fun q hq => ((L.eq_iff k pk).mp hc) ▸ hp q hq, ht⟩
    | gt =>
      rw [mSorted_cons_iff]
      refine ⟨?_, ih ht⟩
      intro q hq
      rcases mem_mInsert hq with h | h
      · subst h; exact (L.gt_iff k pk).mp hc
      · exact hp q h

theorem mLookup_mInsert_self {κ ν : Type} {c : κ → κ → Ordering} (L : CmpLaws c)
    (l : List (κ × ν)) (k : κ) (v : ν) :
    mLookup c (mInsert c k v l) k = some v := by
  induction l with
  | nil => simp [mInsert, mLookup, L.refl k]
  | cons p t ih =>
    obtain ⟨pk, pv⟩ := p
    simp only [mInsert]
    cases hc : c k pk with
    | lt => exact mLookup_cons_self L k v _
    | eq => exact mLookup_cons_self L k v _
    | gt =>
      have hne : c k pk ≠ .eq := by rw [hc]; intro hx; cases hx
      rw [mLookup_cons_of_ne hne]
      exact ih

theorem mLookup_mInsert_ne {κ ν : Type} {c : κ → κ → Ordering} (L : CmpLaws c)
    (l : List (κ × ν)) {k k' : κ} (h : k' ≠ k) (v : ν) :
    mLookup c (mInsert c k v l) k' = mLookup c l k' := by
  have hne : c k' k ≠ .eq := fun he => h ((L.eq_iff k' k).mp he)
  induction l with
  | nil =>
    show mLookup c [(k, v)] k' = none
    rw [mLookup_cons_of_ne hne]
    rfl
  | cons p t ih =>
    obtain ⟨pk, pv⟩ := p
    simp only [mInsert]
    cases hc : c k pk with
    | lt => rw [mLookup_cons_of_ne hne]
    | eq =>
      have hkpk : k = pk := (L.eq_iff k pk).mp hc
      have hne2 : c k' pk ≠ .eq := hkpk ▸ hne
      rw [mLookup_cons_of_ne hne, mLookup_cons_of_ne hne2]
    | gt =>
      by_cases hk' : c k' pk = .eq
      · rw [mLookup]
        simp only [hk']
        rw [mLookup]
        simp only [hk']
      · rw [mLookup_cons_of_ne hk', mLookup_cons_of_ne hk']
        exact ih

/-- Two sorted association lists with the same lookup function are equal. -/
theorem mSorted_ext {κ ν : Type} {c : κ → κ → Ordering} (L : CmpLaws c) :
    ∀ {l₁ l₂ : List (κ × ν)}, mSorted c l₁ → mSorted c l₂ →
      (∀ k, mLookup c l₁ k = mLookup c l₂ k) → l₁ = l₂ := by
  intro l₁
  induction l₁ with
  | nil =>
    intro l₂ _ h₂ hl
    cases l₂ with
    | nil => rfl
    | cons q u =>
      obtain ⟨qk, qv⟩ := q
      have := hl qk
      rw [mLookup_nil, mLookup_cons_self L qk qv u] at this
      cases this
  | cons p t ih =>
    intro l₂ h₁ h₂ hl
    obtain ⟨pk, pv⟩ := p
    cases l₂ with
    | nil =>
      have := hl pk
      rw [mLookup_nil, mLookup_cons_self L pk pv t] at this
      cases this
    | cons q u =>
      obtain ⟨qk, qv⟩ := q
      obtain ⟨hpt, ht⟩ := mSorted_cons_iff.mp h₁
      obtain ⟨hqu, hu⟩ := mSorted_cons_iff.mp h₂
      have hkey : pk = qk := by
        cases hc : c pk qk with
        | eq => exact (L.eq_iff pk qk).mp hc
        | lt =>
          exfalso
          have h1 := hl pk
          rw [mLookup_cons_self L pk pv t, mLookup_cons_of_lt hc] at h1
          have h2 : mLookup c u pk = none :=
            mLookup_eq_none_of_all_lt L (fun r hr => L.lt_trans _ _ _ hc (hqu r hr))
          rw [h2] at h1
          cases h1
        | gt =>
          exfalso
          have hqp : c qk pk = .lt := (L.gt_iff pk qk).mp hc
          have h1 := hl qk
          rw [mLookup_cons_self L qk qv u, mLookup_cons_of_lt hqp] at h1
          have h2 : mLookup c t qk = none :=
            mLookup_eq_none_of_all_lt L
              (fun r hr => L.lt_trans _ _ _ hqp (hpt r hr))
          rw [h2] at h1
          cases h1
      have hval : pv = qv := by
        have h1 := hl pk
        rw [mLookup_cons_self L pk pv t, hkey, mLookup_cons_self L qk qv u] at h1
        exact Option.some.inj h1
      have htu : t = u := by
        refine ih ht hu ?_
        intro k
        by_cases hkp : k = pk
        · have hnt : mLookup c t k = none :=
            mLookup_eq_none_of_all_lt L (fun r hr => by rw [hkp]; exact hpt r hr)
          have hnu : mLookup c u k = none :=
            mLookup_eq_none_of_all_lt L
              (fun r hr => by rw [hkp, hkey]; exact hqu r hr)
          rw [hnt, hnu]
        · have hne : c k pk ≠ .eq := fun he => hkp ((L.eq_iff _ _).mp he)
          have hne' : c k qk ≠ .eq := hkey ▸ hne
          have h1 := hl k
          rw [mLookup_cons_of_ne hne, mLookup_cons_of_ne hne'] at h1
          exact h1
      rw [hkey, hval, htu]

/-- Appending a strictly larger key is the same as inserting it. -/
theorem mInsert_eq_append {κ ν : Type} {c : κ → κ → Ordering} (L : CmpLaws c)
    {l : List (κ × ν)} {k : κ} (h : ∀ q ∈ l, c q.1 k = .lt) (v : ν) :
    mInsert c k v l = l ++ [(k, v)] := by
  induction l with
  | nil => rfl
  | cons p t ih =>
    obtain ⟨pk, pv⟩ := p
    have hp := h (pk, pv) (List.mem_cons_self _ _)
    simp only [mInsert, (L.gt_iff k pk).mpr hp]
    rw [ih (fun q hq => h q (List.mem_cons_of_mem _ hq))]
    rfl

/-! ## Byte-level consensus primitives

The integer/varint consensus codecs are external collaborators of the
repository (spec §1 treats them as out-of-scope primitives); they are
modelled here from the standard Bitcoin consensus encoding the spec
references: little-endian fixed-width integers and the compact-size varint. -/

/-- All elements are bytes. -/
def BytesOk (l : List Nat) : Prop := ∀ b ∈ l, b < 256

instance : DecidablePred BytesOk := fun l =>
  inferInstanceAs (Decidable (∀ b ∈ l, b < 256))

/-- Little-endian value of a byte list. -/
def leNat : List Nat → Nat
  | [] => 0
  | b :: t => b + 256 * leNat t

/-- 4-byte little-endian encoding (`u32_to_array_le` / u32 consensus encode). -/
def u32le (n : Nat) : List Nat :=
  [n % 256, n / 256 % 256, n / 65536 % 256, n / 16777216 % 256]

/-- 8-byte little-endian encoding (u64 consensus encode). -/
def u64le (n : Nat) : List Nat :=
  [n % 256, n / 256 % 256, n / 65536 % 256, n / 16777216 % 256,
   n / 4294967296 % 256, n / 1099511627776 % 256,
   n / 281474976710656 % 256, n / 72057594037927936 % 256]

inductive ChildNumber where
  | normal (index : Nat)
  | hardened (index : Nat)
deriving DecidableEq, Repr

/-- Modelled from the spec: `ChildNumber` "carries a hardened/non-hardened
flag and a total order consistent with its 32-bit numeric encoding (hardened
flag in the high bit)". -/
def ChildNumber.toU32 : ChildNumber → Nat
  | .normal i => i
  | .hardened i => i + 2147483648

/-- `ChildNumber::from(u32)`: high bit selects hardened. -/
def ChildNumber.fromU32 (n : Nat) : ChildNumber :=
  if n < 2147483648 then .normal n else .hardened (n - 2147483648)

/-- Valid child numbers have a 31-bit index (guaranteed by construction in
the external bip32 library). -/
def ChildNumber.valid : ChildNumber → Prop
  | .normal i => i < 2147483648
  | .hardened i => i < 2147483648

instance : DecidablePred ChildNumber.valid := fun n => by
  cases n <;> (unfold ChildNumber.valid; infer_instance)

/-- `ChildNumber::is_normal`. -/
def ChildNumber.is_normal : ChildNumber → Bool
  | .normal _ => true
  | .hardened _ => false

/-- Order on child numbers: by 32-bit numeric encoding (spec §3). -/
def cnCmp (a b : ChildNumber) : Ordering := natCmp a.toU32 b.toU32

/-- A derivation path is an ordered sequence of child numbers. -/
abbrev DerivationPath : Type := List ChildNumber

/-- Lexicographic list comparator: elementwise, a strict prefix is smaller.
This is Rust's derived `Ord` on `Vec`. -/
def lexCmp {α : Type} (c : α → α → Ordering) : List α → List α → Ordering
  | [], [] => .eq
  | [], _ :: _ => .lt
  | _ :: _, [] => .gt
  | a :: as, b :: bs => match c a b with
    | .eq => lexCmp c as bs
    | o => o

/-- A fingerprint is a fixed 4-byte value, ordered bytewise (numerically,
big-endian). -/
abbrev Fingerprint : Type := List Nat

def Fingerprint.valid (f : Fingerprint) : Prop := f.length = 4 ∧ BytesOk f

/-- Modelled from the spec: `ExtendedPubKey` is an external opaque type with
a canonical fixed-width (78-byte) encoding and a total order; here it is its
own canonical encoding, ordered bytewise. -/
structure ExtendedPubKey where
  bytes : List Nat
deriving DecidableEq, Repr

def xpubCmp (a b : ExtendedPubKey) : Ordering := lexCmp natCmp a.bytes b.bytes

def ExtendedPubKey.valid (x : ExtendedPubKey) : Prop :=
  x.bytes.length = 78 ∧ BytesOk x.bytes

instance : DecidablePred ExtendedPubKey.valid := fun x =>
  inferInstanceAs (Decidable (_ ∧ _))

/-- `ExtendedPubKey::encode`: the canonical 78-byte encoding. -/
def ExtendedPubKey.encode (x : ExtendedPubKey) : List Nat := x.bytes

/-- `ExtendedPubKey::decode`: accepts exactly the canonical encodings. -/
def ExtendedPubKey.decode (bs : List Nat) : Option ExtendedPubKey :=
  if bs.length = 78 ∧ BytesOk bs then some ⟨bs⟩ else none

/-- `KeySource = (Fingerprint, DerivationPath)`. -/
abbrev KeySource : Type := Fingerprint × DerivationPath

/-- `raw::Key { type_value: u8, key: Vec<u8> }`. -/
structure RawKey where
  type_value : Nat
  key : List Nat
deriving DecidableEq, Repr

/-- Derived `Ord` on `raw::Key`: by `type_value`, then by key bytes. -/
def rawKeyCmp (a b : RawKey) : Ordering :=
  (natCmp a.type_value b.type_value).then (lexCmp natCmp a.key b.key)

def RawKey.valid (k : RawKey) : Prop := k.type_value < 256 ∧ BytesOk k.key

instance : DecidablePred RawKey.valid := fun k =>
  inferInstanceAs (Decidable (_ ∧ _))

/-- `raw::Pair { key: raw::Key, value: Vec<u8> }`. -/
structure RawPair where
  key : RawKey
  value : List Nat
deriving DecidableEq, Repr

/-! ## Transaction (external structured type, spec §1/§6)

Modelled from the spec: a transaction has `version`, `input`, `output`,
`lock_time` fields; inputs carry a previous output reference, a signature
script, a sequence number and witness data; outputs carry a value and a
script.  The byte codecs for the four fields are the standard consensus
encodings the spec names as external primitives. -/

structure OutPoint where
  txid : List Nat
  vout : Nat
deriving DecidableEq, Repr

structure TxIn where
  previous_output : OutPoint
  script_sig : List Nat
  sequence : Nat
  witness : List (List Nat)
deriving DecidableEq, Repr

structure TxOut where
  value : Nat
  script_pubkey : List Nat
deriving DecidableEq, Repr

structure Transaction where
  version : Nat
  input : List TxIn
  output : List TxOut
  lock_time : Nat
deriving DecidableEq, Repr

/-! ## Error taxonomy (`util::psbt::Error` as used by `global.rs`, and
`consensus::encode::Error`) -/

inductive PsbtError where
  | invalidKey (key : RawKey)
  | duplicateKey (key : RawKey)
  | unsignedTxHasScriptSigs
  | unsignedTxHasScriptWitnesses
  | mustHaveUnsignedTx
  | noMorePairs
  | unexpectedUnsignedTx (expected : Transaction) (actual : Transaction)
  | mergeConflict (xpub : ExtendedPubKey)
deriving DecidableEq, Repr

inductive EncError where
  | psbt (e : PsbtError)
  | parseFailed (msg : String)
  | ioError
deriving DecidableEq, Repr

/-! ## Byte codecs -/

/-- Compact-size varint encoding. -/
def varIntEnc (n : Nat) : List Nat :=
  if n < 253 then [n]
  else if n ≤ 65535 then [253, n % 256, n / 256 % 256]
  else if n ≤ 4294967295 then 254 :: u32le n
  else 255 :: u64le n

/-- Read exactly `n` bytes. -/
def readN (n : Nat) (l : List Nat) : Except EncError (List Nat × List Nat) :=
  if l.length < n then .error .ioError else .ok (l.take n, l.drop n)

/-- Compact-size varint decoding, rejecting non-minimal encodings. -/
def varIntDec (l : List Nat) : Except EncError (Nat × List Nat) :=
  match l with
  | [] => .error .ioError
  | b :: t =>
    if b = 253 then
      match readN 2 t with
      | .error e => .error e
      | .ok (bs, r) =>
        let n := leNat bs
        if n < 253 then .error (.parseFailed "non-minimal varint") else .ok (n, r)
    else if b = 254 then
      match readN 4 t with
      | .error e => .error e
      | .ok (bs, r) =>
        let n := leNat bs
        if n ≤ 65535 then .error (.parseFailed "non-minimal varint") else .ok (n, r)
    else if b = 255 then
      match readN 8 t with
      | .error e => .error e
      | .ok (bs, r) =>
        let n := leNat bs
        if n ≤ 4294967295 then .error (.parseFailed "non-minimal varint") else .ok (n, r)
    else .ok (b, t)

/-- `Vec<u8>` consensus encoding: varint length then raw bytes. -/
def bytesEnc (l : List Nat) : List Nat := varIntEnc l.length ++ l

def bytesDec (l : List Nat) : Except EncError (List Nat × List Nat) :=
  match varIntDec l with
  | .error e => .error e
  | .ok (n, r) => readN n r

def u32dec (l : List Nat) : Except EncError (Nat × List Nat) :=
  match readN 4 l with
  | .error e => .error e
  | .ok (bs, r) => .ok (leNat bs, r)

def u64dec (l : List Nat) : Except EncError (Nat × List Nat) :=
  match readN 8 l with
  | .error e => .error e
  | .ok (bs, r) => .ok (leNat bs, r)

/-- `Vec<T>` consensus encoding: varint count then each element. -/
def listEnc {α : Type} (enc : α → List Nat) (l : List α) : List Nat :=
  varIntEnc l.length ++ (l.map enc).flatten

def listDecN {α : Type} (dec : List Nat → Except EncError (α × List Nat)) :
    Nat → List Nat → Except EncError (List α × List Nat)
  | 0, l => .ok ([], l)
  | n + 1, l =>
    match dec l with
    | .error e => .error e
    | .ok (x, r) =>
      match listDecN dec n r with
      | .error e => .error e
      | .ok (xs, r') => .ok (x :: xs, r')

def listDec {α : Type} (dec : List Nat → Except EncError (α × List Nat))
    (l : List Nat) : Except EncError (List α × List Nat) :=
  match varIntDec l with
  | .error e => .error e
  | .ok (n, r) => listDecN dec n r

def outPointEnc (op : OutPoint) : List Nat := op.txid ++ u32le op.vout

def outPointDec (l : List Nat) : Except EncError (OutPoint × List Nat) :=
  match readN 32 l with
  | .error e => .error e
  | .ok (txid, r) =>
    match u32dec r with
    | .error e => .error e
    | .ok (vout, r') => .ok (⟨txid, vout⟩, r')

/-- Non-segwit `TxIn` consensus encoding (witness not serialized). -/
def txInEnc (i : TxIn) : List Nat :=
  outPointEnc i.previous_output ++ bytesEnc i.script_sig ++ u32le i.sequence

def txInDec (l : List Nat) : Except EncError (TxIn × List Nat) :=
  match outPointDec l with
  | .error e => .error e
  | .ok (op, r) =>
    match bytesDec r with
    | .error e => .error e
    | .ok (ss, r') =>
      match u32dec r' with
      | .error e => .error e
      | .ok (seq, r'') => .ok (⟨op, ss, seq, []⟩, r'')

def txOutEnc (o : TxOut) : List Nat := u64le o.value ++ bytesEnc o.script_pubkey

def txOutDec (l : List Nat) : Except EncError (TxOut × List Nat) :=
  match u64dec l with
  | .error e => .error e
  | .ok (v, r) =>
    match bytesDec r with
    | .error e => .error e
    | .ok (spk, r') => .ok (⟨v, spk⟩, r')

/-- The manual four-field transaction encoding used by `Global::get_pairs`
(version, inputs, outputs, lock time — never the generic whole-transaction
encoder). -/
def txBodyEnc (tx : Transaction) : List Nat :=
  u32le tx.version ++ listEnc txInEnc tx.input ++ listEnc txOutEnc tx.output
    ++ u32le tx.lock_time

/-- The manual four-field transaction decoding used by
`Global::consensus_decode` (decoded inputs carry empty witness data). -/
def txBodyDec (l : List Nat) : Except EncError (Transaction × List Nat) :=
  match u32dec l with
  | .error e => .error e
  | .ok (version, r1) =>
    match listDec txInDec r1 with
    | .error e => .error e
    | .ok (input, r2) =>
      match listDec txOutDec r2 with
      | .error e => .error e
      | .ok (output, r3) =>
        match u32dec r3 with
        | .error e => .error e
        | .ok (lock_time, r4) => .ok (⟨version, input, output, lock_time⟩, r4)

/-! ## PSBT Global map (`src/util/psbt/map/global.rs`) -/

/-- A key-value map for global data (`Global`).  The `BTreeMap` fields are
association lists sorted by `xpubCmp` / `rawKeyCmp`. -/
structure Global where
  unsigned_tx : Transaction
  version : Nat
  xpub : List (ExtendedPubKey × KeySource)
  unknown : List (RawKey × List Nat)
deriving DecidableEq

/-- The input validation loop of `Global::from_unsigned_tx`. -/
def checkInputs : List TxIn → Except PsbtError Unit
  | [] => .ok ()
  | txin :: rest =>
    if txin.script_sig ≠ [] then .error .unsignedTxHasScriptSigs
    else if txin.witness ≠ [] then .error .unsignedTxHasScriptWitnesses
    else checkInputs rest

/-- `Global::from_unsigned_tx`: create a Global from an unsigned
transaction, error if not unsigned. -/
def Global.fromUnsignedTx (tx : Transaction) : Except PsbtError Global :=
  match checkInputs tx.input with
  | .error e => .error e
  | .ok _ => .ok { unsigned_tx := tx, version := 0, xpub := [], unknown := [] }

/-- `Global::insert_pair` (`impl Map for Global`). -/
def Global.insertPair (g : Global) (pair : RawPair) : Except EncError Global :=
  if pair.key.type_value = 0 then .error (.psbt (.duplicateKey pair.key))
  else
    match mLookup rawKeyCmp g.unknown pair.key with
    | none => .ok { g with unknown := mInsert rawKeyCmp pair.key pair.value g.unknown }
    | some _ => .error (.psbt (.duplicateKey pair.key))

/-- The value bytes of an xpub pair: fingerprint bytes then each derivation
step as 4-byte little-endian. -/
def xpubPairValue (ks : KeySource) : List Nat :=
  ks.1 ++ (ks.2.map (fun n => u32le n.toU32)).flatten

/-- `Global::get_pairs`: the deterministic serialized pair sequence. -/
def Global.getPairs (g : Global) : List RawPair :=
  { key := { type_value := 0, key := [] }, value := txBodyEnc g.unsigned_tx } ::
    (g.xpub.map (fun x =>
        { key := { type_value := 1, key := x.1.encode }, value := xpubPairValue x.2 })
      ++ (if g.version > 0 then
            [{ key := { type_value := 0xFB, key := [] }, value := u32le g.version }]
          else [])
      ++ g.unknown.map (fun x => { key := x.1, value := x.2 }))

/-- Position (from the path's start) of the last non-hardened element:
`derivation.into_iter().rposition(ChildNumber::is_normal)`. -/
def rposNormal (l : List ChildNumber) : Option Nat :=
  match List.findIdx? (fun n => n.is_normal) l.reverse with
  | none => none
  | some j => some (l.length - 1 - j)

/-- Comparator on `Option Nat` with `none` smallest (Rust's `Ord` on
`Option<usize>`). -/
def optCmp : Option Nat → Option Nat → Ordering
  | none, none => .eq
  | none, some _ => .lt
  | some _, none => .gt
  | some a, some b => natCmp a b

/-- The `Entry::Occupied` conflict match of `Global::merge`: given the
already-present entry (`selfE`, i.e. `(fingerprint2, deriv)`) and the
incoming entry (`otherE`, i.e. `(fingerprint1, derivation1)`), decide the
surviving entry or fail. -/
def xpubMergeStep (xpub : ExtendedPubKey) (acc : List (ExtendedPubKey × KeySource))
    (selfE otherE : KeySource) : Except PsbtError (List (ExtendedPubKey × KeySource)) :=
  match optCmp (rposNormal otherE.2) (rposNormal selfE.2),
        natCmp otherE.2.length selfE.2.length,
        lexCmp cnCmp otherE.2 selfE.2,
        lexCmp natCmp otherE.1 selfE.1 with
  | .eq, .eq, .eq, .eq => .ok acc
  | .eq, .eq, .eq, _ => .error (.mergeConflict xpub)
  | .gt, _, _, _ | .eq, .gt, _, _ | .eq, .eq, .gt, _ =>
    .ok (mInsert xpubCmp xpub otherE acc)
  | .lt, _, _, _ | .eq, .lt, _, _ | .eq, .eq, .lt, _ => .ok acc

/-- The xpub-merging loop of `Global::merge` (iterating `other.xpub` in
ascending key order). -/
def mergeXpubMaps (self other : List (ExtendedPubKey × KeySource)) :
    Except PsbtError (List (ExtendedPubKey × KeySource)) :=
  other.foldlM
    (fun acc kv =>
      match mLookup xpubCmp acc kv.1 with
      | none => .ok (mInsert xpubCmp kv.1 kv.2 acc)
      | some cur => xpubMergeStep kv.1 acc cur kv.2)
    self

/-- `BTreeMap::extend`: insert every binding of `other`, the right side
winning on key collision. -/
def unknownExtend (self other : List (RawKey × List Nat)) :
    List (RawKey × List Nat) :=
  other.foldl (fun acc kv => mInsert rawKeyCmp kv.1 kv.2 acc) self

/-- `Global::merge` as a function producing the merged value (the Rust
method mutates `self` and returns `Result<(), Error>`; errors short-circuit
here). -/
def Global.merge (g other : Global) : Except PsbtError Global :=
  if g.unsigned_tx ≠ other.unsigned_tx then
    .error (.unexpectedUnsignedTx g.unsigned_tx other.unsigned_tx)
  else
    match mergeXpubMaps g.xpub other.xpub with
    | .error e => .error e
    | .ok xpub =>
      .ok { unsigned_tx := g.unsigned_tx,
            version := max g.version other.version,
            xpub := xpub,
            unknown := unknownExtend g.unknown other.unknown }

/-! ## Global consensus decoding -/

/-- Accumulator state of the decode loop in `Global::consensus_decode`. -/
structure DecState where
  tx : Option Transaction
  version : Option Nat
  unknowns : List (RawKey × List Nat)
  xpub_map : List (ExtendedPubKey × KeySource)
deriving DecidableEq

def childrenDecGo : Nat → List Nat → List ChildNumber
  | 0, _ => []
  | fuel + 1, l =>
    if l.length < 4 then []
    else ChildNumber.fromU32 (leNat (l.take 4)) :: childrenDecGo fuel (l.drop 4)

/-- Read little-endian u32 child indices until fewer than 4 bytes remain
(the `while let Ok(index) = u32::consensus_decode` loop).  Structured with a
fuel argument (the list length bounds the iteration count) so that the
kernel can evaluate it. -/
def childrenDec (l : List Nat) : List ChildNumber := childrenDecGo l.length l

theorem childrenDecGo_irrel : ∀ (n : Nat) (l : List Nat) (f f' : Nat),
    l.length ≤ n → l.length ≤ f → l.length ≤ f' →
    childrenDecGo f l = childrenDecGo f' l := by
  intro n
  induction n with
  | zero =>
    intro l f f' hn hf hf'
    have hl : l = [] := List.eq_nil_of_length_eq_zero (by omega)
    subst hl
    cases f <;> cases f' <;> rfl
  | succ n ih =>
    intro l f f' hn hf hf'
    by_cases h4 : l.length < 4
    · cases f <;> cases f' <;> simp [childrenDecGo, h4]
    · have hne : l.length ≠ 0 := by omega
      cases f with
      | zero => omega
      | succ a =>
        cases f' with
        | zero => omega
        | succ b =>
          simp only [childrenDecGo, h4, if_false]
          rw [ih (l.drop 4) a b (by simp [List.length_drop]; omega)
            (by simp [List.length_drop]; omega) (by simp [List.length_drop]; omega)]

/-- The recursive equation of `childrenDec`. -/
theorem childrenDec_unfold (l : List Nat) :
    childrenDec l =
      (if l.length < 4 then []
       else ChildNumber.fromU32 (leNat (l.take 4)) :: childrenDec (l.drop 4)) := by
  unfold childrenDec
  by_cases h4 : l.length < 4
  · cases hl : l.length <;> simp [childrenDecGo, h4] <;> omega
  · have hne : l.length ≠ 0 := by omega
    cases hl : l.length with
    | zero => omega
    | succ a =>
      simp only [childrenDecGo, h4, if_false]
      rw [childrenDecGo_irrel a (l.drop 4) a (l.drop 4).length
        (by simp [List.length_drop]; omega) (by simp [List.length_drop]; omega)
        (le_refl _)]
      rw [if_neg (show ¬ (a + 1 < 4) by omega)]

/-- One iteration of the decode loop's dispatch on `pair.key.type_value`. -/
def decStep (st : DecState) (pair : RawPair) : Except EncError DecState :=
  if pair.key.type_value = 0 then
    if pair.key.key = [] then
      if st.tx = none then
        match txBodyDec pair.value with
        | .error e => .error e
        | .ok (tx, rest) =>
          if rest ≠ [] then
            .error (.parseFailed "data not consumed entirely when explicitly deserializing")
          else .ok { st with tx := some tx }
      else .error (.psbt (.duplicateKey pair.key))
    else .error (.psbt (.invalidKey pair.key))
  else if pair.key.type_value = 1 then
    if pair.key.key ≠ [] then
      match ExtendedPubKey.decode pair.key.key with
      | none =>
        .error (.parseFailed "Can't deserialize ExtendedPublicKey from global XPUB key data")
      | some xpub =>
        if pair.value = [] ∨ pair.value.length % 4 ≠ 0 then
          .error (.parseFailed "Incorrect length of global xpub derivation data")
        else
          let fingerprint : Fingerprint := pair.value.take 4
          let derivation : DerivationPath := childrenDec (pair.value.drop 4)
          if (mLookup xpubCmp st.xpub_map xpub).isSome then
            .error (.parseFailed "Repeated global xpub key")
          else
            .ok { st with
                  xpub_map := mInsert xpubCmp xpub (fingerprint, derivation) st.xpub_map }
    else .error (.parseFailed "Xpub global key must contain serialized Xpub data")
  else if pair.key.type_value = 0xFB then
    if pair.key.key = [] then
      if st.version = none then
        if pair.value.length ≠ 4 then
          .error (.parseFailed "Wrong global version value length (must be 4 bytes)")
        else
          let v := leNat pair.value
          if v ≠ 0 then
            .error (.parseFailed "PSBT versions greater than 0 are not supported")
          else .ok { st with version := some v }
      else .error (.psbt (.duplicateKey pair.key))
    else .error (.psbt (.invalidKey pair.key))
  else
    match mLookup rawKeyCmp st.unknowns pair.key with
    | none => .ok { st with unknowns := mInsert rawKeyCmp pair.key pair.value st.unknowns }
    | some _ => .error (.psbt (.duplicateKey pair.key))

/-- `raw::Pair::consensus_encode`: the key's length-prefixed
`type_value ++ key` bytes, then the length-prefixed value bytes. -/
def rawPairEnc (p : RawPair) : List Nat :=
  varIntEnc (1 + p.key.key.length) ++ (p.key.type_value :: p.key.key)
    ++ varIntEnc p.value.length ++ p.value

/-- `raw::Pair::consensus_decode`; `.ok (none, rest)` is the `NoMorePairs`
sentinel produced by a zero-length key encoding. -/
def rawPairDec (l : List Nat) : Except EncError (Option RawPair × List Nat) :=
  match varIntDec l with
  | .error e => .error e
  | .ok (klen, r1) =>
    if klen = 0 then .ok (none, r1)
    else
      match readN 1 r1 with
      | .error e => .error e
      | .ok (tb, r2) =>
        match readN (klen - 1) r2 with
        | .error e => .error e
        | .ok (kb, r3) =>
          match bytesDec r3 with
          | .error e => .error e
          | .ok (value, r4) =>
            .ok (some { key := { type_value := tb.headI, key := kb }, value := value }, r4)

theorem readN_consumes {n : Nat} {l xs r : List Nat}
    (h : readN n l = .ok (xs, r)) : r.length ≤ l.length := by
  unfold readN at h
  split at h
  · cases h
  · cases h
    simp [List.length_drop]

theorem varIntDec_consumes {l : List Nat} {n : Nat} {r : List Nat}
    (h : varIntDec l = .ok (n, r)) : r.length < l.length := by
  match l with
  | [] => cases h
  | b :: t =>
    simp only [varIntDec] at h
    split at h
    · split at h
      · cases h
      · rename_i bs r1 heq
        split at h
        · cases h
        · cases h
          calc r.length ≤ t.length := readN_consumes heq
          _ < (b :: t).length := by simp
    · split at h
      · split at h
        · cases h
        · rename_i bs r1 heq
          split at h
          · cases h
          · cases h
            calc r.length ≤ t.length := readN_consumes heq
            _ < (b :: t).length := by simp
      · split at h
        · split at h
          · cases h
          · rename_i bs r1 heq
            split at h
            · cases h
            · cases h
              calc r.length ≤ t.length := readN_consumes heq
              _ < (b :: t).length := by simp
        · cases h
          simp

theorem bytesDec_consumes {l v r : List Nat}
    (h : bytesDec l = .ok (v, r)) : r.length < l.length := by
  unfold bytesDec at h
  split at h
  · cases h
  · rename_i n r1 heq
    calc r.length ≤ r1.length := readN_consumes h
    _ < l.length := varIntDec_consumes heq

theorem rawPairDec_consumes {l : List Nat} {p : RawPair} {r : List Nat}
    (h : rawPairDec l = .ok (some p, r)) : r.length < l.length := by
  unfold rawPairDec at h
  split at h
  · cases h
  · rename_i klen r1 heq
    split at h
    · cases h
    · split at h
      · cases h
      · rename_i tb r2 h2
        split at h
        · cases h
        · rename_i kb r3 h3
          split at h
          · cases h
          · rename_i v r4 h4
            cases h
            calc r.length < r3.length := bytesDec_consumes h4
            _ ≤ r2.length := readN_consumes h3
            _ ≤ r1.length := readN_consumes h2
            _ < l.length := varIntDec_consumes heq

def decodeLoopGo : Nat → DecState → List Nat → Except EncError (DecState × List Nat)
  | 0, _, _ => .error .ioError
  | fuel + 1, st, l =>
    match rawPairDec l with
    | .error e => .error e
    | .ok (none, rest) => .ok (st, rest)
    | .ok (some pair, rest) =>
      match decStep st pair with
      | .error e => .error e
      | .ok st' => decodeLoopGo fuel st' rest

/-- The decode loop of `Global::consensus_decode`: read pairs until the
`NoMorePairs` sentinel, dispatching each through `decStep`.  Each pair
consumes at least one byte, so a fuel of the input length plus one never
runs out (`decodeLoop_unfold` recovers the plain recursive equation). -/
def decodeLoop (st : DecState) (l : List Nat) : Except EncError (DecState × List Nat) :=
  decodeLoopGo (l.length + 1) st l

theorem decodeLoopGo_irrel : ∀ (n : Nat) (l : List Nat) (st : DecState) (f f' : Nat),
    l.length ≤ n → l.length < f → l.length < f' →
    decodeLoopGo f st l = decodeLoopGo f' st l := by
  intro n
  induction n with
  | zero =>
    intro l st f f' hn hf hf'
    have hl : l = [] := List.eq_nil_of_length_eq_zero (by omega)
    subst hl
    cases f with
    | zero => omega
    | succ a =>
      cases f' with
      | zero => omega
      | succ b => rfl
  | succ n ih =>
    intro l st f f' hn hf hf'
    cases f with
    | zero => omega
    | succ a =>
      cases f' with
      | zero => omega
      | succ b =>
        cases hp : rawPairDec l with
        | error e => simp [decodeLoopGo, hp]
        | ok pr =>
          obtain ⟨op, rest⟩ := pr
          cases op with
          | none => simp [decodeLoopGo, hp]
          | some pair =>
            simp only [decodeLoopGo, hp]
            cases hs : decStep st pair with
            | error e => rfl
            | ok st' =>
              have hc := rawPairDec_consumes hp
              exact ih rest st' a b (by omega) (by omega) (by omega)

/-- The recursive equation of `decodeLoop`. -/
theorem decodeLoop_unfold (st : DecState) (l : List Nat) :
    decodeLoop st l =
      (match rawPairDec l with
       | .error e => .error e
       | .ok (none, rest) => .ok (st, rest)
       | .ok (some pair, rest) =>
         match decStep st pair with
         | .error e => .error e
         | .ok st' => decodeLoop st' rest) := by
  unfold decodeLoop
  cases hp : rawPairDec l with
  | error e => simp [decodeLoopGo, hp]
  | ok pr =>
    obtain ⟨op, rest⟩ := pr
    cases op with
    | none => simp [decodeLoopGo, hp]
    | some pair =>
      simp only [decodeLoopGo, hp]
      cases hs : decStep st pair with
      | error e => rfl
      | ok st' =>
        have hc := rawPairDec_consumes hp
        exact decodeLoopGo_irrel l.length rest st' (l.length) (rest.length + 1)
          (by omega) (by omega) (by omega)

/-- The tail of `Global::consensus_decode`: require an unsigned transaction,
validate it as in manual construction, then attach version, xpub map and
unknown map. -/
def decFinalize (st : DecState) : Except EncError Global :=
  match st.tx with
  | some tx =>
    match Global.fromUnsignedTx tx with
    | .error e => .error (.psbt e)
    | .ok g =>
      .ok { g with version := st.version.getD 0, xpub := st.xpub_map,
                   unknown := st.unknowns }
  | none => .error (.psbt .mustHaveUnsignedTx)

/-- `Global::consensus_decode` over a byte stream, returning the decoded
value and the unread remainder. -/
def globalConsensusDecode (l : List Nat) : Except EncError (Global × List Nat) :=
  match decodeLoop { tx := none, version := none, unknowns := [], xpub_map := [] } l with
  | .error e => .error e
  | .ok (st, rest) =>
    match decFinalize st with
    | .error e => .error e
    | .ok g => .ok (g, rest)

/-- `Global`'s consensus encoding (`impl_psbtmap_consensus_encoding!`): each
pair of `get_pairs` in order, then the zero-length-key terminator byte. -/
def globalConsensusEncode (g : Global) : List Nat :=
  (g.getPairs.map rawPairEnc).flatten ++ [0]

/-! ## Address codec (`src/util/address.rs`)

The base58 and bech32 checksum codecs are external collaborators
(`util::base58` and the `bech32` crate).  They are modelled from spec §4.1;
the checksum primitives (double-SHA256, bech32 polynomial) are external pure
functions and stand-ins are used for them. -/

inductive Network where
  | bitcoin
  | testnet
  | regtest
deriving DecidableEq, Repr

inductive Payload where
  | pubkeyHash (hash : List Nat)
  | scriptHash (hash : List Nat)
  | witnessProgram (version : Nat) (program : List Nat)
deriving DecidableEq, Repr

structure Address where
  payload : Payload
  network : Network
deriving DecidableEq, Repr

/-- `Address::is_standard`. -/
def Address.isStandard (a : Address) : Bool :=
  match a.payload with
  | .witnessProgram ver prog =>
    ver == 0 && (prog.length == 20 || prog.length == 32)
  | .pubkeyHash _ => true
  | .scriptHash _ => true

inductive Base58Error where
  | invalidChar (c : Char)
  | invalidLength (n : Nat)
  | invalidVersion (vs : List Nat)
  | badChecksum
  | tooShort
deriving DecidableEq, Repr

inductive Bech32Error where
  | missingSeparator
  | invalidChar (c : Char)
  | invalidChecksum
  | invalidLength
  | invalidPadding
  | mixedCase
deriving DecidableEq, Repr

inductive AddrError where
  | base58 (e : Base58Error)
  | bech32 (e : Bech32Error)
  | emptyBech32Payload
  | invalidWitnessVersion (v : Nat)
  | invalidWitnessProgramLength (l : Nat)
  | invalidSegwitV0ProgramLength (l : Nat)
deriving DecidableEq, Repr

/-! ### Base58Check (modelled from spec §4.1) -/

/-- The standard 58-character alphabet. -/
def base58Alphabet : List Char :=
  ['1','2','3','4','5','6','7','8','9',
   'A','B','C','D','E','F','G','H','J','K','L','M','N','P','Q','R','S','T',
   'U','V','W','X','Y','Z',
   'a','b','c','d','e','f','g','h','i','j','k','m','n','o','p','q','r','s',
   't','u','v','w','x','y','z']

def b58Char (d : Nat) : Char := base58Alphabet.getD d ' '

def b58Val (c : Char) : Option Nat := base58Alphabet.findIdx? (· == c)

def digitsGo (b : Nat) : Nat → Nat → List Nat
  | 0, _ => []
  | fuel + 1, n => if n = 0 then [] else digitsGo b fuel (n / b) ++ [n % b]

/-- Big-endian base-58 digits of a number (empty for zero).  Fueled so the
kernel can evaluate it; `digits58_unfold` gives the recursive equation. -/
def digits58 (n : Nat) : List Nat := digitsGo 58 n n

/-- Big-endian base-256 digits of a number (empty for zero). -/
def digits256 (n : Nat) : List Nat := digitsGo 256 n n

theorem digitsGo_irrel {b : Nat} (hb : 2 ≤ b) : ∀ (m n f f' : Nat),
    n ≤ m → n ≤ f → n ≤ f' → digitsGo b f n = digitsGo b f' n := by
  intro m
  induction m with
  | zero =>
    intro n f f' hm hf hf'
    have : n = 0 := by omega
    subst this
    cases f <;> cases f' <;> simp [digitsGo]
  | succ m ih =>
    intro n f f' hm hf hf'
    by_cases h0 : n = 0
    · subst h0
      cases f <;> cases f' <;> simp [digitsGo]
    · cases f with
      | zero => omega
      | succ a =>
        cases f' with
        | zero => omega
        | succ c =>
          simp only [digitsGo, h0, if_false]
          have hdiv : n / b < n := Nat.div_lt_self (Nat.pos_of_ne_zero h0) (by omega)
          rw [ih (n / b) a c (by omega) (by omega) (by omega)]

/-- The recursive equation of `digits58`. -/
theorem digits58_unfold (n : Nat) :
    digits58 n = (if n = 0 then [] else digits58 (n / 58) ++ [n % 58]) := by
  by_cases h0 : n = 0
  · subst h0; rfl
  · unfold digits58
    rw [if_neg h0]
    obtain ⟨m, hm⟩ : ∃ m, n = m + 1 := ⟨n - 1, by omega⟩
    subst hm
    simp only [digitsGo, h0, if_false]
    have hdiv : (m + 1) / 58 < m + 1 := Nat.div_lt_self (by omega) (by omega)
    rw [digitsGo_irrel (b := 58) (by omega) ((m + 1) / 58) ((m + 1) / 58) m
      ((m + 1) / 58) (le_refl _) (by omega) (le_refl _)]

/-- The recursive equation of `digits256`. -/
theorem digits256_unfold (n : Nat) :
    digits256 n = (if n = 0 then [] else digits256 (n / 256) ++ [n % 256]) := by
  by_cases h0 : n = 0
  · subst h0; rfl
  · unfold digits256
    rw [if_neg h0]
    obtain ⟨m, hm⟩ : ∃ m, n = m + 1 := ⟨n - 1, by omega⟩
    subst hm
    simp only [digitsGo, h0, if_false]
    have hdiv : (m + 1) / 256 < m + 1 := Nat.div_lt_self (by omega) (by omega)
    rw [digitsGo_irrel (b := 256) (by omega) ((m + 1) / 256) ((m + 1) / 256) m
      ((m + 1) / 256) (le_refl _) (by omega) (le_refl _)]

/-- Big-endian value of a digit list in base `b`. -/
def ofDigits (b : Nat) (l : List Nat) : Nat := l.foldl (fun a d => a * b + d) 0

/-- Modelled from the spec: the 4-byte checksum is the head of a double-hash
of the input; the hash itself is an external pure primitive (stand-in
mixing function). -/
def checksum4 (l : List Nat) : List Nat :=
  let h := l.foldl (fun a b => (a * 131 + b + 7) % 4294967296) 977
  [h % 256, h / 256 % 256, h / 65536 % 256, h / 16777216 % 256]

/-- `base58::encode_slice`: leading zero bytes map to a run of `'1'`, the
rest is the big-endian base-58 expansion. -/
def base58Encode (l : List Nat) : List Char :=
  List.replicate (l.takeWhile (· == 0)).length '1'
    ++ (digits58 (ofDigits 256 l)).map b58Char

/-- `base58::check_encode_slice`: append the checksum, then encode. -/
def base58CheckEncode (l : List Nat) : List Char :=
  base58Encode (l ++ checksum4 l)

/-- `base58::from`: base-58 big-number decode, one leading zero byte per
leading `'1'`. -/
def base58Decode (s : List Char) : Except Base58Error (List Nat) :=
  match s.mapM (fun c => match b58Val c with
    | some v => Except.ok v
    | none => Except.error (Base58Error.invalidChar c)) with
  | .error e => .error e
  | .ok vals =>
    .ok (List.replicate (s.takeWhile (· == '1')).length 0
          ++ digits256 (ofDigits 58 vals))

/-- `base58::from_check`: decode, verify and strip the 4-byte checksum. -/
def base58FromCheck (s : List Char) : Except Base58Error (List Nat) :=
  match base58Decode s with
  | .error e => .error e
  | .ok d =>
    if d.length < 4 then .error .tooShort
    else
      let payload := d.take (d.length - 4)
      let check := d.drop (d.length - 4)
      if checksum4 payload ≠ check then .error .badChecksum
      else .ok payload

/-! ### Bech32 (modelled from spec §4.1) -/

/-- The bech32 data charset (excludes `'1'`, `'b'`, `'i'`, `'o'`). -/
def bech32Charset : List Char :=
  ['q','p','z','r','y','9','x','8','g','f','2','t','v','d','w','0',
   's','3','j','n','5','4','k','h','c','e','6','m','u','a','7','l']

def b32Char (d : Nat) : Char := bech32Charset.getD d ' '

def b32Val (c : Char) : Option Nat := bech32Charset.findIdx? (· == c)

/-- Modelled from the spec: the 6-word bech32 checksum is an external
primitive; stand-in deterministic function of hrp and data. -/
def bech32Checksum (hrp : List Char) (ws : List Nat) : List Nat :=
  let x := hrp.foldl (fun a c => (a * 131 + c.toNat) % 1073741824) 1
  let y := ws.foldl (fun a w => (a * 33 + w + 1) % 1073741824) x
  [y % 32, y / 32 % 32, y / 1024 % 32, y / 32768 % 32,
   y / 1048576 % 32, y / 33554432 % 32]

/-- `bech32::encode`: hrp, `'1'` separator, data words and checksum words
through the charset (always lowercase). -/
def bech32Encode (hrp : List Char) (ws : List Nat) : List Char :=
  hrp ++ '1' :: (ws ++ bech32Checksum hrp ws).map b32Char

/-- Split a string at the last `'1'`, if any. -/
def splitLastOne : List Char → Option (List Char × List Char)
  | [] => none
  | c :: rest =>
    match splitLastOne rest with
    | some (a, b) => some (c :: a, b)
    | none => if c = '1' then some ([], rest) else none

def isUpperAlpha (c : Char) : Bool := 'A' ≤ c && c ≤ 'Z'

def isLowerAlpha (c : Char) : Bool := 'a' ≤ c && c ≤ 'z'

def lowerChar (c : Char) : Char :=
  if isUpperAlpha c then Char.ofNat (c.toNat + 32) else c

/-- `bech32::decode`: reject mixed case, lowercase, split at the last
separator, map the data chars to 5-bit words, verify and strip the 6-word
checksum. -/
def bech32Decode (s : List Char) : Except Bech32Error (List Char × List Nat) :=
  if s.any isUpperAlpha && s.any isLowerAlpha then .error .mixedCase
  else
    let t := s.map lowerChar
    match splitLastOne t with
    | none => .error .missingSeparator
    | some (hrp, data) =>
      if hrp = [] then .error .invalidLength
      else if data.length < 6 then .error .invalidLength
      else
        match data.mapM (fun c => match b32Val c with
          | some v => Except.ok v
          | none => Except.error (Bech32Error.invalidChar c)) with
        | .error e => .error e
        | .ok vals =>
          let n := vals.length - 6
          if bech32Checksum hrp (vals.take n) ≠ vals.drop n then
            .error .invalidChecksum
          else .ok (hrp, vals.take n)

/-- 8 bits of a byte, most significant first. -/
def byteBits (b : Nat) : List Bool :=
  [b / 128 % 2 == 1, b / 64 % 2 == 1, b / 32 % 2 == 1, b / 16 % 2 == 1,
   b / 8 % 2 == 1, b / 4 % 2 == 1, b / 2 % 2 == 1, b % 2 == 1]

/-- 5 bits of a word, most significant first. -/
def wordBits (w : Nat) : List Bool :=
  [w / 16 % 2 == 1, w / 8 % 2 == 1, w / 4 % 2 == 1, w / 2 % 2 == 1, w % 2 == 1]

def bitsVal (l : List Bool) : Nat :=
  l.foldl (fun a b => 2 * a + (if b then 1 else 0)) 0

def chunkGo (k : Nat) : Nat → List Bool → List (List Bool)
  | 0, _ => []
  | fuel + 1, l => if l = [] then [] else l.take k :: chunkGo k fuel (l.drop k)

/-- Split into 5-bit groups (the last possibly short). -/
def chunk5 (l : List Bool) : List (List Bool) := chunkGo 5 l.length l

/-- Split into 8-bit groups (the last possibly short). -/
def chunk8 (l : List Bool) : List (List Bool) := chunkGo 8 l.length l

theorem chunkGo_irrel {k : Nat} (hk : 1 ≤ k) : ∀ (m : Nat) (l : List Bool) (f f' : Nat),
    l.length ≤ m → l.length ≤ f → l.length ≤ f' → chunkGo k f l = chunkGo k f' l := by
  intro m
  induction m with
  | zero =>
    intro l f f' hm hf hf'
    have hl : l = [] := List.eq_nil_of_length_eq_zero (by omega)
    subst hl
    cases f <;> cases f' <;> simp [chunkGo]
  | succ m ih =>
    intro l f f' hm hf hf'
    by_cases h0 : l = []
    · subst h0
      cases f <;> cases f' <;> simp [chunkGo]
    · have hlen : l.length ≠ 0 := fun hx => h0 (List.eq_nil_of_length_eq_zero hx)
      cases f with
      | zero => omega
      | succ a =>
        cases f' with
        | zero => omega
        | succ c =>
          simp only [chunkGo, h0, if_false]
          have hd : (l.drop k).length = l.length - k := by simp [List.length_drop]
          rw [ih (l.drop k) a c (by omega) (by omega) (by omega)]

/-- The recursive equation of `chunk5`. -/
theorem chunk5_unfold (l : List Bool) :
    chunk5 l = (if l = [] then [] else l.take 5 :: chunk5 (l.drop 5)) := by
  unfold chunk5
  by_cases h0 : l = []
  · subst h0; simp [chunkGo]
  · have hlen : l.length ≠ 0 := fun hx => h0 (List.eq_nil_of_length_eq_zero hx)
    cases hn : l.length with
    | zero => omega
    | succ m =>
      simp only [chunkGo, h0, if_false, hn]
      have hd : (l.drop 5).length = l.length - 5 := by simp [List.length_drop]
      rw [chunkGo_irrel (k := 5) (by omega) (l.drop 5).length (l.drop 5) m
        (l.drop 5).length (le_refl _) (by omega) (le_refl _)]

/-- The recursive equation of `chunk8`. -/
theorem chunk8_unfold (l : List Bool) :
    chunk8 l = (if l = [] then [] else l.take 8 :: chunk8 (l.drop 8)) := by
  unfold chunk8
  by_cases h0 : l = []
  · subst h0; simp [chunkGo]
  · have hlen : l.length ≠ 0 := fun hx => h0 (List.eq_nil_of_length_eq_zero hx)
    cases hn : l.length with
    | zero => omega
    | succ m =>
      simp only [chunkGo, h0, if_false, hn]
      have hd : (l.drop 8).length = l.length - 8 := by simp [List.length_drop]
      rw [chunkGo_irrel (k := 8) (by omega) (l.drop 8).length (l.drop 8) m
        (l.drop 8).length (le_refl _) (by omega) (le_refl _)]

/-- `ToBase32` for bytes: regroup 8-bit bytes into 5-bit words, zero-padding
the final partial group. -/
def toBase32 (bytes : List Nat) : List Nat :=
  let bits := (bytes.map byteBits).flatten
  (chunk5 (bits ++ List.replicate ((5 - bits.length % 5) % 5) false)).map bitsVal

/-- `Vec::<u8>::from_base32`: regroup 5-bit words into bytes; fail if more
than 4 padding bits would be dropped or any dropped bit is non-zero
(spec §4.1 "excess padding" / "nonzero padding"). -/
def fromBase32 (ws : List Nat) : Except Bech32Error (List Nat) :=
  let bits := (ws.map wordBits).flatten
  let m := bits.length / 8
  if bits.length - 8 * m ≥ 5 then .error .invalidPadding
  else if (bits.drop (8 * m)).any (fun b => b) then .error .invalidPadding
  else .ok ((chunk8 (bits.take (8 * m))).map bitsVal)

/-! ### Display and FromStr for Address -/

/-- The bech32 human-readable part for each network. -/
def hrpOf : Network → List Char
  | .bitcoin => ['b', 'c']
  | .testnet => ['t', 'b']
  | .regtest => ['b', 'c', 'r', 't']

/-- `impl Display for Address` (the produced text, as a char list). -/
def Address.toText (a : Address) : List Char :=
  match a.payload with
  | .pubkeyHash hash =>
    base58CheckEncode
      ((match a.network with
        | .bitcoin => 0
        | .testnet => 111
        | .regtest => 111) :: hash)
  | .scriptHash hash =>
    base58CheckEncode
      ((match a.network with
        | .bitcoin => 5
        | .testnet => 196
        | .regtest => 196) :: hash)
  | .witnessProgram ver prog =>
    bech32Encode (hrpOf a.network) (ver :: toBase32 prog)

/-- `find_bech32_prefix`: the text up to the last `'1'`, or the whole text
when there is none. -/
def findBech32Hrp (s : List Char) : List Char :=
  match splitLastOne s with
  | none => s
  | some (a, _) => a

/-- The hrp match of `Address::from_str` (upper or lower case allowed, but
not mixed). -/
def bech32NetworkOf (pre : List Char) : Option Network :=
  if pre = ['b', 'c'] ∨ pre = ['B', 'C'] then some .bitcoin
  else if pre = ['t', 'b'] ∨ pre = ['T', 'B'] then some .testnet
  else if pre = ['b', 'c', 'r', 't'] ∨ pre = ['B', 'C', 'R', 'T'] then some .regtest
  else none

/-- `impl FromStr for Address`. -/
def Address.fromText (s : List Char) : Except AddrError Address :=
  match bech32NetworkOf (findBech32Hrp s) with
  | some network =>
    match bech32Decode s with
    | .error e => .error (.bech32 e)
    | .ok (_, payload) =>
      match payload with
      | [] => .error .emptyBech32Payload
      | v :: p5 =>
        match fromBase32 p5 with
        | .error e => .error (.bech32 e)
        | .ok program =>
          if v > 16 then .error (.invalidWitnessVersion v)
          else if program.length < 2 ∨ program.length > 40 then
            .error (.invalidWitnessProgramLength program.length)
          else if v = 0 ∧ program.length ≠ 20 ∧ program.length ≠ 32 then
            .error (.invalidSegwitV0ProgramLength program.length)
          else .ok { payload := .witnessProgram v program, network := network }
  | none =>
    if s.length > 50 then .error (.base58 (.invalidLength (s.length * 11 / 15)))
    else
      match base58FromCheck s with
      | .error e => .error (.base58 e)
      | .ok data =>
        if data.length ≠ 21 then .error (.base58 (.invalidLength data.length))
        else
          match data with
          | 0 :: rest => .ok { network := .bitcoin, payload := .pubkeyHash rest }
          | 5 :: rest => .ok { network := .bitcoin, payload := .scriptHash rest }
          | 111 :: rest => .ok { network := .testnet, payload := .pubkeyHash rest }
          | 196 :: rest => .ok { network := .testnet, payload := .scriptHash rest }
          | x :: _ => .error (.base58 (.invalidVersion [x]))
          | [] => .error (.base58 (.invalidVersion []))

/-! ## Concrete fixtures used by witnesses and counterexamples -/

/-- A zero-input, zero-output transaction (trivially unsigned). -/
def txEmpty : Transaction := { version := 1, input := [], output := [], lock_time := 0 }

/-- A one-input, one-output unsigned transaction. -/
def txOneIn : Transaction :=
  { version := 2,
    input := [{ previous_output := { txid := List.replicate 32 5, vout := 3 },
                script_sig := [], sequence := 4294967295, witness := [] }],
    output := [{ value := 5000, script_pubkey := [1, 2, 3] }],
    lock_time := 7 }

/-- A valid 78-byte extended public key. -/
def xpubA : ExtendedPubKey := ⟨List.replicate 78 2⟩

/-- A second valid extended public key, larger than `xpubA`. -/
def xpubB : ExtendedPubKey := ⟨List.replicate 78 3⟩

/-- An empty Global over `txEmpty`. -/
def gEmpty : Global := { unsigned_tx := txEmpty, version := 0, xpub := [], unknown := [] }

/-! ## C9 -/

/-- C9: `is_standard()` is true for `PubkeyHash`/`ScriptHash`, and for a
`WitnessProgram` exactly when the version is 0 and the program length is 20
or 32; it is a total Boolean function (never an error). -/
theorem c9_is_standard (a : Address) :
    a.isStandard = true ↔
      ((∃ h, a.payload = .pubkeyHash h) ∨ (∃ h, a.payload = .scriptHash h) ∨
        (∃ v p, a.payload = .witnessProgram v p ∧ v = 0 ∧
          (p.length = 20 ∨ p.length = 32))) := by
  obtain ⟨pl, nw⟩ := a
  cases pl with
  | pubkeyHash h => simp [Address.isStandard]
  | scriptHash h => simp [Address.isStandard]
  | witnessProgram v p =>
    simp only [Address.isStandard, Bool.and_eq_true, beq_iff_eq, Bool.or_eq_true]
    constructor
    · rintro ⟨hv, hl⟩
      exact Or.inr (Or.inr ⟨v, p, rfl, hv, by rcases hl with h | h <;> simp_all⟩)
    · rintro (⟨h, hx⟩ | ⟨h, hx⟩ | ⟨v', p', hx, hv, hl⟩) <;> try cases hx
      exact ⟨hv, by rcases hl with h | h <;> simp_all⟩

/-! ## C10 -/

/-- C10: `Global::insert_pair` rejects every pair with type tag 0x00 with
`DuplicateKey` unconditionally; every other tag (including 0x01 and 0xFB) is
inserted into the unknown map, failing with `DuplicateKey` exactly when the
raw key is already present there. -/
theorem c10_insert_pair (g : Global) (p : RawPair) :
    (p.key.type_value = 0 →
      g.insertPair p = .error (.psbt (.duplicateKey p.key))) ∧
    (p.key.type_value ≠ 0 →
      g.insertPair p =
        match mLookup rawKeyCmp g.unknown p.key with
        | none => .ok { g with unknown := mInsert rawKeyCmp p.key p.value g.unknown }
        | some _ => .error (.psbt (.duplicateKey p.key))) := by
  constructor
  · intro h
    simp [Global.insertPair, h]
  · intro h
    simp [Global.insertPair, h]

/-- C10 witness: tag 0x00 is always rejected, regardless of key bytes and
value, even on an empty map; tag 0xFB goes to the unknown map. -/
theorem c10_insert_pair_witness :
    Global.insertPair gEmpty { key := { type_value := 0, key := [7] }, value := [1] }
      = .error (.psbt (.duplicateKey { type_value := 0, key := [7] })) ∧
    Global.insertPair gEmpty { key := { type_value := 0xFB, key := [] }, value := [9] }
      = .ok { gEmpty with unknown := [({ type_value := 0xFB, key := [] }, [9])] } := by
  refine ⟨(c10_insert_pair gEmpty _).1 rfl, ?_⟩
  have h := (c10_insert_pair gEmpty
    { key := { type_value := 0xFB, key := [] }, value := [9] }).2 (by decide)
  rw [h]
  rfl

/-! ## C7 -/

/-- C7: during decoding, a 0xFB pair must have an empty key (else
`InvalidKey`) and, on first occurrence, a value of exactly 4 bytes read as
little-endian u32, of which only the value 0 is accepted (anything else is a
hard decode error); a second 0xFB pair with empty key fails with
`DuplicateKey`. -/
theorem c7_version_pair (st : DecState) (key value : List Nat) :
    decStep st { key := { type_value := 0xFB, key := key }, value := value } =
      (if key ≠ [] then .error (.psbt (.invalidKey { type_value := 0xFB, key := key }))
       else if st.version.isSome then
         .error (.psbt (.duplicateKey { type_value := 0xFB, key := key }))
       else if value.length ≠ 4 then
         .error (.parseFailed "Wrong global version value length (must be 4 bytes)")
       else if leNat value ≠ 0 then
         .error (.parseFailed "PSBT versions greater than 0 are not supported")
       else .ok { st with version := some (leNat value) }) := by
  unfold decStep
  cases hv : st.version with
  | none =>
    by_cases hk : key = [] <;>
      simp [hk, hv, Option.isSome] <;>
      by_cases hl : value.length = 4 <;>
        simp [hl] <;>
        by_cases hz : leNat value = 0 <;> simp [hz]
  | some v =>
    by_cases hk : key = [] <;> simp [hk, hv, Option.isSome]

/-! ## Comparator laws for the concrete key orders -/

theorem lexCmp_laws {α : Type} {c : α → α → Ordering} (L : CmpLaws c) :
    CmpLaws (lexCmp c) := by
  refine ⟨?_, ?_, ?_⟩
  · intro a
    induction a with
    | nil => intro b; cases b <;> simp [lexCmp]
    | cons x xs ih =>
      intro b
      cases b with
      | nil => simp [lexCmp]
      | cons y ys =>
        simp only [lexCmp]
        cases hc : c x y with
        | eq =>
          rw [(L.eq_iff x y).mp hc]
          simp [ih ys]
        | lt =>
          constructor
          · intro h; cases h
          · intro h
            injection h with h1 h2
            rw [h1, L.refl y] at hc
            cases hc
        | gt =>
          constructor
          · intro h; cases h
          · intro h
            injection h with h1 h2
            rw [h1, L.refl y] at hc
            cases hc
  · intro a
    induction a with
    | nil => intro b; cases b <;> simp [lexCmp, Ordering.swap]
    | cons x xs ih =>
      intro b
      cases b with
      | nil => simp [lexCmp, Ordering.swap]
      | cons y ys =>
        simp only [lexCmp]
        rw [L.swap x y]
        cases hc : c x y <;> simp [Ordering.swap, ih ys]
  · intro a
    induction a with
    | nil =>
      intro b d hab hbd
      cases b with
      | nil => exact hbd
      | cons y ys =>
        cases d with
        | nil => cases hbd
        | cons z zs => rfl
    | cons x xs ih =>
      intro b d hab hbd
      cases b with
      | nil => cases hab
      | cons y ys =>
        cases d with
        | nil => cases hbd
        | cons z zs =>
          simp only [lexCmp] at hab hbd ⊢
          cases hxy : c x y with
          | lt =>
            cases hyz : c y z with
            | lt => rw [L.lt_trans x y z hxy hyz]
            | eq => rw [← (L.eq_iff y z).mp hyz, hxy]
            | gt => rw [hyz] at hbd; cases hbd
          | eq =>
            rw [hxy] at hab
            cases hyz : c y z with
            | lt =>
              have hxz : c x z = .lt := by
                rw [(L.eq_iff x y).mp hxy]; exact hyz
              rw [hxz]
            | eq =>
              rw [hyz] at hbd
              rw [(L.eq_iff x z).mpr (((L.eq_iff x y).mp hxy).trans ((L.eq_iff y z).mp hyz))]
              exact ih ys zs hab hbd
            | gt => rw [hyz] at hbd; cases hbd
          | gt => rw [hxy] at hab; cases hab

theorem ordThen_eq_iff (x y : Ordering) :
    x.then y = .eq ↔ (x = .eq ∧ y = .eq) := by
  cases x <;> cases y <;> simp [Ordering.then]

theorem ordThen_swap (x y : Ordering) :
    (x.then y).swap = x.swap.then y.swap := by
  cases x <;> cases y <;> simp [Ordering.then, Ordering.swap]

theorem ordThen_lt_iff (x y : Ordering) :
    x.then y = .lt ↔ (x = .lt ∨ (x = .eq ∧ y = .lt)) := by
  cases x <;> cases y <;> simp [Ordering.then]

theorem rawKeyCmp_laws : CmpLaws rawKeyCmp := by
  have Lx := lexCmp_laws natCmp_laws
  refine ⟨?_, ?_, ?_⟩
  · intro a b
    obtain ⟨at_, ak⟩ := a
    obtain ⟨bt, bk⟩ := b
    simp only [rawKeyCmp]
    rw [ordThen_eq_iff, natCmp_laws.eq_iff, Lx.eq_iff]
    constructor
    · rintro ⟨h1, h2⟩
      rw [h1, h2]
    · intro h
      injection h with h1 h2
      exact ⟨h1, h2⟩
  · intro a b
    obtain ⟨at_, ak⟩ := a
    obtain ⟨bt, bk⟩ := b
    simp only [rawKeyCmp]
    rw [natCmp_laws.swap at_ bt, Lx.swap ak bk, ordThen_swap]
  · intro a b d hab hbd
    obtain ⟨at_, ak⟩ := a
    obtain ⟨bt, bk⟩ := b
    obtain ⟨dt, dk⟩ := d
    simp only [rawKeyCmp] at hab hbd ⊢
    rw [ordThen_lt_iff] at hab hbd ⊢
    rcases hab with h1 | ⟨h1, h2⟩
    · rcases hbd with h3 | ⟨h3, h4⟩
      · exact Or.inl (natCmp_laws.lt_trans _ _ _ h1 h3)
      · exact Or.inl (by rw [← (natCmp_laws.eq_iff bt dt).mp h3]; exact h1)
    · rcases hbd with h3 | ⟨h3, h4⟩
      · exact Or.inl (by rw [(natCmp_laws.eq_iff at_ bt).mp h1]; exact h3)
      · refine Or.inr ⟨?_, Lx.lt_trans _ _ _ h2 h4⟩
        rw [(natCmp_laws.eq_iff at_ dt).mpr
          (((natCmp_laws.eq_iff at_ bt).mp h1).trans ((natCmp_laws.eq_iff bt dt).mp h3))]

theorem xpubCmp_laws : CmpLaws xpubCmp := by
  have Lx := lexCmp_laws natCmp_laws
  refine ⟨?_, ?_, ?_⟩
  · intro a b
    obtain ⟨ab⟩ := a
    obtain ⟨bb⟩ := b
    unfold xpubCmp
    rw [Lx.eq_iff]
    constructor
    · intro h
      exact congrArg ExtendedPubKey.mk h
    · intro h
      injection h
  · intro a b
    exact Lx.swap a.bytes b.bytes
  · intro a b d hab hbd
    exact Lx.lt_trans a.bytes b.bytes d.bytes hab hbd

/-! ## C4 -/

/-- Outcome of an xpub conflict resolution. -/
inductive MergeDecision where
  | keepSelf
  | takeOther
  | conflict
deriving DecidableEq, Repr

/-- The conflict cascade written sequentially, following the spec's words as
amended: (a) prefer the entry whose derivation path has the deeper last
non-hardened step (a path with no non-hardened elements ranking lowest);
(b) else prefer the longer derivation path; (c) else prefer the derivation
path greater under the total order on child-number sequences; if all three
tie, equal fingerprints are a no-op and different fingerprints are a
merge conflict. -/
def specCascade (selfE otherE : KeySource) : MergeDecision :=
  let a := optCmp (rposNormal otherE.2) (rposNormal selfE.2)
  if a = .gt then .takeOther
  else if a = .lt then .keepSelf
  else
    let b := natCmp otherE.2.length selfE.2.length
    if b = .gt then .takeOther
    else if b = .lt then .keepSelf
    else
      let d := lexCmp cnCmp otherE.2 selfE.2
      if d = .gt then .takeOther
      else if d = .lt then .keepSelf
      else if otherE.1 = selfE.1 then .keepSelf else .conflict

/-- C4 (amended): the `Entry::Occupied` branch of `Global::merge` resolves a
conflicting xpub entry exactly by the sequential cascade (a)-(c) over
derivation paths; when all three path comparisons tie, it keeps the entry
unchanged if the fingerprints agree and fails with a merge-conflict error
naming the xpub if they differ.  There is no fingerprint-preference step. -/
theorem c4_merge_cascade (xpub : ExtendedPubKey)
    (acc : List (ExtendedPubKey × KeySource)) (selfE otherE : KeySource) :
    xpubMergeStep xpub acc selfE otherE =
      (match specCascade selfE otherE with
       | .takeOther => .ok (mInsert xpubCmp xpub otherE acc)
       | .keepSelf => .ok acc
       | .conflict => .error (.mergeConflict xpub)) := by
  unfold xpubMergeStep specCascade
  have Lf := lexCmp_laws natCmp_laws
  cases ha : optCmp (rposNormal otherE.2) (rposNormal selfE.2) <;>
    cases hb : natCmp otherE.2.length selfE.2.length <;>
      cases hd : lexCmp cnCmp otherE.2 selfE.2 <;>
        cases hf : lexCmp natCmp otherE.1 selfE.1 <;>
          first
          | rfl
          | (have hne : otherE.1 ≠ selfE.1 := by
               intro he
               rw [(Lf.eq_iff otherE.1 selfE.1).mpr he] at hf
               exact absurd hf (by decide)
             simp [hne])
          | (have he : otherE.1 = selfE.1 := (Lf.eq_iff otherE.1 selfE.1).mp hf
             simp [he])

/-- A Global carrying `xpubA` with an empty derivation path and
fingerprint `[0,0,0,1]`. -/
def gFpOne : Global :=
  { unsigned_tx := txEmpty, version := 0,
    xpub := [(xpubA, ([0, 0, 0, 1], []))], unknown := [] }

/-- A Global carrying `xpubA` with the same (empty) derivation path and the
numerically larger fingerprint `[0,0,0,2]`. -/
def gFpTwo : Global :=
  { unsigned_tx := txEmpty, version := 0,
    xpub := [(xpubA, ([0, 0, 0, 2], []))], unknown := [] }

/-- C4 counterexample: the derivation paths are identical (so cascade steps
(a)-(c) all tie) and the fingerprints differ, so by the claim's step (d) the
entry with the numerically larger fingerprint should win and the merge
succeed; the code instead fails with a merge-conflict error — the fourth
comparison is not tied, contradicting step (e)'s "only if all four
comparisons are tied". -/
theorem c4_counterexample :
    Global.merge gFpOne gFpTwo = .error (.mergeConflict xpubA) ∧
    lexCmp natCmp ([0, 0, 0, 2] : List Nat) ([0, 0, 0, 1]) ≠ .eq := by
  constructor
  · rfl
  · decide

/-! ## C5 -/

/-- C5 (amended): for a string routed to the bech32 path whose bech32 decode
succeeds with word sequence `words`: an empty `words` fails with
`EmptyBech32Payload`; next the remaining words are regrouped, and a
regrouping failure is reported as a bech32 error (taking precedence over the
version check); only then does a first word above 16 fail with
`InvalidWitnessVersion`, a program length outside [2,40] fail with
`InvalidWitnessProgramLength`, a version-0 program length other than 20/32
fail with `InvalidSegwitV0ProgramLength`; otherwise parsing succeeds with
the corresponding witness-program payload. -/
theorem c5_bech32_path (s : List Char) (network : Network) (hrp : List Char)
    (words : List Nat)
    (hn : bech32NetworkOf (findBech32Hrp s) = some network)
    (hd : bech32Decode s = .ok (hrp, words)) :
    Address.fromText s =
      (match words with
       | [] => .error .emptyBech32Payload
       | v :: p5 =>
         match fromBase32 p5 with
         | .error e => .error (.bech32 e)
         | .ok program =>
           if v > 16 then .error (.invalidWitnessVersion v)
           else if program.length < 2 ∨ program.length > 40 then
             .error (.invalidWitnessProgramLength program.length)
           else if v = 0 ∧ program.length ≠ 20 ∧ program.length ≠ 32 then
             .error (.invalidSegwitV0ProgramLength program.length)
           else .ok { payload := .witnessProgram v program, network := network }) := by
  unfold Address.fromText
  simp only [hn, hd]
  cases words <;> rfl

/-- The 20-byte hash used by address fixtures. -/
def hash20 : List Nat := List.replicate 20 7

/-- A well-formed mainnet v0 bech32 address string. -/
def sWitMain : List Char := bech32Encode ['b', 'c'] (0 :: toBase32 hash20)

/-- C5 witness: the well-formed string parses to the corresponding
witness-program address through the characterization. -/
theorem c5_bech32_path_witness :
    Address.fromText sWitMain =
      .ok { payload := .witnessProgram 0 hash20, network := .bitcoin } := by
  rw [c5_bech32_path sWitMain .bitcoin ['b', 'c'] (0 :: toBase32 hash20)
    (by decide) (by decide)]
  decide

/-- A bech32 string whose first word is 17 (> 16) and whose remaining words
fail 5-to-8 regrouping. -/
def sVer17 : List Char := bech32Encode ['b', 'c'] [17, 16]

/-- C5 counterexample: the claim says a first word above 16 fails with
`InvalidWitnessVersion`; here the first decoded word is 17 yet parsing fails
with a bech32 (padding) error, because regrouping runs before the version
check. -/
theorem c5_counterexample :
    bech32Decode sVer17 = .ok (['b', 'c'], [17, 16]) ∧
    Address.fromText sVer17 = .error (.bech32 .invalidPadding) ∧
    Address.fromText sVer17 ≠ .error (.invalidWitnessVersion 17) := by
  refine ⟨by decide, by decide, by decide⟩

/-! ## C6 -/

/-- C6: on the base58 path (no bech32 hrp matched): text longer than 50
characters is rejected up front with an invalid-length error independent of
its content; a checksum-decode failure propagates as a base58 error; a
decoded payload of length other than 21 is rejected; otherwise the leading
byte selects network and payload via the inverse prefix table
(0x00 → main pubkey hash, 0x05 → main script hash, 0x6f → testnet pubkey
hash, 0xc4 → testnet script hash) and any other leading byte fails with an
invalid-version error. -/
theorem c6_base58_path (s : List Char)
    (hn : bech32NetworkOf (findBech32Hrp s) = none) :
    (s.length > 50 →
      Address.fromText s = .error (.base58 (.invalidLength (s.length * 11 / 15)))) ∧
    (∀ e, s.length ≤ 50 → base58FromCheck s = .error e →
      Address.fromText s = .error (.base58 e)) ∧
    (∀ data, s.length ≤ 50 → base58FromCheck s = .ok data → data.length ≠ 21 →
      Address.fromText s = .error (.base58 (.invalidLength data.length))) ∧
    (∀ p rest, s.length ≤ 50 → base58FromCheck s = .ok (p :: rest) →
      (p :: rest).length = 21 →
      Address.fromText s =
        (if p = 0 then .ok { network := .bitcoin, payload := .pubkeyHash rest }
         else if p = 5 then .ok { network := .bitcoin, payload := .scriptHash rest }
         else if p = 111 then .ok { network := .testnet, payload := .pubkeyHash rest }
         else if p = 196 then .ok { network := .testnet, payload := .scriptHash rest }
         else .error (.base58 (.invalidVersion [p])))) := by
  refine ⟨?_, ?_, ?_, ?_⟩
  · intro h
    unfold Address.fromText
    rw [hn]
    simp [h]
  · intro e hle hdec
    unfold Address.fromText
    rw [hn]
    have : ¬ s.length > 50 := by omega
    simp only [this, if_false, hdec]
  · intro data hle hdec hlen
    unfold Address.fromText
    rw [hn]
    have : ¬ s.length > 50 := by omega
    simp only [this, if_false, hdec]
    simp [hlen]
  · intro p rest hle hdec hlen
    unfold Address.fromText
    rw [hn]
    have h50 : ¬ s.length > 50 := by omega
    simp only [h50, if_false, hdec]
    simp only [hlen, ne_eq, not_true_eq_false, if_false]
    by_cases h0 : p = 0
    · subst h0; simp
    · by_cases h5 : p = 5
      · subst h5; simp
      · by_cases h111 : p = 111
        · subst h111; simp
        · by_cases h196 : p = 196
          · subst h196; simp
          · simp [h0, h5, h111, h196]

/-- A 51-character string with no `'1'` and no hrp: rejected up front. -/
def sLong51 : List Char := List.replicate 51 'z'

/-- The testnet script-hash encoding of `hash20`. -/
def sP2shTest : List Char := base58CheckEncode (196 :: hash20)

/-- A 21-byte payload with the unknown leading byte 77. -/
def sBadVersion : List Char := base58CheckEncode (77 :: hash20)

/-- C6 witness: the three base58-path behaviors at concrete inputs — the
up-front length bound, the prefix-table dispatch (0xc4 → testnet script
hash), and the invalid-version rejection. -/
theorem c6_base58_path_witness :
    Address.fromText sLong51 = .error (.base58 (.invalidLength (51 * 11 / 15))) ∧
    Address.fromText sP2shTest =
      .ok { network := .testnet, payload := .scriptHash hash20 } ∧
    Address.fromText sBadVersion = .error (.base58 (.invalidVersion [77])) := by
  refine ⟨(c6_base58_path sLong51 (by decide)).1 (by decide), ?_, ?_⟩
  · have h := (c6_base58_path sP2shTest (by decide)).2.2.2 196 hash20
      (by decide) (by decide) (by decide)
    rw [h]
    decide
  · have h := (c6_base58_path sBadVersion (by decide)).2.2.2 77 hash20
      (by decide) (by decide) (by decide)
    rw [h]
    decide

/-! ## C3 counterexample -/

/-- A valid regtest pay-to-pubkey-hash address. -/
def aRegtestPkh : Address := { payload := .pubkeyHash hash20, network := .regtest }

/-- C3 counterexample: the claim includes all three networks, but a regtest
base58 address (prefix byte 111, shared with testnet) parses back to the
testnet address with the same payload, which is not equal to the original —
an asymmetry beyond the lowercase-bech32 one the claim allows. -/
theorem c3_counterexample :
    Address.fromText (Address.toText aRegtestPkh) =
      .ok { payload := .pubkeyHash hash20, network := .testnet } ∧
    ({ payload := .pubkeyHash hash20, network := .testnet } : Address) ≠ aRegtestPkh := by
  exact ⟨by decide, by decide⟩

/-! ## Codec round-trip lemmas -/

theorem take_append_len {α : Type} (l r : List α) : (l ++ r).take l.length = l := by
  induction l with
  | nil => rfl
  | cons x xs ih => simp [ih]

theorem drop_append_len {α : Type} (l r : List α) : (l ++ r).drop l.length = r := by
  induction l with
  | nil => rfl
  | cons x xs ih => simp [ih]

theorem readN_exact {l r : List Nat} : readN l.length (l ++ r) = .ok (l, r) := by
  unfold readN
  rw [if_neg (by rw [List.length_append]; omega)]
  rw [take_append_len, drop_append_len]

theorem readN_exact' {n : Nat} {l r : List Nat} (h : l.length = n) :
    readN n (l ++ r) = .ok (l, r) := by
  subst h
  exact readN_exact

theorem u32le_length (n : Nat) : (u32le n).length = 4 := rfl

theorem u64le_length (n : Nat) : (u64le n).length = 8 := rfl

theorem leNat_u32le {n : Nat} (h : n < 4294967296) : leNat (u32le n) = n := by
  simp only [u32le, leNat]
  omega

theorem leNat_u64le {n : Nat} (h : n < 18446744073709551616) : leNat (u64le n) = n := by
  simp only [u64le, leNat]
  omega

theorem u32dec_enc {n : Nat} (h : n < 4294967296) (r : List Nat) :
    u32dec (u32le n ++ r) = .ok (n, r) := by
  unfold u32dec
  rw [readN_exact' (u32le_length n)]
  simp [leNat_u32le h]

theorem u64dec_enc {n : Nat} (h : n < 18446744073709551616) (r : List Nat) :
    u64dec (u64le n ++ r) = .ok (n, r) := by
  unfold u64dec
  rw [readN_exact' (u64le_length n)]
  simp [leNat_u64le h]

theorem varIntDec_enc {n : Nat} (h : n < 18446744073709551616) (r : List Nat) :
    varIntDec (varIntEnc n ++ r) = .ok (n, r) := by
  unfold varIntEnc
  by_cases h1 : n < 253
  · rw [if_pos h1]
    show varIntDec (n :: r) = .ok (n, r)
    simp only [varIntDec]
    rw [if_neg (by omega), if_neg (by omega), if_neg (by omega)]
  · rw [if_neg h1]
    by_cases h2 : n ≤ 65535
    · rw [if_pos h2]
      show varIntDec (253 :: ([n % 256, n / 256 % 256] ++ r)) = .ok (n, r)
      have hle : leNat [n % 256, n / 256 % 256] = n := by
        simp only [leNat]
        omega
      simp only [varIntDec,
        readN_exact' (show ([n % 256, n / 256 % 256] : List Nat).length = 2 from rfl),
        hle]
      norm_num
      exact fun hx => absurd hx (by omega)
    · rw [if_neg h2]
      by_cases h3 : n ≤ 4294967295
      · rw [if_pos h3]
        show varIntDec (254 :: (u32le n ++ r)) = .ok (n, r)
        simp only [varIntDec, readN_exact' (u32le_length n), leNat_u32le (show n < 4294967296 by omega)]
        norm_num
        exact fun hx => absurd hx (by omega)
      · rw [if_neg h3]
        show varIntDec (255 :: (u64le n ++ r)) = .ok (n, r)
        simp only [varIntDec, readN_exact' (u64le_length n), leNat_u64le h]
        norm_num
        exact fun hx => absurd hx (by omega)

theorem bytesDec_enc {l : List Nat} (h : l.length < 18446744073709551616)
    (r : List Nat) : bytesDec (bytesEnc l ++ r) = .ok (l, r) := by
  unfold bytesEnc bytesDec
  rw [List.append_assoc, varIntDec_enc h (l ++ r)]
  exact readN_exact

theorem listDecN_enc {α : Type} {enc : α → List Nat}
    {dec : List Nat → Except EncError (α × List Nat)} :
    ∀ (xs : List α), (∀ x ∈ xs, ∀ r', dec (enc x ++ r') = .ok (x, r')) →
      ∀ (r : List Nat),
        listDecN dec xs.length ((xs.map enc).flatten ++ r) = .ok (xs, r) := by
  intro xs
  induction xs with
  | nil => intro _ r; rfl
  | cons x t ih =>
    intro hrt r
    show listDecN dec (t.length + 1) ((enc x ++ (t.map enc).flatten) ++ r) = _
    rw [List.append_assoc]
    unfold listDecN
    simp only [hrt x (List.mem_cons_self _ _) ((t.map enc).flatten ++ r),
      ih (fun y hy r' => hrt y (List.mem_cons_of_mem _ hy) r') r]

theorem listDec_enc {α : Type} {enc : α → List Nat}
    {dec : List Nat → Except EncError (α × List Nat)}
    {xs : List α} (hrt : ∀ x ∈ xs, ∀ r', dec (enc x ++ r') = .ok (x, r'))
    (hlen : xs.length < 18446744073709551616) (r : List Nat) :
    listDec dec (listEnc enc xs ++ r) = .ok (xs, r) := by
  unfold listEnc listDec
  rw [List.append_assoc, varIntDec_enc hlen ((xs.map enc).flatten ++ r)]
  exact listDecN_enc xs hrt r

def OutPoint.wf (op : OutPoint) : Prop := op.txid.length = 32 ∧ op.vout < 4294967296

/-- Validity of an input of an unsigned transaction: well-formed previous
output, empty signature script and witness, in-range sequence. -/
def TxIn.wfUnsigned (i : TxIn) : Prop :=
  i.previous_output.wf ∧ i.script_sig = [] ∧ i.sequence < 4294967296 ∧ i.witness = []

def TxOut.wf (o : TxOut) : Prop :=
  o.value < 18446744073709551616 ∧ o.script_pubkey.length < 18446744073709551616

/-- Validity of an unsigned transaction for serialization round trips. -/
def Transaction.wfUnsigned (tx : Transaction) : Prop :=
  tx.version < 4294967296 ∧ tx.lock_time < 4294967296 ∧
  tx.input.length < 18446744073709551616 ∧
  tx.output.length < 18446744073709551616 ∧
  (∀ i ∈ tx.input, i.wfUnsigned) ∧ (∀ o ∈ tx.output, o.wf)

theorem outPointDec_enc {op : OutPoint} (h : op.wf) (r : List Nat) :
    outPointDec (outPointEnc op ++ r) = .ok (op, r) := by
  obtain ⟨h32, hv⟩ := h
  unfold outPointEnc outPointDec
  simp only [List.append_assoc, readN_exact' h32, u32dec_enc hv r]

theorem txInDec_enc {i : TxIn} (h : i.wfUnsigned) (r : List Nat) :
    txInDec (txInEnc i ++ r) = .ok (i, r) := by
  obtain ⟨op, ss, seq, w⟩ := i
  obtain ⟨hop, hss, hseq, hwit⟩ := h
  simp only at hss hseq hwit
  subst hss
  subst hwit
  unfold txInEnc txInDec
  simp only [List.append_assoc, outPointDec_enc hop,
    bytesDec_enc (show ([] : List Nat).length < 18446744073709551616 by simp),
    u32dec_enc hseq]

theorem txOutDec_enc {o : TxOut} (h : o.wf) (r : List Nat) :
    txOutDec (txOutEnc o ++ r) = .ok (o, r) := by
  unfold txOutEnc txOutDec
  simp only [List.append_assoc, u64dec_enc h.1, bytesDec_enc h.2 r]

theorem txBodyDec_enc {tx : Transaction} (h : tx.wfUnsigned) (r : List Nat) :
    txBodyDec (txBodyEnc tx ++ r) = .ok (tx, r) := by
  obtain ⟨hver, hlock, hilen, holen, hins, houts⟩ := h
  unfold txBodyEnc txBodyDec
  simp only [List.append_assoc, u32dec_enc hver,
    listDec_enc (fun x hx r' => txInDec_enc (hins x hx) r') hilen,
    listDec_enc (fun x hx r' => txOutDec_enc (houts x hx) r') holen,
    u32dec_enc hlock r]

/-! ### Pair-stream round trip -/

/-- Well-formedness of a raw pair for serialization: byte-valued type tag
and varint-encodable lengths. -/
def RawPair.wf (p : RawPair) : Prop :=
  p.key.type_value < 256 ∧ 1 + p.key.key.length < 18446744073709551616 ∧
  p.value.length < 18446744073709551616

theorem rawPairDec_enc {p : RawPair} (h : p.wf) (r : List Nat) :
    rawPairDec (rawPairEnc p ++ r) = .ok (some p, r) := by
  obtain ⟨⟨t, k⟩, v⟩ := p
  obtain ⟨ht, hk, hv⟩ := h
  simp only at ht hk hv
  unfold rawPairEnc rawPairDec
  simp only [List.append_assoc, varIntDec_enc hk]
  rw [if_neg (by omega)]
  rw [show (t :: k) ++ (varIntEnc v.length ++ (v ++ r))
        = [t] ++ (k ++ (varIntEnc v.length ++ (v ++ r))) from rfl]
  simp only [readN_exact' (show ([t] : List Nat).length = 1 from rfl)]
  rw [show 1 + k.length - 1 = k.length by omega]
  simp only [readN_exact]
  have hb : bytesDec (varIntEnc v.length ++ (v ++ r)) = .ok (v, r) := by
    have hx := bytesDec_enc hv r (l := v)
    rw [bytesEnc, List.append_assoc] at hx
    exact hx
  simp only [hb]
  rfl

/-- The decode loop's effect on a list of pairs, sequentially
(`foldlM decStep` written as explicit recursion). -/
def stepAll : DecState → List RawPair → Except EncError DecState
  | st, [] => .ok st
  | st, p :: t =>
    match decStep st p with
    | .error e => .error e
    | .ok st' => stepAll st' t

/-- Decoding the concatenated encodings of `ps` followed by the
zero-length-key sentinel runs `decStep` over `ps` and stops at the
sentinel. -/
theorem decodeLoop_encPairs (ps : List RawPair) (hwf : ∀ p ∈ ps, p.wf) :
    ∀ (st : DecState) (r : List Nat),
      decodeLoop st ((ps.map rawPairEnc).flatten ++ 0 :: r) =
        (match stepAll st ps with
         | .error e => .error e
         | .ok st' => .ok (st', r)) := by
  induction ps with
  | nil =>
    intro st r
    rw [decodeLoop_unfold]
    have h0 : rawPairDec (0 :: r) = .ok (none, r) := by
      have hv : varIntDec (0 :: r) = .ok (0, r) := by
        have hx := varIntDec_enc (n := 0) (by omega) r
        simpa [varIntEnc] using hx
      simp [rawPairDec, hv]
    simp only [List.map_nil, List.flatten_nil, List.nil_append, h0, stepAll]
  | cons p t ih =>
    intro st r
    rw [decodeLoop_unfold]
    have hp : rawPairDec (rawPairEnc p ++ ((t.map rawPairEnc).flatten ++ 0 :: r))
        = .ok (some p, (t.map rawPairEnc).flatten ++ 0 :: r) :=
      rawPairDec_enc (hwf p (List.mem_cons_self _ _)) _
    simp only [List.map_cons, List.flatten_cons, List.append_assoc, hp]
    cases hs : decStep st p with
    | error e => simp only [stepAll, hs]
    | ok st' =>
      simp only [stepAll, hs]
      exact ih (fun q hq => hwf q (List.mem_cons_of_mem _ hq)) st' r

theorem take_append_len' {α : Type} {n : Nat} {l : List α} (h : l.length = n)
    (r : List α) : (l ++ r).take n = l := by
  subst h
  exact take_append_len l r

theorem drop_append_len' {α : Type} {n : Nat} {l : List α} (h : l.length = n)
    (r : List α) : (l ++ r).drop n = r := by
  subst h
  exact drop_append_len l r

theorem mLookup_eq_none_of_all_gt {κ ν : Type} {c : κ → κ → Ordering}
    (L : CmpLaws c) {l : List (κ × ν)} {k : κ}
    (h : ∀ q ∈ l, c q.1 k = .lt) : mLookup c l k = none := by
  induction l with
  | nil => rfl
  | cons p t ih =>
    have hp : c k p.1 = .gt := (L.gt_iff k p.1).mpr (h p (List.mem_cons_self _ _))
    rw [show p = (p.1, p.2) from rfl,
      mLookup_cons_of_ne (by rw [hp]; intro hx; cases hx)]
    exact ih (fun q hq => h q (List.mem_cons_of_mem _ hq))

theorem ChildNumber.toU32_lt {c : ChildNumber} (h : c.valid) :
    c.toU32 < 4294967296 := by
  cases c with
  | normal i =>
    have hi : i < 2147483648 := h
    show i < 4294967296
    omega
  | hardened i =>
    have hi : i < 2147483648 := h
    show i + 2147483648 < 4294967296
    omega

theorem ChildNumber.fromU32_toU32 {c : ChildNumber} (h : c.valid) :
    ChildNumber.fromU32 c.toU32 = c := by
  cases c with
  | normal i =>
    have hi : i < 2147483648 := h
    simp [ChildNumber.toU32, ChildNumber.fromU32, hi]
  | hardened i =>
    have hi : i < 2147483648 := h
    simp [ChildNumber.toU32, ChildNumber.fromU32]

theorem childrenBytes_length (path : DerivationPath) :
    ((path.map (fun n => u32le n.toU32)).flatten).length = 4 * path.length := by
  induction path with
  | nil => rfl
  | cons c t ih =>
    simp only [List.map_cons, List.flatten_cons, List.length_append, ih,
      u32le_length, List.length_cons]
    omega

theorem childrenDec_enc (path : DerivationPath) (h : ∀ c ∈ path, c.valid) :
    childrenDec ((path.map (fun n => u32le n.toU32)).flatten) = path := by
  induction path with
  | nil => rfl
  | cons c t ih =>
    have hv := h c (List.mem_cons_self _ _)
    rw [childrenDec_unfold]
    simp only [List.map_cons, List.flatten_cons]
    rw [if_neg (by
      rw [List.length_append, u32le_length, childrenBytes_length]
      omega)]
    rw [take_append_len' (u32le_length c.toU32), drop_append_len' (u32le_length c.toU32)]
    rw [leNat_u32le (ChildNumber.toU32_lt hv), ChildNumber.fromU32_toU32 hv]
    rw [ih (fun d hd => h d (List.mem_cons_of_mem _ hd))]

/-- Well-formedness of an xpub map entry. -/
def xpubEntryWf (x : ExtendedPubKey × KeySource) : Prop :=
  x.1.valid ∧ x.2.1.length = 4 ∧ x.2.2.length < 2305843009213693952 ∧
  ∀ c ∈ x.2.2, c.valid

theorem decStep_xpubPair {st : DecState} {x : ExtendedPubKey × KeySource}
    (hwf : xpubEntryWf x)
    (hlook : mLookup xpubCmp st.xpub_map x.1 = none) :
    decStep st { key := { type_value := 1, key := x.1.encode },
                 value := xpubPairValue x.2 } =
      .ok { st with xpub_map := mInsert xpubCmp x.1 x.2 st.xpub_map } := by
  obtain ⟨hxv, hfp, hdl, hcs⟩ := hwf
  obtain ⟨h78, hbs⟩ := hxv
  have hkey_ne : x.1.encode ≠ [] := by
    intro hx
    rw [ExtendedPubKey.encode] at hx
    rw [hx] at h78
    cases h78
  have hdecode : ExtendedPubKey.decode x.1.encode = some x.1 := by
    unfold ExtendedPubKey.decode ExtendedPubKey.encode
    rw [if_pos ⟨h78, hbs⟩]
  have hvlen : (xpubPairValue x.2).length = 4 + 4 * x.2.2.length := by
    unfold xpubPairValue
    rw [List.length_append, hfp, childrenBytes_length]
  have hnotbad : ¬ (xpubPairValue x.2 = [] ∨ (xpubPairValue x.2).length % 4 ≠ 0) := by
    intro hx
    rcases hx with hx | hx
    · have hlen0 := congrArg List.length hx
      rw [hvlen] at hlen0
      simp at hlen0
    · rw [hvlen] at hx
      omega
  have htake : (xpubPairValue x.2).take 4 = x.2.1 := by
    unfold xpubPairValue
    exact take_append_len' hfp _
  have hdrop : childrenDec ((xpubPairValue x.2).drop 4) = x.2.2 := by
    unfold xpubPairValue
    rw [drop_append_len' hfp _]
    exact childrenDec_enc x.2.2 hcs
  unfold decStep
  simp only [hdecode, htake, hdrop, hlook]
  norm_num [hkey_ne, hnotbad]

theorem decStep_unknownPair {st : DecState} {u : RawKey × List Nat}
    (h0 : u.1.type_value ≠ 0) (h1 : u.1.type_value ≠ 1) (hFB : u.1.type_value ≠ 0xFB)
    (hlook : mLookup rawKeyCmp st.unknowns u.1 = none) :
    decStep st { key := u.1, value := u.2 } =
      .ok { st with unknowns := mInsert rawKeyCmp u.1 u.2 st.unknowns } := by
  unfold decStep
  rw [if_neg h0, if_neg h1, if_neg hFB, hlook]

theorem stepAll_append (a b : List RawPair) (st : DecState) :
    stepAll st (a ++ b) =
      (match stepAll st a with
       | .error e => .error e
       | .ok st' => stepAll st' b) := by
  induction a generalizing st with
  | nil => rfl
  | cons p t ih =>
    show stepAll st (p :: (t ++ b)) = _
    cases hs : decStep st p with
    | error e => simp only [stepAll, hs]
    | ok st' =>
      simp only [stepAll, hs]
      exact ih st'

theorem decStep_txPair {st : DecState} {tx : Transaction} (hwf : tx.wfUnsigned)
    (htx : st.tx = none) :
    decStep st { key := { type_value := 0, key := [] }, value := txBodyEnc tx } =
      .ok { st with tx := some tx } := by
  have hdec : txBodyDec (txBodyEnc tx) = .ok (tx, []) := by
    have hx := txBodyDec_enc hwf []
    rwa [List.append_nil] at hx
  unfold decStep
  simp [htx, hdec]

theorem stepAll_xpubs (xs : List (ExtendedPubKey × KeySource)) :
    ∀ (st : DecState),
      (∀ x ∈ xs, xpubEntryWf x) →
      List.Pairwise (fun a b => xpubCmp a.1 b.1 = .lt) xs →
      (∀ x ∈ xs, ∀ q ∈ st.xpub_map, xpubCmp q.1 x.1 = .lt) →
      stepAll st (xs.map (fun x =>
          { key := { type_value := 1, key := x.1.encode },
            value := xpubPairValue x.2 })) =
        .ok { st with xpub_map := st.xpub_map ++ xs } := by
  induction xs with
  | nil =>
    intro st _ _ _
    show Except.ok st = _
    simp
  | cons x t ih =>
    intro st hwf hsort hgt
    obtain ⟨hx, hts⟩ := List.pairwise_cons.mp hsort
    have hnone : mLookup xpubCmp st.xpub_map x.1 = none :=
      mLookup_eq_none_of_all_gt xpubCmp_laws (hgt x (List.mem_cons_self _ _))
    have hstep := decStep_xpubPair (hwf x (List.mem_cons_self _ _)) hnone
    simp only [List.map_cons, stepAll, hstep]
    rw [mInsert_eq_append xpubCmp_laws (hgt x (List.mem_cons_self _ _)) x.2]
    have hgt' : ∀ y ∈ t, ∀ q ∈ st.xpub_map ++ [x], xpubCmp q.1 y.1 = .lt := by
      intro y hy q hq
      rcases List.mem_append.mp hq with hq | hq
      · exact hgt y (List.mem_cons_of_mem _ hy) q hq
      · rw [List.mem_singleton.mp hq]
        exact hx y hy
    have := ih { st with xpub_map := st.xpub_map ++ [x] }
      (fun y hy => hwf y (List.mem_cons_of_mem _ hy)) hts hgt'
    rw [this]
    simp [List.append_assoc]

theorem stepAll_unknowns (us : List (RawKey × List Nat)) :
    ∀ (st : DecState),
      (∀ u ∈ us, u.1.type_value ≠ 0 ∧ u.1.type_value ≠ 1 ∧ u.1.type_value ≠ 0xFB) →
      List.Pairwise (fun a b => rawKeyCmp a.1 b.1 = .lt) us →
      (∀ u ∈ us, ∀ q ∈ st.unknowns, rawKeyCmp q.1 u.1 = .lt) →
      stepAll st (us.map (fun u => { key := u.1, value := u.2 })) =
        .ok { st with unknowns := st.unknowns ++ us } := by
  induction us with
  | nil =>
    intro st _ _ _
    show Except.ok st = _
    simp
  | cons u t ih =>
    intro st htags hsort hgt
    obtain ⟨hu, hts⟩ := List.pairwise_cons.mp hsort
    have hnone : mLookup rawKeyCmp st.unknowns u.1 = none :=
      mLookup_eq_none_of_all_gt rawKeyCmp_laws (hgt u (List.mem_cons_self _ _))
    obtain ⟨h0, h1, hFB⟩ := htags u (List.mem_cons_self _ _)
    have hstep := decStep_unknownPair h0 h1 hFB hnone
    simp only [List.map_cons, stepAll, hstep]
    rw [mInsert_eq_append rawKeyCmp_laws (hgt u (List.mem_cons_self _ _)) u.2]
    have hgt' : ∀ y ∈ t, ∀ q ∈ st.unknowns ++ [u], rawKeyCmp q.1 y.1 = .lt := by
      intro y hy q hq
      rcases List.mem_append.mp hq with hq | hq
      · exact hgt y (List.mem_cons_of_mem _ hy) q hq
      · rw [List.mem_singleton.mp hq]
        exact hu y hy
    have := ih { st with unknowns := st.unknowns ++ [u] }
      (fun y hy => htags y (List.mem_cons_of_mem _ hy)) hts hgt'
    rw [this]
    simp [List.append_assoc]

theorem checkInputs_ok {l : List TxIn}
    (h : ∀ i ∈ l, i.script_sig = [] ∧ i.witness = []) : checkInputs l = .ok () := by
  induction l with
  | nil => rfl
  | cons i t ih =>
    obtain ⟨hss, hwit⟩ := h i (List.mem_cons_self _ _)
    unfold checkInputs
    rw [if_neg (by rw [hss]; simp), if_neg (by rw [hwit]; simp)]
    exact ih (fun j hj => h j (List.mem_cons_of_mem _ hj))

/-- Validity of a `Global` value (the data-model invariants plus
machine-integer bounds): unsigned transaction with empty signature
scripts/witnesses, sorted `BTreeMap` snapshots, well-formed entries. -/
def Global.wf (g : Global) : Prop :=
  g.unsigned_tx.wfUnsigned ∧
  (txBodyEnc g.unsigned_tx).length < 18446744073709551616 ∧
  g.version < 4294967296 ∧
  mSorted xpubCmp g.xpub ∧
  (∀ x ∈ g.xpub, xpubEntryWf x) ∧
  mSorted rawKeyCmp g.unknown ∧
  (∀ u ∈ g.unknown, u.1.type_value < 256 ∧
    1 + u.1.key.length < 18446744073709551616 ∧
    u.2.length < 18446744073709551616)

theorem xpubPairValue_length {x : ExtendedPubKey × KeySource}
    (hfp : x.2.1.length = 4) :
    (xpubPairValue x.2).length = 4 + 4 * x.2.2.length := by
  unfold xpubPairValue
  rw [List.length_append, hfp, childrenBytes_length]

/-- C2 (amended): the serialized pair order of `get_pairs` is the unsigned-tx
pair, then one pair per xpub entry in map order, then the version pair only
when the version is positive, then one pair per unknown entry in map order;
and for a valid Global with version 0 whose unknown keys avoid the reserved
tags 0x00/0x01/0xFB, serialize-then-decode succeeds and reproduces an equal
Global. -/
theorem c2_get_pairs_roundtrip (g : Global) (hwf : g.wf) (hver : g.version = 0)
    (htags : ∀ u ∈ g.unknown,
      u.1.type_value ≠ 0 ∧ u.1.type_value ≠ 1 ∧ u.1.type_value ≠ 0xFB)
    (r : List Nat) :
    g.getPairs =
      { key := { type_value := 0, key := [] }, value := txBodyEnc g.unsigned_tx } ::
        (g.xpub.map (fun x =>
            { key := { type_value := 1, key := x.1.encode }, value := xpubPairValue x.2 })
          ++ (if g.version > 0 then
                [{ key := { type_value := 0xFB, key := [] }, value := u32le g.version }]
              else [])
          ++ g.unknown.map (fun u => { key := u.1, value := u.2 })) ∧
    globalConsensusDecode (globalConsensusEncode g ++ r) = .ok (g, r) := by
  obtain ⟨htx, htxl, hvb, hxs, hxw, hus, huw⟩ := hwf
  refine ⟨rfl, ?_⟩
  have hpairs : ∀ p ∈ g.getPairs, p.wf := by
    intro p hp
    unfold Global.getPairs at hp
    rcases List.mem_cons.mp hp with hp | hp
    · subst hp
      refine ⟨?_, ?_, htxl⟩
      · show (0 : Nat) < 256
        norm_num
      · show 1 + ([] : List Nat).length < 18446744073709551616
        norm_num
    · rcases List.mem_append.mp hp with hp | hp
      · rcases List.mem_append.mp hp with hp | hp
        · obtain ⟨x, hx, rfl⟩ := List.mem_map.mp hp
          obtain ⟨⟨h78, _⟩, hfp, hdl, _⟩ := hxw x hx
          refine ⟨?_, ?_, ?_⟩
          · show (1 : Nat) < 256
            norm_num
          · show 1 + x.1.encode.length < 18446744073709551616
            rw [ExtendedPubKey.encode, h78]
            norm_num
          · show (xpubPairValue x.2).length < 18446744073709551616
            rw [xpubPairValue_length hfp]
            omega
        · rw [hver] at hp
          simp at hp
      · obtain ⟨u, hu, rfl⟩ := List.mem_map.mp hp
        exact huw u hu
  have hgp : g.getPairs =
      { key := { type_value := 0, key := [] }, value := txBodyEnc g.unsigned_tx } ::
        (g.xpub.map (fun x =>
            { key := { type_value := 1, key := x.1.encode }, value := xpubPairValue x.2 })
          ++ g.unknown.map (fun u => { key := u.1, value := u.2 })) := by
    unfold Global.getPairs
    rw [hver]
    rw [if_neg (by omega)]
    rw [List.append_nil]
  have hstep : stepAll { tx := none, version := none, unknowns := [], xpub_map := [] }
      g.getPairs =
      .ok { tx := some g.unsigned_tx, version := none, unknowns := g.unknown, xpub_map := g.xpub } := by
    rw [hgp]
    have h1 : decStep { tx := none, version := none, unknowns := [], xpub_map := [] }
        { key := { type_value := 0, key := [] }, value := txBodyEnc g.unsigned_tx } =
        .ok { tx := some g.unsigned_tx, version := none, unknowns := [], xpub_map := [] } :=
      decStep_txPair htx rfl
    simp only [stepAll, h1]
    rw [stepAll_append]
    have h2 := stepAll_xpubs g.xpub
      { tx := some g.unsigned_tx, version := none, unknowns := [], xpub_map := [] }
      hxw hxs (by intro x hx q hq; exact absurd hq (List.not_mem_nil q))
    simp only [h2, List.nil_append]
    have h3 := stepAll_unknowns g.unknown
      { tx := some g.unsigned_tx, version := none, unknowns := [], xpub_map := g.xpub }
      htags hus (by intro u hu q hq; exact absurd hq (List.not_mem_nil q))
    simp only [h3, List.nil_append]
  have hloop : decodeLoop { tx := none, version := none, unknowns := [], xpub_map := [] }
      ((g.getPairs.map rawPairEnc).flatten ++ 0 :: r)
      = .ok ({ tx := some g.unsigned_tx, version := none, unknowns := g.unknown, xpub_map := g.xpub }, r) := by
    rw [decodeLoop_encPairs g.getPairs hpairs _ r, hstep]
  have hfin : decFinalize { tx := some g.unsigned_tx, version := none, unknowns := g.unknown, xpub_map := g.xpub } = .ok g := by
    unfold decFinalize
    have hck : Global.fromUnsignedTx g.unsigned_tx =
        .ok { unsigned_tx := g.unsigned_tx, version := 0, xpub := [], unknown := [] } := by
      unfold Global.fromUnsignedTx
      rw [checkInputs_ok (fun i hi =>
        ⟨(htx.2.2.2.2.1 i hi).2.1, (htx.2.2.2.2.1 i hi).2.2.2⟩)]
    simp only [hck]
    show Except.ok { unsigned_tx := g.unsigned_tx, version := (none : Option Nat).getD 0, xpub := g.xpub, unknown := g.unknown } = Except.ok g
    rw [show (none : Option Nat).getD 0 = 0 from rfl, ← hver]
  unfold globalConsensusEncode globalConsensusDecode
  rw [List.append_assoc, List.singleton_append, hloop]
  simp only [hfin]

instance : DecidablePred OutPoint.wf := fun _ =>
  inferInstanceAs (Decidable (_ ∧ _))

instance : DecidablePred TxIn.wfUnsigned := fun _ =>
  inferInstanceAs (Decidable (_ ∧ _ ∧ _ ∧ _))

instance : DecidablePred TxOut.wf := fun _ =>
  inferInstanceAs (Decidable (_ ∧ _))

instance : DecidablePred Transaction.wfUnsigned := fun _ =>
  inferInstanceAs (Decidable (_ ∧ _ ∧ _ ∧ _ ∧ _ ∧ _))

instance : DecidablePred xpubEntryWf := fun _ =>
  inferInstanceAs (Decidable (_ ∧ _ ∧ _ ∧ _))

instance {κ ν : Type} (c : κ → κ → Ordering) [DecidableEq κ] (l : List (κ × ν)) :
    Decidable (mSorted c l) :=
  inferInstanceAs (Decidable (List.Pairwise _ _))

instance : DecidablePred Global.wf := fun _ =>
  inferInstanceAs (Decidable (_ ∧ _ ∧ _ ∧ _ ∧ _ ∧ _ ∧ _))

def gVerOne : Global :=
  { unsigned_tx := txEmpty, version := 1, xpub := [], unknown := [] }

def gFull : Global :=
  { unsigned_tx := txOneIn, version := 0,
    xpub := [(xpubA, ([0, 0, 0, 1], [ChildNumber.normal 5]))],
    unknown := [({ type_value := 0xAA, key := [] }, [7])] }

theorem c2_counterexample :
    gVerOne.wf ∧
    globalConsensusDecode (globalConsensusEncode gVerOne) =
      .error (.parseFailed "PSBT versions greater than 0 are not supported") := by
  constructor
  · decide
  · decide

theorem c2_get_pairs_roundtrip_witness :
    gFull.wf ∧ gFull.version = 0 ∧
    globalConsensusDecode (globalConsensusEncode gFull ++ [9]) = .ok (gFull, [9]) :=
  ⟨by decide, rfl,
   (c2_get_pairs_roundtrip gFull (by decide) rfl (by decide) [9]).2⟩

theorem checkInputs_error {l : List TxIn} {e : PsbtError}
    (h : checkInputs l = .error e) :
    e = .unsignedTxHasScriptSigs ∨ e = .unsignedTxHasScriptWitnesses := by
  induction l with
  | nil => cases h
  | cons i t ih =>
    unfold checkInputs at h
    split_ifs at h with h1 h2
    · injection h with h
      exact Or.inl h.symm
    · injection h with h
      exact Or.inr h.symm
    · exact ih h

theorem checkInputs_sound : ∀ {l : List TxIn}, checkInputs l = .ok () →
    ∀ i ∈ l, i.script_sig = [] ∧ i.witness = [] := by
  intro l
  induction l with
  | nil => intro _ i hi; cases hi
  | cons j t ih =>
    intro h i hi
    unfold checkInputs at h
    split_ifs at h with h1 h2
    · rcases List.mem_cons.mp hi with hi | hi
      · subst hi
        exact ⟨not_ne_iff.mp h1, not_ne_iff.mp h2⟩
      · exact ih h i hi
  
theorem fromUnsignedTx_ok {tx : Transaction} {g : Global}
    (h : Global.fromUnsignedTx tx = .ok g) :
    g = { unsigned_tx := tx, version := 0, xpub := [], unknown := [] } ∧
    checkInputs tx.input = .ok () := by
  unfold Global.fromUnsignedTx at h
  cases hc : checkInputs tx.input with
  | error e => rw [hc] at h; cases h
  | ok u =>
    cases u
    rw [hc] at h
    injection h with h
    exact ⟨h.symm, rfl⟩

theorem decFinalize_ok {st : DecState} {g : Global} (h : decFinalize st = .ok g) :
    ∃ tx, st.tx = some tx ∧ g.unsigned_tx = tx ∧ checkInputs tx.input = .ok () := by
  unfold decFinalize at h
  cases htx : st.tx with
  | none => rw [htx] at h; cases h
  | some tx =>
    rw [htx] at h
    cases hF : Global.fromUnsignedTx tx with
    | error e =>
      simp only [hF] at h
      cases h
    | ok b =>
      simp only [hF] at h
      obtain ⟨hb, hc⟩ := fromUnsignedTx_ok hF
      injection h with h
      refine ⟨tx, rfl, ?_, hc⟩
      rw [← h, hb]

theorem decStep_tx_of_ne {st st' : DecState} {p : RawPair}
    (h : p.key.type_value ≠ 0) (hs : decStep st p = .ok st') : st'.tx = st.tx := by
  unfold decStep at hs
  rw [if_neg h] at hs
  repeat' split at hs
  all_goals first
    | exact Except.noConfusion hs
    | (injection hs with hs; subst hs; rfl)
    | (split at hs <;>
        first
          | exact Except.noConfusion hs
          | (injection hs with hs; subst hs; rfl))
    | (simp only [] at hs
       split at hs <;>
        first
          | exact Except.noConfusion hs
          | (injection hs with hs; subst hs; rfl))

theorem stepAll_tx_of_ne {ps : List RawPair}
    (h : ∀ p ∈ ps, p.key.type_value ≠ 0) :
    ∀ {st st' : DecState}, stepAll st ps = .ok st' → st'.tx = st.tx := by
  induction ps with
  | nil =>
    intro st st' hs
    injection hs with hs
    subst hs
    rfl
  | cons p t ih =>
    intro st st' hs
    cases hd : decStep st p with
    | error e =>
      simp only [stepAll, hd] at hs
      exact Except.noConfusion hs
    | ok st1 =>
      simp only [stepAll, hd] at hs
      rw [ih (fun q hq => h q (List.mem_cons_of_mem _ hq)) hs,
        decStep_tx_of_ne (h p (List.mem_cons_self _ _)) hd]

/-- C8 (amended): `from_unsigned_tx` yields a Global whose inputs all have
empty signature scripts and witnesses (and fails only with the two
unsigned-tx errors otherwise); every consensus-decoded Global satisfies the
same invariant; a well-formed pair stream that parses fully but carries no
unsigned-tx pair fails with MustHaveUnsignedTx; and a successful merge keeps
the left operand's unsigned transaction. -/
theorem c8_unsigned_invariant (tx : Transaction) (ps : List RawPair) (A B : Global) :
    (∀ g, Global.fromUnsignedTx tx = .ok g →
      g = { unsigned_tx := tx, version := 0, xpub := [], unknown := [] } ∧
      ∀ i ∈ g.unsigned_tx.input, i.script_sig = [] ∧ i.witness = []) ∧
    (∀ e, Global.fromUnsignedTx tx = .error e →
      (e = .unsignedTxHasScriptSigs ∨ e = .unsignedTxHasScriptWitnesses) ∧
      ¬ (∀ i ∈ tx.input, i.script_sig = [] ∧ i.witness = [])) ∧
    (∀ l g r, globalConsensusDecode l = .ok (g, r) →
      ∀ i ∈ g.unsigned_tx.input, i.script_sig = [] ∧ i.witness = []) ∧
    ((∀ p ∈ ps, p.wf) → (∀ p ∈ ps, p.key.type_value ≠ 0) →
      ∀ st', stepAll { tx := none, version := none, unknowns := [], xpub_map := [] }
          ps = .ok st' →
        globalConsensusDecode ((ps.map rawPairEnc).flatten ++ [0]) =
          .error (.psbt .mustHaveUnsignedTx)) ∧
    (∀ C, Global.merge A B = .ok C → C.unsigned_tx = A.unsigned_tx) := by
  refine ⟨?_, ?_, ?_, ?_, ?_⟩
  · intro g hg
    obtain ⟨hb, hc⟩ := fromUnsignedTx_ok hg
    refine ⟨hb, ?_⟩
    rw [hb]
    exact checkInputs_sound hc
  · intro e he
    unfold Global.fromUnsignedTx at he
    cases hc : checkInputs tx.input with
    | ok u => rw [hc] at he; cases u; cases he
    | error e' =>
      rw [hc] at he
      injection he with he
      subst he
      refine ⟨checkInputs_error hc, fun hall => ?_⟩
      rw [checkInputs_ok hall] at hc
      cases hc
  · intro l g r hdec
    unfold globalConsensusDecode at hdec
    cases hloop : decodeLoop { tx := none, version := none, unknowns := [], xpub_map := [] } l with
    | error e => rw [hloop] at hdec; cases hdec
    | ok p =>
      obtain ⟨st, rest⟩ := p
      rw [hloop] at hdec
      cases hfin : decFinalize st with
      | error e =>
        simp only [hfin] at hdec
        cases hdec
      | ok g' =>
        simp only [hfin] at hdec
        injection hdec with hdec
        obtain ⟨tx', _, htx', hc⟩ := decFinalize_ok hfin
        have hg : g' = g := congrArg Prod.fst hdec
        subst hg
        rw [htx']
        exact checkInputs_sound hc
  · intro hwf hne st' hst
    unfold globalConsensusDecode
    rw [show ((ps.map rawPairEnc).flatten ++ [0] : List Nat)
        = (ps.map rawPairEnc).flatten ++ 0 :: [] from rfl]
    rw [decodeLoop_encPairs ps hwf _ []]
    simp only [hst]
    have htx : st'.tx = none := stepAll_tx_of_ne hne hst
    unfold decFinalize
    simp only [htx]
  · intro C hm
    unfold Global.merge at hm
    split_ifs at hm with h1
    cases hx : mergeXpubMaps A.xpub B.xpub with
    | error e => rw [hx] at hm; cases hm
    | ok xp =>
      rw [hx] at hm
      injection hm with hm
      rw [← hm]

def vpZero : RawPair := { key := { type_value := 0xFB, key := [] }, value := u32le 0 }

def vpUnk : RawPair := { key := { type_value := 0xAA, key := [] }, value := [7] }

instance : DecidablePred RawPair.wf := fun _ =>
  inferInstanceAs (Decidable (_ ∧ _ ∧ _))

theorem c8_counterexample :
    (∀ p ∈ [vpZero, vpZero], p.key.type_value ≠ 0) ∧
    globalConsensusDecode (([vpZero, vpZero].map rawPairEnc).flatten ++ [0]) =
      .error (.psbt (.duplicateKey { type_value := 0xFB, key := [] })) ∧
    (EncError.psbt (.duplicateKey { type_value := 0xFB, key := [] })) ≠
      .psbt .mustHaveUnsignedTx := by
  refine ⟨by decide, by decide, by decide⟩

theorem c8_unsigned_invariant_witness :
    globalConsensusDecode (([vpUnk].map rawPairEnc).flatten ++ [0]) =
      .error (.psbt .mustHaveUnsignedTx) :=
  (c8_unsigned_invariant txEmpty [vpUnk] gEmpty gEmpty).2.2.2.1
    (by decide) (by decide)
    { tx := none, version := none,
      unknowns := [({ type_value := 0xAA, key := [] }, [7])], xpub_map := [] }
    (by decide)

theorem optCmp_swap (a b : Option Nat) : optCmp b a = (optCmp a b).swap := by
  cases a <;> cases b <;> first | rfl | exact natCmp_laws.swap _ _

theorem optCmp_refl (a : Option Nat) : optCmp a a = .eq := by
  cases a
  · rfl
  · exact natCmp_laws.refl _

theorem cnCmp_swap (a b : ChildNumber) : cnCmp b a = (cnCmp a b).swap :=
  natCmp_laws.swap _ _

theorem cnCmp_refl (a : ChildNumber) : cnCmp a a = .eq := natCmp_laws.refl _

theorem cnCmp_eq_of_valid {a b : ChildNumber} (ha : a.valid) (hb : b.valid)
    (h : cnCmp a b = .eq) : a = b := by
  have hu := (natCmp_laws.eq_iff a.toU32 b.toU32).mp h
  cases a with
  | normal i =>
    cases b with
    | normal j =>
      simp only [ChildNumber.toU32] at hu
      rw [hu]
    | hardened j =>
      simp only [ChildNumber.toU32] at hu
      simp only [ChildNumber.valid] at ha hb
      omega
  | hardened i =>
    cases b with
    | normal j =>
      simp only [ChildNumber.toU32] at hu
      simp only [ChildNumber.valid] at ha hb
      omega
    | hardened j =>
      simp only [ChildNumber.toU32] at hu
      have : i = j := by omega
      rw [this]

theorem lexCmp_swap {α : Type} {c : α → α → Ordering}
    (hsw : ∀ a b, c b a = (c a b).swap) :
    ∀ as bs : List α, lexCmp c bs as = (lexCmp c as bs).swap := by
  intro as
  induction as with
  | nil => intro bs; cases bs <;> rfl
  | cons a t ih =>
    intro bs
    cases bs with
    | nil => rfl
    | cons b u =>
      show (match c b a with | .eq => lexCmp c u t | o => o) =
        (match c a b with | .eq => lexCmp c t u | o => o).swap
      rw [hsw a b]
      cases hc : c a b with
      | eq => exact ih u
      | lt => rfl
      | gt => rfl

theorem lexCmp_refl {α : Type} {c : α → α → Ordering}
    (hr : ∀ a, c a a = .eq) : ∀ as : List α, lexCmp c as as = .eq := by
  intro as
  induction as with
  | nil => rfl
  | cons a t ih =>
    show (match c a a with | .eq => lexCmp c t t | o => o) = .eq
    rw [hr a]
    exact ih

theorem lexCmp_eq_of {α : Type} {c : α → α → Ordering} :
    ∀ {as bs : List α}, (∀ a ∈ as, ∀ b ∈ bs, c a b = .eq → a = b) →
      lexCmp c as bs = .eq → as = bs := by
  intro as
  induction as with
  | nil =>
    intro bs _ h
    cases bs with
    | nil => rfl
    | cons b u => cases h
  | cons a t ih =>
    intro bs hinj h
    cases bs with
    | nil => cases h
    | cons b u =>
      have hm : (match c a b with | .eq => lexCmp c t u | o => o) = .eq := h
      cases hc : c a b with
      | lt => rw [hc] at hm; cases hm
      | gt => rw [hc] at hm; cases hm
      | eq =>
        rw [hc] at hm
        have hab : a = b :=
          hinj a (List.mem_cons_self _ _) b (List.mem_cons_self _ _) hc
        rw [hab, ih (fun x hx y hy => hinj x (List.mem_cons_of_mem _ hx)
          y (List.mem_cons_of_mem _ hy)) hm]

def ksOrd (x y : KeySource) : Ordering :=
  (optCmp (rposNormal x.2) (rposNormal y.2)).then
    ((natCmp x.2.length y.2.length).then (lexCmp cnCmp x.2 y.2))

theorem ksOrd_swap (x y : KeySource) : ksOrd y x = (ksOrd x y).swap := by
  unfold ksOrd
  rw [optCmp_swap (rposNormal x.2) (rposNormal y.2),
    natCmp_laws.swap x.2.length y.2.length,
    lexCmp_swap cnCmp_swap x.2 y.2,
    ordThen_swap, ordThen_swap]

theorem ksOrd_eq_of_eq {x y : KeySource} (h : x.2 = y.2) : ksOrd x y = .eq := by
  unfold ksOrd
  rw [h, optCmp_refl, natCmp_laws.refl, lexCmp_refl cnCmp_refl]
  rfl

theorem ksOrd_eq_paths {x y : KeySource}
    (hvx : ∀ c ∈ x.2, c.valid) (hvy : ∀ c ∈ y.2, c.valid)
    (h : ksOrd x y = .eq) : x.2 = y.2 := by
  unfold ksOrd at h
  rw [ordThen_eq_iff, ordThen_eq_iff] at h
  exact lexCmp_eq_of (fun a ha b hb hc =>
    cnCmp_eq_of_valid (hvx a ha) (hvy b hb) hc) h.2.2

theorem xpubMergeStep_eq (k : ExtendedPubKey) (acc : List (ExtendedPubKey × KeySource))
    (x y : KeySource) :
    xpubMergeStep k acc x y =
      (match ksOrd y x with
       | .gt => .ok (mInsert xpubCmp k y acc)
       | .lt => .ok acc
       | .eq => if y.1 = x.1 then .ok acc
                else .error (.mergeConflict k)) := by
  unfold xpubMergeStep ksOrd
  cases h1 : optCmp (rposNormal y.2) (rposNormal x.2) <;>
    cases h2 : natCmp y.2.length x.2.length <;>
      cases h3 : lexCmp cnCmp y.2 x.2
  all_goals try rfl
  all_goals cases h4 : lexCmp natCmp y.1 x.1
  · rw [if_neg (fun he => by rw [he, lexCmp_refl natCmp_laws.refl] at h4; cases h4)]
    rfl
  · rw [if_pos (((lexCmp_laws natCmp_laws).eq_iff _ _).mp h4)]
    rfl
  · rw [if_neg (fun he => by rw [he, lexCmp_refl natCmp_laws.refl] at h4; cases h4)]
    rfl

def ksResolve (x y : KeySource) : KeySource := if ksOrd y x = .gt then y else x

theorem ksResolve_comm {x y : KeySource}
    (hvx : ∀ c ∈ x.2, c.valid) (hvy : ∀ c ∈ y.2, c.valid)
    (hfp : ksOrd y x = .eq → x.1 = y.1) :
    ksResolve x y = ksResolve y x := by
  unfold ksResolve
  cases ho : ksOrd y x with
  | gt =>
    have : ksOrd x y = .lt := by rw [ksOrd_swap, ho]; rfl
    rw [if_pos rfl, if_neg (by rw [this]; intro hx; cases hx)]
  | lt =>
    have : ksOrd x y = .gt := by rw [ksOrd_swap, ho]; rfl
    rw [if_neg (by intro hx; cases hx), if_pos this]
  | eq =>
    have hxy : ksOrd x y = .eq := by rw [ksOrd_swap, ho]; rfl
    have hpaths : y.2 = x.2 := ksOrd_eq_paths hvy hvx ho
    have hxe : x = y := Prod.ext (hfp ho) hpaths.symm
    rw [hxe, if_neg (by decide), if_neg (by
      intro hx
      rw [ksOrd_eq_of_eq rfl] at hx
      cases hx)]

theorem mergeXpubMaps_cons (acc : List (ExtendedPubKey × KeySource))
    (kv : ExtendedPubKey × KeySource) (t : List (ExtendedPubKey × KeySource)) :
    mergeXpubMaps acc (kv :: t) =
      (match (match mLookup xpubCmp acc kv.1 with
              | none => Except.ok (mInsert xpubCmp kv.1 kv.2 acc)
              | some cur => xpubMergeStep kv.1 acc cur kv.2) with
       | .error e => .error e
       | .ok acc' => mergeXpubMaps acc' t) := by
  show List.foldlM _ _ _ = _
  rw [List.foldlM_cons]
  cases hstep : (match mLookup xpubCmp acc kv.1 with
                 | none => Except.ok (mInsert xpubCmp kv.1 kv.2 acc)
                 | some cur => xpubMergeStep kv.1 acc cur kv.2) with
  | error e => rfl
  | ok acc' => rfl

theorem mLookup_mem {κ ν : Type} {c : κ → κ → Ordering} :
    ∀ {l : List (κ × ν)} {k : κ} {v : ν}, mLookup c l k = some v →
      ∃ p ∈ l, c k p.1 = .eq ∧ p.2 = v := by
  intro l
  induction l with
  | nil => intro k v h; cases h
  | cons p t ih =>
    intro k v h
    obtain ⟨pk, pv⟩ := p
    unfold mLookup at h
    cases hc : c k pk with
    | eq =>
      rw [hc] at h
      injection h with h
      exact ⟨(pk, pv), List.mem_cons_self _ _, hc, h⟩
    | lt =>
      rw [hc] at h
      obtain ⟨q, hq, hqe, hqv⟩ := ih h
      exact ⟨q, List.mem_cons_of_mem _ hq, hqe, hqv⟩
    | gt =>
      rw [hc] at h
      obtain ⟨q, hq, hqe, hqv⟩ := ih h
      exact ⟨q, List.mem_cons_of_mem _ hq, hqe, hqv⟩

theorem mLookup_of_mem_sorted {κ ν : Type} {c : κ → κ → Ordering} (L : CmpLaws c) :
    ∀ {l : List (κ × ν)} {p : κ × ν}, mSorted c l → p ∈ l →
      mLookup c l p.1 = some p.2 := by
  intro l
  induction l with
  | nil => intro p _ hp; cases hp
  | cons q t ih =>
    intro p hs hp
    obtain ⟨hlt, hst⟩ := mSorted_cons_iff.mp hs
    rcases List.mem_cons.mp hp with hp | hp
    · subst hp
      exact mLookup_cons_self L _ _ _
    · have hne : c p.1 q.1 ≠ .eq := by
        have := (L.gt_iff p.1 q.1).mpr (hlt p hp)
        rw [this]
        intro hx
        cases hx
      rw [show q = (q.1, q.2) from rfl, mLookup_cons_of_ne hne]
      exact ih hst hp

theorem mergeXpubMaps_cons_step (acc : List (ExtendedPubKey × KeySource))
    (kv : ExtendedPubKey × KeySource) (t : List (ExtendedPubKey × KeySource))
    (hs : mSorted xpubCmp acc)
    (hnc : ∀ cur, mLookup xpubCmp acc kv.1 = some cur →
      ksOrd kv.2 cur = .eq → cur.1 = kv.2.1) :
    ∃ acc', mergeXpubMaps acc (kv :: t) = mergeXpubMaps acc' t ∧
      mSorted xpubCmp acc' ∧
      mLookup xpubCmp acc' kv.1 =
        (match mLookup xpubCmp acc kv.1 with
         | none => some kv.2
         | some cur => some (ksResolve cur kv.2)) ∧
      (∀ k', k' ≠ kv.1 → mLookup xpubCmp acc' k' = mLookup xpubCmp acc k') := by
  rw [mergeXpubMaps_cons]
  cases hl : mLookup xpubCmp acc kv.1 with
  | none =>
    refine ⟨mInsert xpubCmp kv.1 kv.2 acc, rfl,
      mInsert_sorted xpubCmp_laws hs _ _,
      by rw [mLookup_mInsert_self xpubCmp_laws],
      fun k' hk' => mLookup_mInsert_ne xpubCmp_laws _ hk' _⟩
  | some cur =>
    simp only [xpubMergeStep_eq]
    cases ho : ksOrd kv.2 cur with
    | gt =>
      refine ⟨mInsert xpubCmp kv.1 kv.2 acc, rfl,
        mInsert_sorted xpubCmp_laws hs _ _, ?_,
        fun k' hk' => mLookup_mInsert_ne xpubCmp_laws _ hk' _⟩
      rw [mLookup_mInsert_self xpubCmp_laws]
      show some kv.2 = some (ksResolve cur kv.2)
      unfold ksResolve
      rw [if_pos ho]
    | lt =>
      refine ⟨acc, rfl, hs, ?_, fun _ _ => rfl⟩
      rw [hl]
      show some cur = some (ksResolve cur kv.2)
      unfold ksResolve
      rw [if_neg (by rw [ho]; intro hx; cases hx)]
    | eq =>
      have hfp := hnc cur hl ho
      rw [if_pos hfp.symm]
      refine ⟨acc, rfl, hs, ?_, fun _ _ => rfl⟩
      rw [hl]
      show some cur = some (ksResolve cur kv.2)
      unfold ksResolve
      rw [if_neg (by rw [ho]; intro hx; cases hx)]

theorem mergeXpubMaps_ok_char :
    ∀ (other acc : List (ExtendedPubKey × KeySource)),
      mSorted xpubCmp acc → mSorted xpubCmp other →
      (∀ kv ∈ other, ∀ cur, mLookup xpubCmp acc kv.1 = some cur →
        ksOrd kv.2 cur = .eq → cur.1 = kv.2.1) →
      ∃ m, mergeXpubMaps acc other = .ok m ∧ mSorted xpubCmp m ∧
        ∀ k, mLookup xpubCmp m k =
          (match mLookup xpubCmp acc k, mLookup xpubCmp other k with
           | none, none => none
           | some x, none => some x
           | none, some y => some y
           | some x, some y => some (ksResolve x y)) := by
  intro other
  induction other with
  | nil =>
    intro acc hacc _ _
    refine ⟨acc, rfl, hacc, fun k => ?_⟩
    cases h : mLookup xpubCmp acc k <;> rfl
  | cons kv t ih =>
    intro acc hacc hso hnc
    obtain ⟨hltall, hst⟩ := mSorted_cons_iff.mp hso
    obtain ⟨acc', heq, hacc', hself, hother⟩ :=
      mergeXpubMaps_cons_step acc kv t hacc
        (fun cur hl ho => hnc kv (List.mem_cons_self _ _) cur hl ho)
    obtain ⟨m, hm, hms, hlook⟩ := ih acc' hacc' hst (by
      intro kv' hkv' cur' hl' ho'
      have hne : kv'.1 ≠ kv.1 :=
        fun he => xpubCmp_laws.lt_ne (hltall kv' hkv') he.symm
      rw [hother kv'.1 hne] at hl'
      exact hnc kv' (List.mem_cons_of_mem _ hkv') cur' hl' ho')
    refine ⟨m, by rw [heq, hm], hms, fun k => ?_⟩
    by_cases hk : k = kv.1
    · have htn : mLookup xpubCmp t kv.1 = none :=
        mLookup_eq_none_of_all_lt xpubCmp_laws (fun q hq => hltall q hq)
      have hcs : mLookup xpubCmp (kv :: t) kv.1 = some kv.2 := by
        rw [show kv = (kv.1, kv.2) from rfl]
        exact mLookup_cons_self xpubCmp_laws _ _ _
      rw [hlook k, hk, htn, hcs, hself]
      cases hl : mLookup xpubCmp acc kv.1 <;> rfl
    · have hcs : mLookup xpubCmp (kv :: t) k = mLookup xpubCmp t k := by
        rw [show kv = (kv.1, kv.2) from rfl]
        exact mLookup_cons_of_ne
          (fun he => hk ((xpubCmp_laws.eq_iff _ _).mp he)) _ _
      rw [hlook k, hother k hk, hcs]

theorem mergeXpubMaps_conflict_char :
    ∀ (other acc : List (ExtendedPubKey × KeySource)),
      mSorted xpubCmp acc → mSorted xpubCmp other →
      ∀ k x y, mLookup xpubCmp acc k = some x →
        mLookup xpubCmp other k = some y →
        ksOrd y x = .eq → x.1 ≠ y.1 →
        (∀ k' x' y', mLookup xpubCmp acc k' = some x' →
          mLookup xpubCmp other k' = some y' →
          ksOrd y' x' = .eq → x'.1 ≠ y'.1 → xpubCmp k k' = .lt ∨ k = k') →
        mergeXpubMaps acc other = .error (.mergeConflict k) := by
  intro other
  induction other with
  | nil =>
    intro acc _ _ k x y _ hy
    cases hy
  | cons kv t ih =>
    intro acc hacc hso k x y hx hy hkso hfp hmin
    obtain ⟨hltall, hst⟩ := mSorted_cons_iff.mp hso
    by_cases hk : k = kv.1
    · have hy2 : y = kv.2 := by
        rw [hk, show kv = (kv.1, kv.2) from rfl,
          mLookup_cons_self xpubCmp_laws] at hy
        injection hy with hy
        exact hy.symm
      rw [mergeXpubMaps_cons, ← hk]
      simp only [hx, xpubMergeStep_eq]
      rw [← hy2, hkso, if_neg (fun he => hfp he.symm)]
    · have hyt : mLookup xpubCmp t k = some y := by
        rw [show kv = (kv.1, kv.2) from rfl,
          mLookup_cons_of_ne (fun he => hk ((xpubCmp_laws.eq_iff _ _).mp he))] at hy
        exact hy
      have hkin : xpubCmp kv.1 k = .lt := by
        obtain ⟨q, hq, hqe, _⟩ := mLookup_mem hyt
        have := hltall q hq
        rw [(xpubCmp_laws.eq_iff k q.1).mp hqe]
        exact this
      have hnckv : ∀ cur, mLookup xpubCmp acc kv.1 = some cur →
          ksOrd kv.2 cur = .eq → cur.1 = kv.2.1 := by
        intro cur hl ho
        by_contra hnefp
        rcases hmin kv.1 cur kv.2 hl
          (by rw [show kv = (kv.1, kv.2) from rfl]
              exact mLookup_cons_self xpubCmp_laws _ _ _) ho hnefp with hlt | heqk
        · have : xpubCmp k k = .lt := xpubCmp_laws.lt_trans _ _ _ hlt hkin
          rw [xpubCmp_laws.refl] at this
          cases this
        · exact hk heqk
      obtain ⟨acc', heq, hacc', _, hother⟩ :=
        mergeXpubMaps_cons_step acc kv t hacc hnckv
      rw [heq]
      refine ih acc' hacc' hst k x y (by rw [hother k hk]; exact hx) hyt hkso hfp ?_
      intro k' x' y' hx' hy' ho' hf'
      by_cases hk' : k' = kv.1
      · rw [hk'] at hy'
        rw [mLookup_eq_none_of_all_lt xpubCmp_laws
          (fun q hq => hltall q hq)] at hy'
        cases hy'
      · rw [hother k' hk'] at hx'
        refine hmin k' x' y' hx' ?_ ho' hf'
        rw [show kv = (kv.1, kv.2) from rfl,
          mLookup_cons_of_ne (fun he => hk' ((xpubCmp_laws.eq_iff _ _).mp he))]
        exact hy'

theorem xpubConflictMin :
    ∀ (a : List (ExtendedPubKey × KeySource)) (b : List (ExtendedPubKey × KeySource)),
      mSorted xpubCmp a →
      (∃ k x y, mLookup xpubCmp a k = some x ∧ mLookup xpubCmp b k = some y ∧
        ksOrd y x = .eq ∧ x.1 ≠ y.1) →
      ∃ k x y, mLookup xpubCmp a k = some x ∧ mLookup xpubCmp b k = some y ∧
        ksOrd y x = .eq ∧ x.1 ≠ y.1 ∧
        ∀ k' x' y', mLookup xpubCmp a k' = some x' →
          mLookup xpubCmp b k' = some y' →
          ksOrd y' x' = .eq → x'.1 ≠ y'.1 → xpubCmp k k' = .lt ∨ k = k' := by
  intro a
  induction a with
  | nil =>
    intro b _ hex
    obtain ⟨k, x, y, hx, _⟩ := hex
    cases hx
  | cons p t ih =>
    intro b ha hex
    obtain ⟨hltall, hst⟩ := mSorted_cons_iff.mp ha
    by_cases hp : ∃ y, mLookup xpubCmp b p.1 = some y ∧
        ksOrd y p.2 = .eq ∧ p.2.1 ≠ y.1
    · obtain ⟨y, hy, hkso, hfp⟩ := hp
      refine ⟨p.1, p.2, y, ?_, hy, hkso, hfp, ?_⟩
      · rw [show p = (p.1, p.2) from rfl]
        exact mLookup_cons_self xpubCmp_laws _ _ _
      · intro k' x' y' hx' hy' ho' hf'
        cases hck : xpubCmp k' p.1 with
        | eq => exact Or.inr ((xpubCmp_laws.eq_iff k' p.1).mp hck).symm
        | lt =>
          rw [show p = (p.1, p.2) from rfl,
            mLookup_cons_of_ne (by rw [hck]; intro hx; cases hx)] at hx'
          obtain ⟨q, hq, hqe, _⟩ := mLookup_mem hx'
          refine Or.inl ?_
          rw [(xpubCmp_laws.eq_iff k' q.1).mp hqe] at hck ⊢
          exact hltall q hq
        | gt =>
          rw [show p = (p.1, p.2) from rfl,
            mLookup_cons_of_ne (by rw [hck]; intro hx; cases hx)] at hx'
          obtain ⟨q, hq, hqe, _⟩ := mLookup_mem hx'
          refine Or.inl ?_
          rw [(xpubCmp_laws.eq_iff k' q.1).mp hqe]
          exact hltall q hq
    · have hex' : ∃ k x y, mLookup xpubCmp t k = some x ∧
          mLookup xpubCmp b k = some y ∧ ksOrd y x = .eq ∧ x.1 ≠ y.1 := by
        obtain ⟨k, x, y, hx, hy, hkso, hfp⟩ := hex
        cases hck : xpubCmp k p.1 with
        | eq =>
          exfalso
          have hkp : k = p.1 := (xpubCmp_laws.eq_iff k p.1).mp hck
          rw [hkp, show p = (p.1, p.2) from rfl,
            mLookup_cons_self xpubCmp_laws] at hx
          injection hx with hx
          rw [hkp] at hy
          exact hp ⟨y, hy, by rw [hx]; exact hkso, by rw [hx]; exact hfp⟩
        | lt =>
          rw [show p = (p.1, p.2) from rfl,
            mLookup_cons_of_ne (by rw [hck]; intro hc0; cases hc0)] at hx
          exact ⟨k, x, y, hx, hy, hkso, hfp⟩
        | gt =>
          rw [show p = (p.1, p.2) from rfl,
            mLookup_cons_of_ne (by rw [hck]; intro hc0; cases hc0)] at hx
          exact ⟨k, x, y, hx, hy, hkso, hfp⟩
      obtain ⟨k0, x0, y0, hx0, hy0, hkso0, hfp0, hmin0⟩ := ih b hst hex'
      have hpk0 : xpubCmp p.1 k0 = .lt := by
        obtain ⟨q, hq, hqe, _⟩ := mLookup_mem hx0
        rw [(xpubCmp_laws.eq_iff k0 q.1).mp hqe]
        exact hltall q hq
      refine ⟨k0, x0, y0, ?_, hy0, hkso0, hfp0, ?_⟩
      · rw [show p = (p.1, p.2) from rfl,
          mLookup_cons_of_ne (by
            rw [(xpubCmp_laws.gt_iff k0 p.1).mpr hpk0]
            intro hc0; cases hc0)]
        exact hx0
      · intro k' x' y' hx' hy' ho' hf'
        cases hck : xpubCmp k' p.1 with
        | eq =>
          exfalso
          have hkp : k' = p.1 := (xpubCmp_laws.eq_iff k' p.1).mp hck
          rw [hkp, show p = (p.1, p.2) from rfl,
            mLookup_cons_self xpubCmp_laws] at hx'
          injection hx' with hx'
          rw [hkp] at hy'
          exact hp ⟨y', hy', by rw [hx']; exact ho', by rw [hx']; exact hf'⟩
        | lt =>
          rw [show p = (p.1, p.2) from rfl,
            mLookup_cons_of_ne (by rw [hck]; intro hc0; cases hc0)] at hx'
          exact hmin0 k' x' y' hx' hy' ho' hf'
        | gt =>
          rw [show p = (p.1, p.2) from rfl,
            mLookup_cons_of_ne (by rw [hck]; intro hc0; cases hc0)] at hx'
          exact hmin0 k' x' y' hx' hy' ho' hf'

theorem unknownExtend_nil (a : List (RawKey × List Nat)) :
    unknownExtend a [] = a := rfl

theorem unknownExtend_cons (a : List (RawKey × List Nat))
    (kv : RawKey × List Nat) (t : List (RawKey × List Nat)) :
    unknownExtend a (kv :: t) =
      unknownExtend (mInsert rawKeyCmp kv.1 kv.2 a) t := rfl

theorem unknownExtend_sorted :
    ∀ (b a : List (RawKey × List Nat)), mSorted rawKeyCmp a →
      mSorted rawKeyCmp (unknownExtend a b) := by
  intro b
  induction b with
  | nil => intro a ha; exact ha
  | cons kv t ih =>
    intro a ha
    rw [unknownExtend_cons]
    exact ih _ (mInsert_sorted rawKeyCmp_laws ha _ _)

theorem unknownExtend_lookup :
    ∀ (b a : List (RawKey × List Nat)), mSorted rawKeyCmp b →
      ∀ k, mLookup rawKeyCmp (unknownExtend a b) k =
        (match mLookup rawKeyCmp b k with
         | some v => some v
         | none => mLookup rawKeyCmp a k) := by
  intro b
  induction b with
  | nil => intro a _ k; rfl
  | cons kv t ih =>
    intro a hb k
    obtain ⟨hltall, hst⟩ := mSorted_cons_iff.mp hb
    rw [unknownExtend_cons, ih _ hst k]
    by_cases hk : k = kv.1
    · have htn : mLookup rawKeyCmp t kv.1 = none :=
        mLookup_eq_none_of_all_lt rawKeyCmp_laws (fun q hq => hltall q hq)
      have hcs : mLookup rawKeyCmp (kv :: t) kv.1 = some kv.2 := by
        rw [show kv = (kv.1, kv.2) from rfl]
        exact mLookup_cons_self rawKeyCmp_laws _ _ _
      rw [hk, htn, hcs, mLookup_mInsert_self rawKeyCmp_laws]
    · have hcs : mLookup rawKeyCmp (kv :: t) k = mLookup rawKeyCmp t k := by
        rw [show kv = (kv.1, kv.2) from rfl]
        exact mLookup_cons_of_ne
          (fun he => hk ((rawKeyCmp_laws.eq_iff _ _).mp he)) _ _
      rw [hcs, mLookup_mInsert_ne rawKeyCmp_laws _ hk]

theorem unknownExtend_comm (a b : List (RawKey × List Nat))
    (ha : mSorted rawKeyCmp a) (hb : mSorted rawKeyCmp b)
    (hagree : ∀ k va vb, mLookup rawKeyCmp a k = some va →
      mLookup rawKeyCmp b k = some vb → va = vb) :
    unknownExtend a b = unknownExtend b a := by
  refine mSorted_ext rawKeyCmp_laws (unknownExtend_sorted b a ha)
    (unknownExtend_sorted a b hb) (fun k => ?_)
  rw [unknownExtend_lookup b a hb k, unknownExtend_lookup a b ha k]
  cases hbk : mLookup rawKeyCmp b k with
  | none => cases hak : mLookup rawKeyCmp a k <;> rfl
  | some vb =>
    cases hak : mLookup rawKeyCmp a k with
    | none => rfl
    | some va => rw [hagree k va vb hak hbk]

theorem mergeXpubMaps_comm (a b : List (ExtendedPubKey × KeySource))
    (ha : mSorted xpubCmp a) (hb : mSorted xpubCmp b)
    (hva : ∀ p ∈ a, ∀ c ∈ p.2.2, c.valid)
    (hvb : ∀ p ∈ b, ∀ c ∈ p.2.2, c.valid) :
    mergeXpubMaps a b = mergeXpubMaps b a := by
  by_cases hc : ∃ k x y, mLookup xpubCmp a k = some x ∧
      mLookup xpubCmp b k = some y ∧ ksOrd y x = .eq ∧ x.1 ≠ y.1
  · obtain ⟨k, x, y, hx, hy, hkso, hfp, hmin⟩ := xpubConflictMin a b ha hc
    rw [mergeXpubMaps_conflict_char b a ha hb k x y hx hy hkso hfp hmin,
      mergeXpubMaps_conflict_char a b hb ha k y x hy hx
        (by rw [ksOrd_swap, hkso]; rfl) (fun he => hfp he.symm)
        (fun k' x' y' hx' hy' ho' hf' =>
          hmin k' y' x' hy' hx' (by rw [ksOrd_swap, ho']; rfl)
            (fun he => hf' he.symm))]
  · have hnc1 : ∀ kv ∈ b, ∀ cur, mLookup xpubCmp a kv.1 = some cur →
        ksOrd kv.2 cur = .eq → cur.1 = kv.2.1 := by
      intro kv hkv cur hl ho
      by_contra hne
      exact hc ⟨kv.1, cur, kv.2, hl, mLookup_of_mem_sorted xpubCmp_laws hb hkv,
        ho, hne⟩
    have hnc2 : ∀ kv ∈ a, ∀ cur, mLookup xpubCmp b kv.1 = some cur →
        ksOrd kv.2 cur = .eq → cur.1 = kv.2.1 := by
      intro kv hkv cur hl ho
      by_contra hne
      exact hc ⟨kv.1, kv.2, cur, mLookup_of_mem_sorted xpubCmp_laws ha hkv, hl,
        by rw [ksOrd_swap, ho]; rfl, fun he => hne he.symm⟩
    obtain ⟨m1, hm1, hs1, hl1⟩ := mergeXpubMaps_ok_char b a ha hb hnc1
    obtain ⟨m2, hm2, hs2, hl2⟩ := mergeXpubMaps_ok_char a b hb ha hnc2
    rw [hm1, hm2]
    have hmm : m1 = m2 := by
      refine mSorted_ext xpubCmp_laws hs1 hs2 (fun k => ?_)
      rw [hl1 k, hl2 k]
      cases hak : mLookup xpubCmp a k with
      | none => cases hbk : mLookup xpubCmp b k <;> rfl
      | some x =>
        cases hbk : mLookup xpubCmp b k with
        | none => rfl
        | some y =>
          have hvx : ∀ c ∈ x.2, c.valid := by
            obtain ⟨q, hq, _, hqv⟩ := mLookup_mem hak
            intro c hcm
            rw [← hqv] at hcm
            exact hva q hq c hcm
          have hvy : ∀ c ∈ y.2, c.valid := by
            obtain ⟨q, hq, _, hqv⟩ := mLookup_mem hbk
            intro c hcm
            rw [← hqv] at hcm
            exact hvb q hq c hcm
          show some (ksResolve x y) = some (ksResolve y x)
          rw [ksResolve_comm hvx hvy (fun ho => by
            by_contra hne
            exact hc ⟨k, x, y, hak, hbk, ho, hne⟩)]
    rw [hmm]

/-- C1 (amended): for valid Globals with equal unsigned transactions whose
unknown maps agree on every shared raw key, merge is commutative: both orders
produce structurally equal results (the same merge-conflict error, or equal
merged values). On a shared unknown key with differing value bytes the right
operand overwrites the left, so the unqualified claim fails. -/
theorem c1_merge_comm (A B : Global) (hA : A.wf) (hB : B.wf)
    (htx : A.unsigned_tx = B.unsigned_tx)
    (hagree : ∀ k va vb, mLookup rawKeyCmp A.unknown k = some va →
      mLookup rawKeyCmp B.unknown k = some vb → va = vb) :
    Global.merge A B = Global.merge B A := by
  obtain ⟨_, _, _, hxsA, hxwA, husA, _⟩ := hA
  obtain ⟨_, _, _, hxsB, hxwB, husB, _⟩ := hB
  unfold Global.merge
  rw [if_neg (by simp [htx]), if_neg (by simp [htx])]
  rw [mergeXpubMaps_comm A.xpub B.xpub hxsA hxsB
    (fun p hp => (hxwA p hp).2.2.2) (fun p hp => (hxwB p hp).2.2.2)]
  cases hm : mergeXpubMaps B.xpub A.xpub with
  | error e => rfl
  | ok m =>
    rw [htx, Nat.max_comm,
      unknownExtend_comm A.unknown B.unknown husA husB hagree]

def gUnkA : Global :=
  { unsigned_tx := txEmpty, version := 0, xpub := [],
    unknown := [({ type_value := 0xAA, key := [] }, [0])] }

def gUnkB : Global :=
  { unsigned_tx := txEmpty, version := 0, xpub := [],
    unknown := [({ type_value := 0xAA, key := [] }, [1])] }

/-- C1 counterexample: two valid Globals over the same unsigned transaction
whose unknown maps map the same raw key to different byte values; merging
right-to-left keeps the right operand's value, so the two merge orders give
different results and merge is not commutative in this case. -/
theorem c1_counterexample :
    gUnkA.wf ∧ gUnkB.wf ∧ gUnkA.unsigned_tx = gUnkB.unsigned_tx ∧
    Global.merge gUnkA gUnkB ≠ Global.merge gUnkB gUnkA := by
  refine ⟨by decide, by decide, rfl, by decide⟩

def gCommA : Global :=
  { unsigned_tx := txEmpty, version := 0,
    xpub := [(xpubA, ([0, 0, 0, 1], [ChildNumber.normal 3]))],
    unknown := [({ type_value := 0xAA, key := [] }, [7])] }

def gCommB : Global :=
  { unsigned_tx := txEmpty, version := 2,
    xpub := [(xpubA, ([0, 0, 0, 1],
      [ChildNumber.normal 3, ChildNumber.normal 4]))],
    unknown := [] }

theorem c1_merge_comm_witness :
    gCommA.wf ∧ gCommB.wf ∧ gCommA.unsigned_tx = gCommB.unsigned_tx ∧
    Global.merge gCommA gCommB = Global.merge gCommB gCommA :=
  ⟨by decide, by decide, rfl,
   c1_merge_comm gCommA gCommB (by decide) (by decide) rfl
     (fun k va vb h1 h2 => by
       rw [show gCommB.unknown = [] from rfl, mLookup_nil] at h2
       cases h2)⟩

theorem ofDigits_append (b : Nat) (l1 l2 : List Nat) :
    ofDigits b (l1 ++ l2) = ofDigits b l1 * b ^ l2.length + ofDigits b l2 := by
  unfold ofDigits
  rw [List.foldl_append]
  generalize ofDigits b l1 = a
  show List.foldl _ (List.foldl _ 0 l1) l2 = _
  have : ∀ (l : List Nat) (a0 : Nat),
      List.foldl (fun a d => a * b + d) a0 l =
        a0 * b ^ l.length + List.foldl (fun a d => a * b + d) 0 l := by
    intro l
    induction l with
    | nil => intro a0; simp
    | cons d t ih =>
      intro a0
      simp only [List.foldl_cons, List.length_cons]
      rw [ih (a0 * b + d), ih (0 * b + d)]
      ring
  rw [this l2 (List.foldl _ 0 l1)]

theorem ofDigits_cons (b d : Nat) (t : List Nat) :
    ofDigits b (d :: t) = d * b ^ t.length + ofDigits b t := by
  have := ofDigits_append b [d] t
  simpa [ofDigits] using this

theorem ofDigits_lt (b : Nat) (hb : 1 ≤ b) :
    ∀ l : List Nat, (∀ d ∈ l, d < b) → ofDigits b l < b ^ l.length := by
  intro l
  induction l with
  | nil => intro _; simp [ofDigits]
  | cons d t ih =>
    intro h
    rw [ofDigits_cons, List.length_cons, pow_succ]
    have hd : d < b := h d (List.mem_cons_self _ _)
    have ht := ih (fun x hx => h x (List.mem_cons_of_mem _ hx))
    calc d * b ^ t.length + ofDigits b t
        < d * b ^ t.length + b ^ t.length := by omega
      _ = (d + 1) * b ^ t.length := by ring
      _ ≤ b * b ^ t.length := by
          exact Nat.mul_le_mul_right _ (by omega)
      _ = b ^ t.length * b := by ring

theorem ofDigits_replicate_zero (b z : Nat) (l : List Nat) :
    ofDigits b (List.replicate z 0 ++ l) = ofDigits b l := by
  induction z with
  | zero => rfl
  | succ z ih =>
    rw [List.replicate_succ, List.cons_append]
    rw [show ofDigits b (0 :: (List.replicate z 0 ++ l)) =
      ofDigits b (List.replicate z 0 ++ l) from by simp [ofDigits]]
    exact ih

theorem ofDigits_digits58 : ∀ n, ofDigits 58 (digits58 n) = n := by
  intro n
  induction n using Nat.strong_induction_on with
  | _ n ih =>
    rw [digits58_unfold]
    by_cases h0 : n = 0
    · subst h0; rfl
    · rw [if_neg h0, ofDigits_append]
      have hdiv : n / 58 < n := Nat.div_lt_self (Nat.pos_of_ne_zero h0) (by omega)
      rw [ih (n / 58) hdiv]
      show n / 58 * 58 ^ 1 + (0 * 58 + n % 58) = n
      omega

theorem digits58_lt : ∀ n, ∀ d ∈ digits58 n, d < 58 := by
  intro n
  induction n using Nat.strong_induction_on with
  | _ n ih =>
    rw [digits58_unfold]
    by_cases h0 : n = 0
    · subst h0; intro d hd; cases hd
    · rw [if_neg h0]
      intro d hd
      rcases List.mem_append.mp hd with hd | hd
      · exact ih (n / 58) (Nat.div_lt_self (Nat.pos_of_ne_zero h0) (by omega)) d hd
      · rw [List.mem_singleton.mp hd]
        omega

theorem digits58_length_le : ∀ n m, n < 58 ^ m → (digits58 n).length ≤ m := by
  intro n
  induction n using Nat.strong_induction_on with
  | _ n ih =>
    intro m hm
    rw [digits58_unfold]
    by_cases h0 : n = 0
    · subst h0; simp
    · rw [if_neg h0]
      rw [List.length_append]
      have hm1 : 1 ≤ m := by
        by_contra hc
        have : m = 0 := by omega
        subst this
        simp at hm
        omega
      have hdiv : n / 58 < n := Nat.div_lt_self (Nat.pos_of_ne_zero h0) (by omega)
      have hd1 : n / 58 < 58 ^ (m - 1) := by
        have h58 : n < 58 ^ m := hm
        have hpow : 58 ^ m = 58 ^ (m - 1) * 58 := by
          conv_lhs => rw [show m = (m - 1) + 1 by omega]
          rw [pow_succ]
        omega
      have hlen := ih (n / 58) hdiv (m - 1) hd1
      have h1 : ([n % 58] : List Nat).length = 1 := rfl
      omega

theorem digits58_window : ∀ (k d n : Nat), 1 ≤ d → d < 58 →
    d * 58 ^ k ≤ n → n < (d + 1) * 58 ^ k →
    ∃ t, digits58 n = d :: t ∧ t.length = k := by
  intro k
  induction k with
  | zero =>
    intro d n h1 h58 hlo hhi
    have hnd : n = d := by simp at hlo hhi; omega
    subst hnd
    refine ⟨[], ?_, rfl⟩
    rw [digits58_unfold, if_neg (by omega)]
    rw [digits58_unfold, if_pos (by omega)]
    simp
    omega
  | succ k ih =>
    intro d n h1 h58 hlo hhi
    have hpos : n ≠ 0 := by
      have : 1 * 58 ^ (k + 1) ≤ d * 58 ^ (k + 1) :=
        Nat.mul_le_mul_right _ h1
      have hp : 0 < 58 ^ (k + 1) := Nat.pos_pow_of_pos _ (by omega)
      omega
    have hdivlo : d * 58 ^ k ≤ n / 58 := by
      rw [Nat.le_div_iff_mul_le (by omega)]
      calc d * 58 ^ k * 58 = d * 58 ^ (k + 1) := by ring
        _ ≤ n := hlo
    have hdivhi : n / 58 < (d + 1) * 58 ^ k := by
      rw [Nat.div_lt_iff_lt_mul (by omega)]
      calc n < (d + 1) * 58 ^ (k + 1) := hhi
        _ = (d + 1) * 58 ^ k * 58 := by ring
    obtain ⟨t, ht, hlt⟩ := ih d (n / 58) h1 h58 hdivlo hdivhi
    refine ⟨t ++ [n % 58], ?_, by simp [hlt]⟩
    rw [digits58_unfold, if_neg hpos, ht]
    rfl

theorem digits256_ofDigits :
    ∀ l : List Nat, (∀ d ∈ l, d < 256) →
      (∀ h t, l = h :: t → h ≠ 0) →
      digits256 (ofDigits 256 l) = l := by
  intro l
  induction l using List.reverseRecOn with
  | nil => intro _ _; rfl
  | append_singleton l d ih =>
    intro hb hh
    rw [ofDigits_append]
    have hd : d < 256 := hb d (by simp)
    show digits256 (ofDigits 256 l * 256 ^ 1 + ofDigits 256 [d]) = _
    have hval : ofDigits 256 l * 256 ^ 1 + ofDigits 256 [d] =
        ofDigits 256 l * 256 + d := by
      show _ = _
      have : ofDigits 256 [d] = d := by simp [ofDigits]
      rw [this]
      ring
    rw [hval]
    cases hl : l with
    | nil =>
      have hd0 : d ≠ 0 := hh d [] (by simp [hl])
      show digits256 (ofDigits 256 [] * 256 + d) = [d]
      rw [show ofDigits 256 ([] : List Nat) * 256 + d = d from by simp [ofDigits]]
      rw [digits256_unfold, if_neg hd0]
      rw [digits256_unfold, if_pos (by omega)]
      simp
      omega
    | cons h0 t0 =>
      rw [← hl]
      have hh0 : h0 ≠ 0 := hh h0 (t0 ++ [d]) (by rw [hl]; simp)
      have hpos : ofDigits 256 l > 0 := by
        rw [hl, ofDigits_cons]
        have hp : 0 < 256 ^ t0.length := Nat.pos_pow_of_pos _ (by omega)
        have : 1 * 256 ^ t0.length ≤ h0 * 256 ^ t0.length :=
          Nat.mul_le_mul_right _ (by omega)
        omega
      have hn0 : ofDigits 256 l * 256 + d ≠ 0 := by
        have : 256 ≤ ofDigits 256 l * 256 := by omega
        omega
      rw [digits256_unfold, if_neg hn0]
      have hdiv : (ofDigits 256 l * 256 + d) / 256 = ofDigits 256 l := by
        omega
      have hmod : (ofDigits 256 l * 256 + d) % 256 = d := by
        omega
      rw [hdiv, hmod]
      rw [ih (fun x hx => hb x (by simp [hx]))
        (fun h' t' he => by
          rw [hl] at he
          injection he with he1 _
          rw [← he1]
          exact hh0)]

theorem mapM_ok_of {α β γ : Type} (f : α → Except γ β) :
    ∀ (l : List α) (g : α → β), (∀ x ∈ l, f x = .ok (g x)) →
      l.mapM f = .ok (l.map g) := by
  intro l
  induction l with
  | nil => intro g _; rfl
  | cons a t ih =>
    intro g h
    rw [List.mapM_cons, h a (List.mem_cons_self _ _),
      ih g (fun x hx => h x (List.mem_cons_of_mem _ hx))]
    rfl

theorem digits58_head_ne : ∀ n, n ≠ 0 →
    ∃ d t, digits58 n = d :: t ∧ d ≠ 0 ∧ d < 58 := by
  intro n
  induction n using Nat.strong_induction_on with
  | _ n ih =>
    intro h0
    rw [digits58_unfold, if_neg h0]
    by_cases hq : n / 58 = 0
    · rw [hq]
      rw [digits58_unfold, if_pos rfl]
      have hn58 : n < 58 := by omega
      exact ⟨n % 58, [], by simp, by omega, by omega⟩
    · obtain ⟨d, t, hdt, hd0, hd58⟩ :=
        ih (n / 58) (Nat.div_lt_self (Nat.pos_of_ne_zero h0) (by omega)) hq
      exact ⟨d, t ++ [n % 58], by rw [hdt]; rfl, hd0, hd58⟩

theorem dropWhile_head_not {α : Type} (p : α → Bool) :
    ∀ (l : List α) (h : α) (t : List α), l.dropWhile p = h :: t → p h = false := by
  intro l
  induction l with
  | nil => intro h t hx; cases hx
  | cons a l' ih =>
    intro h t hx
    rw [List.dropWhile_cons] at hx
    by_cases hp : p a = true
    · rw [if_pos hp] at hx
      exact ih h t hx
    · rw [if_neg hp] at hx
      injection hx with h1 _
      rw [← h1]
      simp at hp
      rw [hp]

theorem takeWhile_replicate_append {α : Type} (p : α → Bool) (c : α)
    (hc : p c = true) : ∀ (z : Nat) (l : List α),
    (List.replicate z c ++ l).takeWhile p = List.replicate z c ++ l.takeWhile p := by
  intro z
  induction z with
  | zero => intro l; rfl
  | succ z ih =>
    intro l
    rw [List.replicate_succ, List.cons_append, List.takeWhile_cons, if_pos hc,
      ih l, List.cons_append]

theorem b58_roundtrip_facts :
    (∀ d, d < 58 → b58Val (b58Char d) = some d) ∧
    (∀ d, d < 58 → d ≠ 0 → (b58Char d == '1') = false) ∧
    b58Val '1' = some 0 := by
  refine ⟨by decide, by decide, by decide⟩

theorem base58Decode_enc (l : List Nat) (hl : ∀ d ∈ l, d < 256) :
    base58Decode (base58Encode l) = .ok l := by
  obtain ⟨hb58v, hb58ne, hb58one⟩ := b58_roundtrip_facts
  have hsplit : l.takeWhile (· == 0) ++ l.dropWhile (· == 0) = l :=
    List.takeWhile_append_dropWhile _ _
  have hzeros : l.takeWhile (· == 0) =
      List.replicate (l.takeWhile (· == 0)).length 0 := by
    refine List.eq_replicate_of_mem (fun b hb => ?_)
    have := List.mem_takeWhile_imp hb
    simpa using this
  set z := (l.takeWhile (· == 0)).length with hz
  set rest := l.dropWhile (· == 0) with hrest
  have hldecomp : l = List.replicate z 0 ++ rest := by
    rw [← hsplit, ← hzeros]
  have hn : ofDigits 256 l = ofDigits 256 rest := by
    rw [hldecomp, ofDigits_replicate_zero]
  set n := ofDigits 256 l with hnd
  have hrb : ∀ d ∈ rest, d < 256 := fun d hd =>
    hl d (List.Sublist.mem hd (List.dropWhile_sublist _))
  have hrh : ∀ h t, rest = h :: t → h ≠ 0 := by
    intro h t he hh0
    have := dropWhile_head_not (· == 0) l h t (by rw [← hrest]; exact he)
    rw [hh0] at this
    simp at this
  unfold base58Encode base58Decode
  have hmap := mapM_ok_of
    (fun c => match b58Val c with
      | some v => Except.ok v
      | none => Except.error (Base58Error.invalidChar c))
    (List.replicate z '1' ++ (digits58 (ofDigits 256 l)).map b58Char)
    (fun c => (b58Val c).getD 0)
    (by
      intro c hc
      rcases List.mem_append.mp hc with hc | hc
      · rw [List.eq_of_mem_replicate hc]
        simp only [hb58one]
        rfl
      · obtain ⟨d, hd, rfl⟩ := List.mem_map.mp hc
        have hd58 : d < 58 := digits58_lt _ d hd
        simp only [hb58v d hd58]
        rfl)
  rw [hmap]
  have hmapval : (List.replicate z '1' ++
      (digits58 (ofDigits 256 l)).map b58Char).map (fun c => (b58Val c).getD 0) =
      List.replicate z 0 ++ digits58 n := by
    rw [List.map_append, List.map_replicate, List.map_map]
    simp only [hb58one, Option.getD_some]
    congr 1
    rw [← hnd]
    refine (List.map_congr_left (fun d hd => ?_)).trans (List.map_id _)
    have hd58 : d < 58 := digits58_lt _ d hd
    simp only [Function.comp_apply, hb58v d hd58, Option.getD_some]
    rfl
  rw [hmapval]
  show Except.ok _ = Except.ok l
  have hofvals : ofDigits 58 (List.replicate z 0 ++ digits58 n) = n := by
    rw [ofDigits_replicate_zero, ofDigits_digits58]
  have htw : (List.replicate z '1' ++
      (digits58 (ofDigits 256 l)).map b58Char).takeWhile (· == '1') =
      List.replicate z '1' := by
    rw [takeWhile_replicate_append (· == '1') '1' rfl]
    rw [← hnd]
    have : ((digits58 n).map b58Char).takeWhile (· == '1') = [] := by
      by_cases h0 : n = 0
      · have : digits58 n = [] := by rw [digits58_unfold, if_pos h0]
        rw [this]
        rfl
      · obtain ⟨d, t, hdt, hd0, hd58⟩ := digits58_head_ne n h0
        rw [hdt, List.map_cons, List.takeWhile_cons, hb58ne d hd58 hd0]
        rfl
    rw [this, List.append_nil]
  rw [htw, hofvals, List.length_replicate]
  have hdig : digits256 (ofDigits 256 l) = rest := by
    rw [← hnd, hn]
    exact digits256_ofDigits rest hrb hrh
  rw [hdig, ← hldecomp]

theorem checksum4_bytes (l : List Nat) : ∀ d ∈ checksum4 l, d < 256 := by
  intro d hd
  unfold checksum4 at hd
  simp only [List.mem_cons, List.not_mem_nil, or_false] at hd
  rcases hd with hd | hd | hd | hd <;> omega

theorem checksum4_length (l : List Nat) : (checksum4 l).length = 4 := rfl

theorem base58FromCheck_enc (payload : List Nat) (hp : ∀ d ∈ payload, d < 256) :
    base58FromCheck (base58CheckEncode payload) = .ok payload := by
  unfold base58CheckEncode base58FromCheck
  have hall : ∀ d ∈ payload ++ checksum4 payload, d < 256 := by
    intro d hd
    rcases List.mem_append.mp hd with hd | hd
    · exact hp d hd
    · exact checksum4_bytes payload d hd
  rw [base58Decode_enc _ hall]
  have hlen : (payload ++ checksum4 payload).length = payload.length + 4 := by
    rw [List.length_append, checksum4_length]
  show (if (payload ++ checksum4 payload).length < 4 then
      Except.error Base58Error.tooShort
    else
      if checksum4 ((payload ++ checksum4 payload).take
            ((payload ++ checksum4 payload).length - 4)) ≠
          (payload ++ checksum4 payload).drop
            ((payload ++ checksum4 payload).length - 4) then
        Except.error Base58Error.badChecksum
      else Except.ok ((payload ++ checksum4 payload).take
            ((payload ++ checksum4 payload).length - 4))) =
    Except.ok payload
  rw [hlen, if_neg (by omega)]
  have hsub : payload.length + 4 - 4 = payload.length := by omega
  rw [hsub, take_append_len, drop_append_len]
  rw [if_neg (by simp)]

theorem base58CheckEncode_length (payload : List Nat)
    (hlen : payload.length = 21) (hb : ∀ d ∈ payload, d < 256) :
    (base58CheckEncode payload).length ≤ 50 := by
  unfold base58CheckEncode base58Encode
  set l := payload ++ checksum4 payload with hld
  have hl25 : l.length = 25 := by
    rw [hld, List.length_append, hlen, checksum4_length]
  have hall : ∀ d ∈ l, d < 256 := by
    intro d hd
    rcases List.mem_append.mp hd with hd | hd
    · exact hb d hd
    · exact checksum4_bytes payload d hd
  rw [List.length_append, List.length_replicate, List.length_map]
  set z := (l.takeWhile (· == 0)).length with hz
  have hzle : z ≤ 25 := by
    rw [hz, ← hl25]
    exact (List.takeWhile_sublist _).length_le
  have hrest : ofDigits 256 l = ofDigits 256 (l.dropWhile (· == 0)) := by
    conv_lhs => rw [← List.takeWhile_append_dropWhile (p := (· == 0)) (l := l)]
    rw [show l.takeWhile (· == 0) =
        List.replicate z 0 from ?_, ofDigits_replicate_zero]
    refine List.eq_replicate_of_mem (fun b hbm => ?_)
    have := List.mem_takeWhile_imp hbm
    simpa using this
  have hrlen : (l.dropWhile (· == 0)).length = 25 - z := by
    have := congrArg List.length
      (List.takeWhile_append_dropWhile (p := (· == 0)) (l := l))
    rw [List.length_append] at this
    omega
  have hnb : ofDigits 256 l < 58 ^ (35 - z) := by
    calc ofDigits 256 l = ofDigits 256 (l.dropWhile (· == 0)) := hrest
      _ < 256 ^ (l.dropWhile (· == 0)).length :=
          ofDigits_lt 256 (by omega) _ (fun d hd =>
            hall d (List.Sublist.mem hd (List.dropWhile_sublist _)))
      _ = 256 ^ (25 - z) := by rw [hrlen]
      _ ≤ 58 ^ (35 - z) := by
          have h26 : ∀ w, w ≤ 25 → 256 ^ (25 - w) ≤ 58 ^ (35 - w) := by decide
          exact h26 z hzle
  have hdl := digits58_length_le (ofDigits 256 l) (35 - z) hnb
  omega

theorem splitLastOne_shape :
    ∀ (c : Char) (rest : List Char) (a b : List Char),
      splitLastOne (c :: rest) = some (a, b) →
      a = [] ∨ ∃ a', a = c :: a' := by
  intro c rest a b h
  unfold splitLastOne at h
  cases hs : splitLastOne rest with
  | some p =>
    rw [hs] at h
    obtain ⟨p1, p2⟩ := p
    injection h with h
    injection h with h1 _
    exact Or.inr ⟨p1, h1.symm⟩
  | none =>
    rw [hs] at h
    by_cases hc : c = '1'
    · rw [if_pos hc] at h
      injection h with h
      injection h with h1 _
      exact Or.inl h1.symm
    · rw [if_neg hc] at h
      cases h

theorem bech32NetworkOf_cons_ne (c : Char) (rest : List Char)
    (hb : c ≠ 'b') (hB : c ≠ 'B') (ht : c ≠ 't') (hT : c ≠ 'T') :
    bech32NetworkOf (c :: rest) = none := by
  unfold bech32NetworkOf
  rw [if_neg (by
    rintro (h | h) <;> (injection h with h1 _)
    · exact hb h1
    · exact hB h1)]
  rw [if_neg (by
    rintro (h | h) <;> (injection h with h1 _)
    · exact ht h1
    · exact hT h1)]
  rw [if_neg (by
    rintro (h | h) <;> (injection h with h1 _)
    · exact hb h1
    · exact hB h1)]

theorem base58_no_hrp (c : Char) (rest : List Char)
    (hb : c ≠ 'b') (hB : c ≠ 'B') (ht : c ≠ 't') (hT : c ≠ 'T') :
    bech32NetworkOf (findBech32Hrp (c :: rest)) = none := by
  unfold findBech32Hrp
  cases hs : splitLastOne (c :: rest) with
  | none => exact bech32NetworkOf_cons_ne c rest hb hB ht hT
  | some p =>
    obtain ⟨a, b⟩ := p
    rcases splitLastOne_shape c rest a b hs with ha | ⟨a', ha⟩
    · rw [ha]
      rfl
    · rw [ha]
      exact bech32NetworkOf_cons_ne c a' hb hB ht hT

theorem base58CheckEncode_head (v : Nat) (hash : List Nat)
    (hv : v = 0 ∨ v = 5 ∨ v = 111 ∨ v = 196)
    (hlen : hash.length = 20) (hb : ∀ d ∈ hash, d < 256) :
    ∃ c rest, base58CheckEncode (v :: hash) = c :: rest ∧
      c ≠ 'b' ∧ c ≠ 'B' ∧ c ≠ 't' ∧ c ≠ 'T' := by
  unfold base58CheckEncode base58Encode
  have hl : (v :: hash) ++ checksum4 (v :: hash) =
      v :: (hash ++ checksum4 (v :: hash)) := rfl
  have htl : (hash ++ checksum4 (v :: hash)).length = 24 := by
    rw [List.length_append, hlen, checksum4_length]
  have hoftb : ofDigits 256 (hash ++ checksum4 (v :: hash)) < 256 ^ 24 := by
    rw [← htl]
    refine ofDigits_lt 256 (by omega) _ (fun d hd => ?_)
    rcases List.mem_append.mp hd with hd | hd
    · exact hb d hd
    · exact checksum4_bytes _ d hd
  have hofl : ofDigits 256 ((v :: hash) ++ checksum4 (v :: hash)) =
      v * 256 ^ 24 + ofDigits 256 (hash ++ checksum4 (v :: hash)) := by
    rw [hl, ofDigits_cons, htl]
  rcases hv with hv | hv | hv | hv
  · subst hv
    have htw : ((0 :: hash) ++ checksum4 (0 :: hash)).takeWhile (· == 0) =
        0 :: (hash ++ checksum4 (0 :: hash)).takeWhile (· == 0) := rfl
    rw [htw]
    rw [List.length_cons, List.replicate_succ, List.cons_append]
    exact ⟨'1', _, rfl, by decide, by decide, by decide, by decide⟩
  · subst hv
    have htw : ((5 :: hash) ++ checksum4 (5 :: hash)).takeWhile (· == 0) =
        [] := rfl
    rw [htw]
    rw [show (([] : List Nat)).length = 0 from rfl, List.replicate_zero,
      List.nil_append]
    have hfacts : 2 * 58 ^ 33 ≤ 5 * 256 ^ 24 ∧ 6 * 256 ^ 24 ≤ 3 * 58 ^ 33 := by
      decide
    obtain ⟨t, ht, _⟩ := digits58_window 33 2
      (ofDigits 256 ((5 :: hash) ++ checksum4 (5 :: hash)))
      (by omega) (by omega)
      (by rw [hofl]; omega)
      (by rw [hofl]; omega)
    rw [ht, List.map_cons]
    exact ⟨b58Char 2, _, rfl, by decide, by decide, by decide, by decide⟩
  · subst hv
    have htw : ((111 :: hash) ++ checksum4 (111 :: hash)).takeWhile (· == 0) =
        [] := rfl
    rw [htw]
    rw [show (([] : List Nat)).length = 0 from rfl, List.replicate_zero,
      List.nil_append]
    have hfacts : 44 * 58 ^ 33 ≤ 111 * 256 ^ 24 ∧
        112 * 256 ^ 24 ≤ 46 * 58 ^ 33 := by decide
    by_cases hmid : ofDigits 256 ((111 :: hash) ++ checksum4 (111 :: hash)) <
        45 * 58 ^ 33
    · obtain ⟨t, ht, _⟩ := digits58_window 33 44
        (ofDigits 256 ((111 :: hash) ++ checksum4 (111 :: hash)))
        (by omega) (by omega)
        (by rw [hofl]; omega)
        (by omega)
      rw [ht, List.map_cons]
      exact ⟨b58Char 44, _, rfl, by decide, by decide, by decide, by decide⟩
    · obtain ⟨t, ht, _⟩ := digits58_window 33 45
        (ofDigits 256 ((111 :: hash) ++ checksum4 (111 :: hash)))
        (by omega) (by omega)
        (by omega)
        (by rw [hofl]; omega)
      rw [ht, List.map_cons]
      exact ⟨b58Char 45, _, rfl, by decide, by decide, by decide, by decide⟩
  · subst hv
    have htw : ((196 :: hash) ++ checksum4 (196 :: hash)).takeWhile (· == 0) =
        [] := rfl
    rw [htw]
    rw [show (([] : List Nat)).length = 0 from rfl, List.replicate_zero,
      List.nil_append]
    have hfacts : 1 * 58 ^ 34 ≤ 196 * 256 ^ 24 ∧
        197 * 256 ^ 24 ≤ 2 * 58 ^ 34 := by decide
    obtain ⟨t, ht, _⟩ := digits58_window 34 1
      (ofDigits 256 ((196 :: hash) ++ checksum4 (196 :: hash)))
      (by omega) (by omega)
      (by rw [hofl]; omega)
      (by rw [hofl]; omega)
    rw [ht, List.map_cons]
    exact ⟨b58Char 1, _, rfl, by decide, by decide, by decide, by decide⟩

theorem fromText_base58 (v : Nat) (hash : List Nat)
    (hv : v = 0 ∨ v = 5 ∨ v = 111 ∨ v = 196)
    (hlen : hash.length = 20) (hb : ∀ d ∈ hash, d < 256) :
    Address.fromText (base58CheckEncode (v :: hash)) =
      (if v = 0 then .ok { network := .bitcoin, payload := .pubkeyHash hash }
       else if v = 5 then .ok { network := .bitcoin, payload := .scriptHash hash }
       else if v = 111 then .ok { network := .testnet, payload := .pubkeyHash hash }
       else .ok { network := .testnet, payload := .scriptHash hash }) := by
  obtain ⟨c, rest, hs, hcb, hcB, hct, hcT⟩ :=
    base58CheckEncode_head v hash hv hlen hb
  have hvb : ∀ d ∈ v :: hash, d < 256 := by
    intro d hd
    rcases List.mem_cons.mp hd with hd | hd
    · rcases hv with hv | hv | hv | hv <;> omega
    · exact hb d hd
  have hlen50 : (c :: rest).length ≤ 50 := by
    rw [← hs]
    refine base58CheckEncode_length (v :: hash) (by simp [hlen]) hvb
  unfold Address.fromText
  rw [hs, base58_no_hrp c rest hcb hcB hct hcT]
  rw [if_neg (by omega)]
  rw [← hs]
  simp only [base58FromCheck_enc (v :: hash) hvb]
  rw [if_neg (by simp [hlen])]
  rcases hv with hv | hv | hv | hv <;> subst hv <;> rfl

theorem splitLastOne_no_one : ∀ l : List Char, '1' ∉ l → splitLastOne l = none := by
  intro l
  induction l with
  | nil => intro _; rfl
  | cons c t ih =>
    intro h
    unfold splitLastOne
    rw [ih (fun hm => h (List.mem_cons_of_mem _ hm))]
    rw [if_neg (fun he => h (by rw [he]; exact List.mem_cons_self _ _))]

theorem splitLastOne_sep :
    ∀ (hrp body : List Char), '1' ∉ body →
      splitLastOne (hrp ++ '1' :: body) = some (hrp, body) := by
  intro hrp
  induction hrp with
  | nil =>
    intro body h
    show splitLastOne ('1' :: body) = _
    unfold splitLastOne
    rw [splitLastOne_no_one body h, if_pos rfl]
  | cons c t ih =>
    intro body h
    show splitLastOne (c :: (t ++ '1' :: body)) = _
    unfold splitLastOne
    rw [ih body h]

theorem b32_roundtrip_facts :
    (∀ d, d < 32 → b32Val (b32Char d) = some d) ∧
    (∀ d, d < 32 → isUpperAlpha (b32Char d) = false) ∧
    (∀ d, d < 32 → b32Char d ≠ '1') ∧
    (∀ d, d < 32 → lowerChar (b32Char d) = b32Char d) := by
  refine ⟨by decide, by decide, by decide, by decide⟩

theorem bitsVal_fold_lt : ∀ (l : List Bool) (a : Nat),
    List.foldl (fun a b => 2 * a + (if b then 1 else 0)) a l < (a + 1) * 2 ^ l.length := by
  intro l
  induction l with
  | nil => intro a; simp
  | cons b t ih =>
    intro a
    rw [List.foldl_cons, List.length_cons]
    calc List.foldl _ (2 * a + (if b then 1 else 0)) t
        < (2 * a + (if b then 1 else 0) + 1) * 2 ^ t.length := ih _
      _ ≤ (2 * a + 2) * 2 ^ t.length := by
          have : (if b then 1 else 0) ≤ 1 := by split <;> omega
          exact Nat.mul_le_mul_right _ (by omega)
      _ = (a + 1) * 2 ^ (t.length + 1) := by ring
  
theorem bitsVal_lt (l : List Bool) : bitsVal l < 2 ^ l.length := by
  have := bitsVal_fold_lt l 0
  simpa using this

theorem chunkGo_length_le {k : Nat} (hk : 1 ≤ k) : ∀ (m : Nat) (l : List Bool),
    l.length ≤ m → ∀ c ∈ chunkGo k l.length l, c.length ≤ k := by
  intro m
  induction m with
  | zero =>
    intro l hm c hc
    have : l = [] := List.eq_nil_of_length_eq_zero (by omega)
    subst this
    cases hc
  | succ m ih =>
    intro l hm c hc
    by_cases h0 : l = []
    · subst h0
      cases hc
    · have hlen : l.length ≠ 0 := fun hx => h0 (List.eq_nil_of_length_eq_zero hx)
      obtain ⟨a, ha⟩ : ∃ a, l.length = a + 1 := ⟨l.length - 1, by omega⟩
      rw [ha] at hc
      simp only [chunkGo, h0, if_false] at hc
      rcases List.mem_cons.mp hc with hc | hc
      · rw [hc]
        simp [List.length_take]
      · have hd : (l.drop k).length = l.length - k := by simp
        have heq := chunkGo_irrel hk (l.drop k).length (l.drop k) a (l.drop k).length
          (le_refl _) (by omega) (le_refl _)
        rw [heq] at hc
        exact ih (l.drop k) (by omega) c hc

theorem wordBits_bitsVal : ∀ l : List Bool, l.length = 5 →
    wordBits (bitsVal l) = l := by
  intro l hl
  cases l with
  | nil => simp at hl
  | cons a l =>
    cases l with
    | nil => simp at hl
    | cons b l =>
      cases l with
      | nil => simp at hl
      | cons c l =>
        cases l with
        | nil => simp at hl
        | cons d l =>
          cases l with
          | nil => simp at hl
          | cons e l =>
            cases l with
            | cons f l => simp at hl
            | nil =>
              cases a <;> cases b <;> cases c <;> cases d <;> cases e <;> rfl

theorem chunk5_words_flatten : ∀ (m : Nat) (l : List Bool), l.length ≤ m →
    5 ∣ l.length →
    ((chunk5 l).map (fun c => wordBits (bitsVal c))).flatten = l := by
  intro m
  induction m with
  | zero =>
    intro l hm _
    have : l = [] := List.eq_nil_of_length_eq_zero (by omega)
    subst this
    rfl
  | succ m ih =>
    intro l hm hdvd
    by_cases h0 : l = []
    · subst h0; rfl
    · have hlen : l.length ≠ 0 := fun hx => h0 (List.eq_nil_of_length_eq_zero hx)
      have h5 : 5 ≤ l.length := by
        obtain ⟨q, hq⟩ := hdvd
        omega
      rw [chunk5_unfold, if_neg h0, List.map_cons, List.flatten_cons]
      have htk : (l.take 5).length = 5 := by simp; omega
      rw [wordBits_bitsVal _ htk]
      have hdl : (l.drop 5).length = l.length - 5 := by simp
      rw [ih (l.drop 5) (by omega) (by rw [hdl]; obtain ⟨q, hq⟩ := hdvd; exact ⟨q - 1, by omega⟩)]
      exact List.take_append_drop 5 l

theorem byteBits_flatten_length : ∀ prog : List Nat,
    ((prog.map byteBits).flatten).length = 8 * prog.length := by
  intro prog
  induction prog with
  | nil => rfl
  | cons b t ih =>
    rw [List.map_cons, List.flatten_cons, List.length_append, ih,
      List.length_cons]
    rw [show (byteBits b).length = 8 from rfl]
    ring

theorem chunk8_byteBits : ∀ prog : List Nat,
    chunk8 ((prog.map byteBits).flatten) = prog.map byteBits := by
  intro prog
  induction prog with
  | nil => rfl
  | cons b t ih =>
    rw [List.map_cons, List.flatten_cons, chunk8_unfold,
      if_neg (by
        intro he
        have := congrArg List.length he
        rw [List.length_append] at this
        rw [show (byteBits b).length = 8 from rfl] at this
        simp at this),
      take_append_len' (show (byteBits b).length = 8 from rfl),
      drop_append_len' (show (byteBits b).length = 8 from rfl), ih]

theorem bitsVal_byteBits : ∀ b, b < 256 → bitsVal (byteBits b) = b := by
  decide

theorem fromBase32_toBase32 (prog : List Nat) (hb : ∀ b ∈ prog, b < 256) :
    fromBase32 (toBase32 prog) = .ok prog := by
  have hlen0 : ((prog.map byteBits).flatten).length = 8 * prog.length :=
    byteBits_flatten_length prog
  set L := prog.length with hL
  set bits0 := (prog.map byteBits).flatten with hbits0
  set pad := (5 - bits0.length % 5) % 5 with hpad
  have hpad4 : pad ≤ 4 := by omega
  set bitsP := bits0 ++ List.replicate pad false with hbitsP
  have hlenP : bitsP.length = 8 * L + pad := by
    rw [hbitsP, List.length_append, List.length_replicate, hlen0]
  have hdvd : 5 ∣ bitsP.length := by
    rw [hlenP, hpad, hlen0]
    omega
  have hwords : ((((chunk5 bitsP).map bitsVal).map wordBits).flatten) = bitsP := by
    rw [List.map_map]
    exact chunk5_words_flatten bitsP.length bitsP (le_refl _) hdvd
  show fromBase32 ((chunk5 bitsP).map bitsVal) = .ok prog
  unfold fromBase32
  simp only [hwords]
  have hm : bitsP.length / 8 = L := by
    rw [hlenP]
    omega
  rw [hm]
  rw [if_neg (by rw [hlenP]; omega)]
  rw [if_neg (by
    rw [hbitsP, drop_append_len' (by rw [hlen0])]
    simp)]
  rw [hbitsP, take_append_len' (by rw [hlen0])]
  rw [hbits0, chunk8_byteBits, List.map_map]
  congr 1
  refine (List.map_congr_left (fun b hbm => ?_)).trans (List.map_id _)
  simp only [Function.comp_apply, bitsVal_byteBits b (hb b hbm)]
  rfl

theorem bech32Checksum_length (hrp : List Char) (ws : List Nat) :
    (bech32Checksum hrp ws).length = 6 := rfl

theorem bech32Checksum_words (hrp : List Char) (ws : List Nat) :
    ∀ w ∈ bech32Checksum hrp ws, w < 32 := by
  intro w hw
  unfold bech32Checksum at hw
  simp only [List.mem_cons, List.not_mem_nil, or_false] at hw
  rcases hw with hw | hw | hw | hw | hw | hw <;> omega

theorem toBase32_words (prog : List Nat) : ∀ w ∈ toBase32 prog, w < 32 := by
  intro w hw
  unfold toBase32 at hw
  obtain ⟨c, hc, rfl⟩ := List.mem_map.mp hw
  have hcl : c.length ≤ 5 := by
    refine chunkGo_length_le (k := 5) (by omega) _ _ (le_refl _) c hc
  have h1 := bitsVal_lt c
  have h2 : (2 : Nat) ^ c.length ≤ 2 ^ 5 :=
    Nat.pow_le_pow_right (by omega) hcl
  have h32 : (2 : Nat) ^ 5 = 32 := rfl
  omega

theorem bech32Decode_enc (hrp : List Char) (ws : List Nat)
    (hhrp : hrp = ['b', 'c'] ∨ hrp = ['t', 'b'] ∨ hrp = ['b', 'c', 'r', 't'])
    (hws : ∀ w ∈ ws, w < 32) :
    bech32Decode (bech32Encode hrp ws) = .ok (hrp, ws) := by
  obtain ⟨hb32v, hb32up, hb32one, hb32low⟩ := b32_roundtrip_facts
  have hall : ∀ w ∈ ws ++ bech32Checksum hrp ws, w < 32 := by
    intro w hw
    rcases List.mem_append.mp hw with hw | hw
    · exact hws w hw
    · exact bech32Checksum_words hrp ws w hw
  have hchars : ∀ c ∈ hrp ++ '1' :: (ws ++ bech32Checksum hrp ws).map b32Char,
      isUpperAlpha c = false ∧ lowerChar c = c := by
    intro c hc
    rcases List.mem_append.mp hc with hc | hc
    · rcases hhrp with hh | hh | hh <;> rw [hh] at hc <;>
        (simp only [List.mem_cons, List.not_mem_nil, or_false] at hc) <;>
        (rcases hc with hc | hc | hc | hc <;> (try subst hc) <;>
          first | exact ⟨by decide, by decide⟩ | skip)
    · rcases List.mem_cons.mp hc with hc | hc
      · subst hc
        exact ⟨by decide, by decide⟩
      · obtain ⟨w, hw, rfl⟩ := List.mem_map.mp hc
        exact ⟨hb32up w (hall w hw), hb32low w (hall w hw)⟩
  unfold bech32Encode bech32Decode
  have hup : (hrp ++ '1' :: (ws ++ bech32Checksum hrp ws).map b32Char).any
      isUpperAlpha = false := by
    rw [List.any_eq_false]
    intro c hc
    rw [(hchars c hc).1]
    exact Bool.false_ne_true
  rw [hup, Bool.false_and, if_neg (by simp)]
  have hlow : (hrp ++ '1' :: (ws ++ bech32Checksum hrp ws).map b32Char).map
      lowerChar = hrp ++ '1' :: (ws ++ bech32Checksum hrp ws).map b32Char := by
    refine (List.map_congr_left ?_).trans (List.map_id _)
    intro c hc
    exact (hchars c hc).2
  simp only [hlow]
  have hone : '1' ∉ (ws ++ bech32Checksum hrp ws).map b32Char := by
    intro hm
    obtain ⟨w, hw, hwe⟩ := List.mem_map.mp hm
    exact hb32one w (hall w hw) hwe
  simp only [splitLastOne_sep hrp _ hone]
  rw [if_neg (by rcases hhrp with hh | hh | hh <;> rw [hh] <;> simp)]
  rw [if_neg (by
    rw [List.length_map, List.length_append, bech32Checksum_length]
    omega)]
  have hmap := mapM_ok_of
    (fun c => match b32Val c with
      | some v => Except.ok v
      | none => Except.error (Bech32Error.invalidChar c))
    ((ws ++ bech32Checksum hrp ws).map b32Char)
    (fun c => (b32Val c).getD 0)
    (by
      intro c hc
      obtain ⟨w, hw, rfl⟩ := List.mem_map.mp hc
      simp only [hb32v w (hall w hw)]
      rfl)
  rw [hmap]
  have hmapval : ((ws ++ bech32Checksum hrp ws).map b32Char).map
      (fun c => (b32Val c).getD 0) = ws ++ bech32Checksum hrp ws := by
    rw [List.map_map]
    refine (List.map_congr_left (fun w hw => ?_)).trans (List.map_id _)
    simp only [Function.comp_apply, hb32v w (hall w hw), Option.getD_some]
    rfl
  simp only [hmapval]
  have hnlen : (ws ++ bech32Checksum hrp ws).length - 6 = ws.length := by
    rw [List.length_append, bech32Checksum_length]
    omega
  rw [hnlen, take_append_len, drop_append_len]
  rw [if_neg (by simp)]

theorem hrpOf_cases (network : Network) :
    hrpOf network = ['b', 'c'] ∨ hrpOf network = ['t', 'b'] ∨
    hrpOf network = ['b', 'c', 'r', 't'] := by
  cases network
  · exact Or.inl rfl
  · exact Or.inr (Or.inl rfl)
  · exact Or.inr (Or.inr rfl)

theorem bech32NetworkOf_hrpOf (network : Network) :
    bech32NetworkOf (hrpOf network) = some network := by
  cases network <;> rfl

theorem fromText_bech32 (network : Network) (v : Nat) (prog : List Nat)
    (hv : v ≤ 16) (hlen2 : 2 ≤ prog.length) (hlen40 : prog.length ≤ 40)
    (hv0 : v = 0 → prog.length = 20 ∨ prog.length = 32)
    (hb : ∀ b ∈ prog, b < 256) :
    Address.fromText (bech32Encode (hrpOf network) (v :: toBase32 prog)) =
      .ok { payload := .witnessProgram v prog, network := network } := by
  obtain ⟨hb32v, hb32up, hb32one, hb32low⟩ := b32_roundtrip_facts
  have hws : ∀ w ∈ v :: toBase32 prog, w < 32 := by
    intro w hw
    rcases List.mem_cons.mp hw with hw | hw
    · omega
    · exact toBase32_words prog w hw
  have hdec := bech32Decode_enc (hrpOf network) (v :: toBase32 prog)
    (hrpOf_cases network) hws
  have hone : '1' ∉ ((v :: toBase32 prog) ++
      bech32Checksum (hrpOf network) (v :: toBase32 prog)).map b32Char := by
    intro hm
    obtain ⟨w, hw, hwe⟩ := List.mem_map.mp hm
    refine hb32one w ?_ hwe
    rcases List.mem_append.mp hw with hw | hw
    · exact hws w hw
    · exact bech32Checksum_words _ _ w hw
  have hhrp : findBech32Hrp (bech32Encode (hrpOf network) (v :: toBase32 prog)) =
      hrpOf network := by
    unfold findBech32Hrp bech32Encode
    rw [splitLastOne_sep _ _ hone]
  unfold Address.fromText
  rw [hhrp, bech32NetworkOf_hrpOf]
  rw [hdec]
  simp only [fromBase32_toBase32 prog hb]
  rw [if_neg (by omega)]
  rw [if_neg (by omega)]
  rw [if_neg (by
    rintro ⟨h0, h20, h32⟩
    rcases hv0 h0 with h | h
    · exact h20 h
    · exact h32 h)]

def Address.wfAddr (a : Address) : Prop :=
  match a.payload with
  | .pubkeyHash h => h.length = 20 ∧ BytesOk h
  | .scriptHash h => h.length = 20 ∧ BytesOk h
  | .witnessProgram v p =>
      v ≤ 16 ∧ 2 ≤ p.length ∧ p.length ≤ 40 ∧
      (v = 0 → p.length = 20 ∨ p.length = 32) ∧ BytesOk p

instance : DecidablePred Address.wfAddr := fun a => by
  unfold Address.wfAddr
  cases a.payload <;> infer_instance

/-- C3 (amended): for every valid Address whose combination is not a base58
(pubkey-hash or script-hash) payload on the Regtest network, parsing the
Display text yields the address back; Regtest base58 addresses re-parse with
network Testnet instead, because Regtest shares the Testnet base58 version
bytes. -/
theorem c3_roundtrip (a : Address) (hwf : a.wfAddr)
    (hreg : a.network = .regtest → ∃ v p, a.payload = .witnessProgram v p) :
    Address.fromText (Address.toText a) = .ok a := by
  obtain ⟨pl, nw⟩ := a
  cases pl with
  | pubkeyHash h =>
    obtain ⟨hlen, hb⟩ := hwf
    show Address.fromText (Address.toText ⟨.pubkeyHash h, nw⟩) = _
    unfold Address.toText
    cases nw with
    | bitcoin =>
      rw [show ((match Network.bitcoin with
        | Network.bitcoin => 0
        | Network.testnet => 111
        | Network.regtest => 111) : Nat) = 0 from rfl]
      rw [fromText_base58 0 h (Or.inl rfl) hlen hb]
      rfl
    | testnet =>
      rw [show ((match Network.testnet with
        | Network.bitcoin => 0
        | Network.testnet => 111
        | Network.regtest => 111) : Nat) = 111 from rfl]
      rw [fromText_base58 111 h (Or.inr (Or.inr (Or.inl rfl))) hlen hb]
      rfl
    | regtest =>
      obtain ⟨v, p, hp⟩ := hreg rfl
      cases hp
  | scriptHash h =>
    obtain ⟨hlen, hb⟩ := hwf
    show Address.fromText (Address.toText ⟨.scriptHash h, nw⟩) = _
    unfold Address.toText
    cases nw with
    | bitcoin =>
      rw [show ((match Network.bitcoin with
        | Network.bitcoin => 5
        | Network.testnet => 196
        | Network.regtest => 196) : Nat) = 5 from rfl]
      rw [fromText_base58 5 h (Or.inr (Or.inl rfl)) hlen hb]
      rfl
    | testnet =>
      rw [show ((match Network.testnet with
        | Network.bitcoin => 5
        | Network.testnet => 196
        | Network.regtest => 196) : Nat) = 196 from rfl]
      rw [fromText_base58 196 h (Or.inr (Or.inr (Or.inr rfl))) hlen hb]
      rfl
    | regtest =>
      obtain ⟨v, p, hp⟩ := hreg rfl
      cases hp
  | witnessProgram v p =>
    obtain ⟨hv, hlen2, hlen40, hv0, hb⟩ := hwf
    show Address.fromText (Address.toText ⟨.witnessProgram v p, nw⟩) = _
    unfold Address.toText
    exact fromText_bech32 nw v p hv hlen2 hlen40 hv0 hb

def aMainPkh : Address := { payload := .pubkeyHash hash20, network := .bitcoin }

def aRegWit : Address :=
  { payload := .witnessProgram 0 (List.replicate 20 7), network := .regtest }

theorem c3_roundtrip_witness :
    (aMainPkh.wfAddr ∧
      Address.fromText (Address.toText aMainPkh) = .ok aMainPkh) ∧
    (aRegWit.wfAddr ∧
      Address.fromText (Address.toText aRegWit) = .ok aRegWit) :=
  ⟨⟨by decide,
    c3_roundtrip aMainPkh (by decide) (fun h => by cases h)⟩,
   ⟨by decide,
    c3_roundtrip aRegWit (by decide)
      (fun _ => ⟨0, List.replicate 20 7, rfl⟩)⟩⟩
